import Mathlib

/-! # Order book simulator: a shallow embedding of `src/ob/*`

The C++ sources `order.hpp`, `price_level.hpp`, `book.hpp` and `book.cpp` are
embedded as pure Lean functions with explicit state passing.

* `int64_t` prices, quantities and timestamps are `Int`; `uint64_t` ids are
  `Nat`.  The arithmetic of `add`, `cancel` and `replace` is `min`,
  subtraction of a value from a larger one and comparison, and that of
  `can_fully_fill` is subtraction of one positive value from another, where
  nothing can wrap; the accumulator of `Level::total_qty` is reduced to the `int64_t`
  range after every addition (`wrap64`).
  `px % tick_` is the truncating remainder of C++ (`Int.tmod`).
* `std::map<int64_t, Level, Cmp>` is a list of `(key, Level)` pairs kept in
  iteration order (`begin()` is the head).  The functions do not require the
  list to be sorted; sortedness is a separate predicate that is shown to be
  preserved.
* `std::unordered_map<uint64_t, Handle>` is a function `Nat → Option Handle`.
* `std::deque<QueueEntry>` and `std::vector<Trade>` are lists, `push_back`
  appends at the end and `pop_front` drops the head.
* The snapshots `bids` and `asks` can throw, from `out.reserve(depth)` only;
  they return `Except`, and whether the allocator provides the storage asked
  for is a parameter `alloc` of theirs.
-/

namespace OB

/-! ## order.hpp -/

/-- Side of an order (`enum class Side`). -/
inductive Side where
  | Buy
  | Sell
  deriving DecidableEq, Repr

/-- Order type (`enum class Type`; renamed because `Type` is reserved). -/
inductive OrdType where
  | Limit
  | Market
  deriving DecidableEq, Repr

/-- Time in force (`enum class TIF`). -/
inductive TIF where
  | Day
  | IOC
  | FOK
  | GTC
  | PostOnly
  deriving DecidableEq, Repr

/-- Incoming order (`struct Order`). -/
structure Order where
  id : Nat
  side : Side
  type : OrdType
  tif : TIF
  px : Int
  qty : Int
  ts_ns : Int
  post_only : Bool
  deriving DecidableEq, Repr

/-- Trade record (`struct Trade`). -/
structure Trade where
  taker_id : Nat
  maker_id : Nat
  px : Int
  qty : Int
  ts_ns : Int
  taker_is_buy : Bool
  deriving DecidableEq, Repr

/-! ## price_level.hpp -/

/-- Resting entry of a level queue (`struct QueueEntry`). -/
structure QueueEntry where
  id : Nat
  qty : Int
  ts_ns : Int
  deriving DecidableEq, Repr

/-- One price level (`struct Level`): its price and its FIFO queue. -/
structure Level where
  px : Int
  q : List QueueEntry
  deriving DecidableEq, Repr

/-- Append at the tail of the queue (`Level::enqueue`). -/
def Level.enqueue (l : Level) (id : Nat) (qty : Int) (ts_ns : Int) : Level :=
  { l with q := l.q ++ [⟨id, qty, ts_ns⟩] }

/-- The value an `int64_t` holds after an arithmetic result `x`: `x` itself
when it fits, otherwise `x` reduced modulo `2^64` into the signed range.
(Signed overflow is undefined in C++; this is what the usual targets produce.) -/
def wrap64 (x : Int) : Int :=
  (x + 9223372036854775808) % 18446744073709551616 - 9223372036854775808

/-- Sum of the queue in an `int64_t` accumulator (`Level::total_qty`). -/
def Level.total_qty (l : Level) : Int :=
  l.q.foldl (fun tot e => wrap64 (tot + e.qty)) 0

/-- Length of the queue (`Level::count`). -/
def Level.count (l : Level) : Nat := l.q.length

/-! ## book.hpp -/

/-- Aggregated rung of a snapshot (`struct LevelView`). -/
structure LevelView where
  px : Int
  qty : Int
  orders : Nat
  deriving DecidableEq, Repr

/-- Locator stored in the id index (`struct Handle`). -/
structure Handle where
  side : Side
  px : Int
  deriving DecidableEq, Repr

/-- An ordered price map, in iteration order (`std::map<int64_t, Level, Cmp>`). -/
abbrev Ladder := List (Int × Level)

/-- The id index (`std::unordered_map<uint64_t, Handle>`). -/
abbrev IdIndex := Nat → Option Handle

/-- The index after `id_index_.erase(id)`. -/
def IdIndex.erase (m : IdIndex) (id : Nat) : IdIndex :=
  fun k => if k = id then none else m k

/-- The index after `id_index_[id] = h`. -/
def IdIndex.assign (m : IdIndex) (id : Nat) (h : Handle) : IdIndex :=
  fun k => if k = id then some h else m k

/-- The lookup `m.find(k)` of an ordered map. -/
def map_find (k : Int) : Ladder → Option Level
  | [] => none
  | (k', v) :: rest => if k = k' then some v else map_find k rest

/-- The map after `m.erase(it)` where `it` points at key `k`. -/
def map_erase (k : Int) : Ladder → Ladder
  | [] => []
  | (k', v) :: rest => if k = k' then rest else (k', v) :: map_erase k rest

/-- The map after `m.try_emplace(k, v)`: a present key keeps its value, an
absent key is inserted at its place in the order `lt` of the map. -/
def map_try_emplace (lt : Int → Int → Bool) (k : Int) (v : Level) : Ladder → Ladder
  | [] => [(k, v)]
  | (k', v') :: rest =>
    if k = k' then (k', v') :: rest
    else if lt k k' then (k, v) :: (k', v') :: rest
    else (k', v') :: map_try_emplace lt k v rest

/-- The map after a write `f` through an iterator that points at key `k`. -/
def map_modify (k : Int) (f : Level → Level) : Ladder → Ladder
  | [] => []
  | (k', v) :: rest =>
    if k = k' then (k', f v) :: rest else (k', v) :: map_modify k f rest

/-- Key order of `bid_levels_` (`std::greater<int64_t>`). -/
def bid_lt (a b : Int) : Bool := decide (b < a)

/-- Key order of `ask_levels_` (`std::less<int64_t>`). -/
def ask_lt (a b : Int) : Bool := decide (a < b)

/-- The state of `class OrderBook`. -/
structure OrderBook where
  symbol_ : String
  tick_ : Int
  bid_levels_ : Ladder
  ask_levels_ : Ladder
  id_index_ : IdIndex
  trades_ : List Trade

/-- The constructor `OrderBook::OrderBook(symbol, tick)`. -/
def OrderBook.init (symbol : String) (tick : Int) : OrderBook :=
  ⟨symbol, tick, [], [], fun _ => none, []⟩

/-- The member `OrderBook::pop_trade`: returns the journal and clears it. -/
def pop_trade (b : OrderBook) : List Trade × OrderBook :=
  (b.trades_, { b with trades_ := [] })

/-! ## book.cpp: the matcher -/

/-- State of the inner loop of `match_incoming`: the queue of the level being
consumed, the taker, the id index, the journal and the flag `any`. -/
structure Fill where
  dq : List QueueEntry
  inn : Order
  idx : IdIndex
  trades : List Trade
  any : Bool

/-- The inner loop `while (in.qty > 0 && !dq.empty())` of `match_incoming`
at the level of price `trade_px`; `buy` is the constant written to
`taker_is_buy` by the branch the loop is in. -/
def fill_queue (trade_px : Int) (buy : Bool) :
    List QueueEntry → Order → IdIndex → List Trade → Bool → Fill
  | [], inn, idx, tr, any => ⟨[], inn, idx, tr, any⟩
  | maker :: rest, inn, idx, tr, any =>
    if 0 < inn.qty then
      let exec := min inn.qty maker.qty
      let tr1 := tr ++ [⟨inn.id, maker.id, trade_px, exec, inn.ts_ns, buy⟩]
      let inn1 := { inn with qty := inn.qty - exec }
      if maker.qty - exec = 0 then
        fill_queue trade_px buy rest inn1 (idx.erase maker.id) tr1 true
      else
        ⟨{ maker with qty := maker.qty - exec } :: rest, inn1, idx, tr1, true⟩
    else ⟨maker :: rest, inn, idx, tr, any⟩

/-- State of the outer loop of `match_incoming`: the opposite ladder, the
taker, the id index, the journal and the flag `any`. -/
structure Sweep where
  opp : Ladder
  inn : Order
  idx : IdIndex
  trades : List Trade
  any : Bool

/-- The price check of `match_incoming`: `in.px < trade_px` on the buy branch,
`in.px > trade_px` on the sell branch. -/
def past_limit (buy : Bool) (in_px trade_px : Int) : Bool :=
  if buy then decide (in_px < trade_px) else decide (trade_px < in_px)

/-- The outer loop `while (in.qty > 0 && !opp.empty())` of `match_incoming`,
run for at most `fuel` iterations. -/
def match_loop (buy : Bool) : Nat → Sweep → Sweep
  | 0, s => s
  | fuel + 1, s =>
    if 0 < s.inn.qty then
      match s.opp with
      | [] => s
      | (trade_px, lvl) :: rest =>
        if s.inn.type ≠ OrdType.Market ∧ past_limit buy s.inn.px trade_px = true then s
        else
          let r := fill_queue trade_px buy lvl.q s.inn s.idx s.trades s.any
          let opp1 := if r.dq.isEmpty then rest else (trade_px, { lvl with q := r.dq }) :: rest
          match_loop buy fuel ⟨opp1, r.inn, r.idx, r.trades, r.any⟩
    else s

/-- The member `OrderBook::match_incoming`: returns `any`, the taker as left
by the loop, and the book.  Every iteration of the outer loop either removes
the first level or leaves `in.qty` at zero, so one more iteration than there
are levels is enough (`match_loop_fuel`). -/
def match_incoming (b : OrderBook) (inn : Order) : Bool × Order × OrderBook :=
  match inn.side with
  | Side.Buy =>
    let s := match_loop true (b.ask_levels_.length + 1)
      ⟨b.ask_levels_, inn, b.id_index_, b.trades_, false⟩
    (s.any, s.inn, { b with ask_levels_ := s.opp, id_index_ := s.idx, trades_ := s.trades })
  | Side.Sell =>
    let s := match_loop false (b.bid_levels_.length + 1)
      ⟨b.bid_levels_, inn, b.id_index_, b.trades_, false⟩
    (s.any, s.inn, { b with bid_levels_ := s.opp, id_index_ := s.idx, trades_ := s.trades })

/-! ## book.cpp: admission helpers -/

/-- The lambda `would_cross_limit` of `add` (same as the member of that name). -/
def would_cross_limit (b : OrderBook) (x : Order) : Bool :=
  if x.type = OrdType.Market then true
  else match x.side with
    | Side.Buy =>
      match b.ask_levels_ with
      | [] => false
      | (best_ask, _) :: _ => decide (best_ask ≤ x.px)
    | Side.Sell =>
      match b.bid_levels_ with
      | [] => false
      | (best_bid, _) :: _ => decide (x.px ≤ best_bid)

/-- The inner `for (const auto& row : dq)` of `can_fully_fill`: `none` when
the loop hit `return true`, otherwise the value of `need` after the queue. -/
def walk_queue : List QueueEntry → Int → Option Int
  | [], need => some need
  | row :: rest, need =>
    if need - row.qty ≤ 0 then none else walk_queue rest (need - row.qty)

/-- The outer `for` of `can_fully_fill` over the opposite ladder, from `it`
on, including the final `return need <= 0`. -/
def walk_levels (buy : Bool) (x : Order) : Ladder → Int → Bool
  | [], need => decide (need ≤ 0)
  | (px, lvl) :: rest, need =>
    if 0 < need then
      if x.type = OrdType.Limit ∧ past_limit buy x.px px = true then decide (need ≤ 0)
      else match walk_queue lvl.q need with
        | none => true
        | some need1 => walk_levels buy x rest need1
    else decide (need ≤ 0)

/-- The lambda `can_fully_fill` of `add`. -/
def can_fully_fill (b : OrderBook) (x : Order) : Bool :=
  if x.qty ≤ 0 then true
  else match x.side with
    | Side.Buy => walk_levels true x b.ask_levels_ x.qty
    | Side.Sell => walk_levels false x b.bid_levels_ x.qty

/-- The inner `for (const auto& row : dq)` of the member
`OrderBook::can_fully_fill`: `none` when the loop hit `return true`, otherwise
the value of `need` after the queue. -/
def scan_queue : List QueueEntry → Int → Option Int
  | [], need => some need
  | row :: rest, need =>
    if need - row.qty ≤ 0 then none else scan_queue rest (need - row.qty)

/-- The `for` over `ask_levels_` of the member `OrderBook::can_fully_fill` (its
branch `in.side == Side::Buy`), from `it` on, with the final
`return need <= 0`. -/
def scan_asks (inn : Order) : Ladder → Int → Bool
  | [], need => decide (need ≤ 0)
  | (px, lvl) :: rest, need =>
    if 0 < need then
      if inn.type = OrdType.Limit ∧ inn.px < px then decide (need ≤ 0)
      else match scan_queue lvl.q need with
        | none => true
        | some need1 => scan_asks inn rest need1
    else decide (need ≤ 0)

/-- The `for` over `bid_levels_` of the member `OrderBook::can_fully_fill` (its
`else` branch), from `it` on, with the final `return need <= 0`. -/
def scan_bids (inn : Order) : Ladder → Int → Bool
  | [], need => decide (need ≤ 0)
  | (px, lvl) :: rest, need =>
    if 0 < need then
      if inn.type = OrdType.Limit ∧ px < inn.px then decide (need ≤ 0)
      else match scan_queue lvl.q need with
        | none => true
        | some need1 => scan_bids inn rest need1
    else decide (need ≤ 0)

/-- The member `OrderBook::can_fully_fill`, a `const` member written apart
from the lambda of the same name in `add`. -/
def OrderBook.can_fully_fill (b : OrderBook) (inn : Order) : Bool :=
  if inn.qty ≤ 0 then true
  else match inn.side with
    | Side.Buy => scan_asks inn b.ask_levels_ inn.qty
    | Side.Sell => scan_bids inn b.bid_levels_ inn.qty

/-- The block that rests `qty` of order `id` at `px` on `side`:
`try_emplace(px, Level{px})`, `enqueue` on the level found, and the index
assignment.  The source repeats it in `add` (twice) and in `replace`. -/
def rest_order (b : OrderBook) (side : Side) (px : Int) (id : Nat) (qty ts_ns : Int) :
    OrderBook :=
  match side with
  | Side.Buy =>
    { b with
      bid_levels_ := map_modify px (fun l => l.enqueue id qty ts_ns)
        (map_try_emplace bid_lt px ⟨px, []⟩ b.bid_levels_)
      id_index_ := b.id_index_.assign id ⟨Side.Buy, px⟩ }
  | Side.Sell =>
    { b with
      ask_levels_ := map_modify px (fun l => l.enqueue id qty ts_ns)
        (map_try_emplace ask_lt px ⟨px, []⟩ b.ask_levels_)
      id_index_ := b.id_index_.assign id ⟨Side.Sell, px⟩ }

/-! ## book.cpp: add, cancel, replace -/

/-- The member `OrderBook::add`: the returned flag and the book afterwards. -/
def add (b : OrderBook) (o : Order) : Bool × OrderBook :=
  if o.qty ≤ 0 then (false, b)
  else if (b.id_index_ o.id).isSome then (false, b)
  else if o.type ≠ OrdType.Market ∧ (o.px ≤ 0 ∨ Int.tmod o.px b.tick_ ≠ 0) then (false, b)
  else if o.tif = TIF.PostOnly then
    if o.type = OrdType.Market ∨ would_cross_limit b o = true then (false, b)
    else (true, rest_order b o.side o.px o.id o.qty o.ts_ns)
  else if o.tif = TIF.FOK then
    if can_fully_fill b o = false then (false, b)
    else
      let r := match_incoming b o
      (decide (r.2.1.qty = 0), r.2.2)
  else if o.type = OrdType.Market then
    (true, (match_incoming b o).2.2)
  else
    let r := match_incoming b o
    if o.tif = TIF.IOC then (true, r.2.2)
    else if 0 < r.2.1.qty then
      (true, rest_order r.2.2 r.2.1.side r.2.1.px r.2.1.id r.2.1.qty r.2.1.ts_ns)
    else (true, r.2.2)

/-- The queue after `dq.erase(it)` where `it` is the first entry with `id`
(the entry the linear scan of `cancel` and the `find_if` of `replace` stop at). -/
def erase_first (id : Nat) : List QueueEntry → List QueueEntry
  | [] => []
  | e :: rest => if e.id = id then rest else e :: erase_first id rest

/-- The first entry with `id` (`std::find_if` over the queue). -/
def find_row (id : Nat) : List QueueEntry → Option QueueEntry
  | [] => none
  | e :: rest => if e.id = id then some e else find_row id rest

/-- The ladder after `dq.erase(it); if (dq.empty()) level_map.erase(it_lvl);`
for the first entry with `id` in the level `lvl` stored at key `px` (the same
two statements in `cancel` and in both branches of `replace`). -/
def erase_entry (id : Nat) (px : Int) (lvl : Level) (m : Ladder) : Ladder :=
  let dq := erase_first id lvl.q
  if dq.isEmpty then map_erase px m
  else map_modify px (fun l => { l with q := dq }) m

/-- The lambda `erase_from_level` of `cancel` on one ladder, for the handle
price `px`: whether it removed the entry, and the ladder afterwards. -/
def erase_from_level (id : Nat) (px : Int) (m : Ladder) : Bool × Ladder :=
  match map_find px m with
  | none => (false, m)
  | some lvl =>
    match find_row id lvl.q with
    | none => (false, m)
    | some _ => (true, erase_entry id px lvl m)

/-- The member `OrderBook::cancel`; the timestamp argument is unnamed in the
source and unused. -/
def cancel (b : OrderBook) (id : Nat) (_ts : Int) : Bool × OrderBook :=
  match b.id_index_ id with
  | none => (false, b)
  | some h =>
    match h.side with
    | Side.Buy =>
      let r := erase_from_level id h.px b.bid_levels_
      if r.1 then (true, { b with bid_levels_ := r.2, id_index_ := b.id_index_.erase id })
      else (false, { b with bid_levels_ := r.2 })
    | Side.Sell =>
      let r := erase_from_level id h.px b.ask_levels_
      if r.1 then (true, { b with ask_levels_ := r.2, id_index_ := b.id_index_.erase id })
      else (false, { b with ask_levels_ := r.2 })

/-- The ladder of one side of the book. -/
def OrderBook.ladder (b : OrderBook) : Side → Ladder
  | Side.Buy => b.bid_levels_
  | Side.Sell => b.ask_levels_

/-- The book with the ladder of one side replaced. -/
def OrderBook.setLadder (b : OrderBook) (s : Side) (m : Ladder) : OrderBook :=
  match s with
  | Side.Buy => { b with bid_levels_ := m }
  | Side.Sell => { b with ask_levels_ := m }

/-- The queue after the in-place shrink `it_row->qty = new_qty` of the first
entry with `id`. -/
def shrink_row (id : Nat) (new_qty : Int) : List QueueEntry → List QueueEntry
  | [] => []
  | e :: rest =>
    if e.id = id then { e with qty := new_qty } :: rest
    else e :: shrink_row id new_qty rest

/-- One side branch of `OrderBook::replace` (the source has the same code
twice, for `bid_levels_` and for `ask_levels_`), entered with the handle
`h` found in the index. -/
def replace_side (b : OrderBook) (h : Handle) (id : Nat) (new_px new_qty ts_ns : Int) :
    Bool × OrderBook :=
  match map_find h.px (b.ladder h.side) with
  | none => (false, b)
  | some lvl =>
    match find_row id lvl.q with
    | none => (false, b)
    | some row =>
      if new_px ≠ h.px then
        if new_px ≤ 0 ∨ Int.tmod new_px b.tick_ ≠ 0 then (false, b)
        else
          let m1 := erase_entry id h.px lvl (b.ladder h.side)
          let b1 := { b.setLadder h.side m1 with id_index_ := b.id_index_.erase id }
          let inn : Order := ⟨id, h.side, OrdType.Limit, TIF.Day, new_px, new_qty, ts_ns, false⟩
          let r := match_incoming b1 inn
          if 0 < r.2.1.qty then
            (true, rest_order r.2.2 h.side new_px id r.2.1.qty ts_ns)
          else (true, r.2.2)
      else if new_qty = row.qty then (true, b)
      else if new_qty < row.qty then
        (true, b.setLadder h.side
          (map_modify h.px (fun l => { l with q := shrink_row id new_qty l.q }) (b.ladder h.side)))
      else
        (true, b.setLadder h.side
          (map_modify h.px
            (fun l => { l with q := erase_first id l.q ++ [⟨row.id, new_qty, ts_ns⟩] })
            (b.ladder h.side)))

/-- The member `OrderBook::replace`. -/
def replace (b : OrderBook) (id : Nat) (new_px new_qty ts_ns : Int) : Bool × OrderBook :=
  if new_qty ≤ 0 then (false, b)
  else match b.id_index_ id with
    | none => (false, b)
    | some h => replace_side b h id new_px new_qty ts_ns

/-! ## book.cpp: snapshots -/

/-- The loop of `bids` and `asks`: one `LevelView` per level from `it` on while
`n < depth`, appended to `out`. -/
def snapshot_loop (depth : Int) : Ladder → Int → List LevelView → List LevelView
  | [], _, out => out
  | (_, lvl) :: rest, n, out =>
    if n < depth then
      snapshot_loop depth rest (n + 1) (out ++ [⟨lvl.px, lvl.total_qty, lvl.count⟩])
    else out

/-- The exceptions that leave `bids` and `asks`; both come from
`out.reserve(depth)`. -/
inductive SnapshotError where
  | length_error
  | bad_alloc
  deriving DecidableEq, Repr

/-- The call `out.reserve(depth)` on the empty vector `out` of `bids` and
`asks`.  `depth` is an `int`: a negative value converted to `size_type` is
above `max_size()` and the call throws `std::length_error`; zero is not above
the capacity and nothing is allocated; a positive value asks the allocator for
the storage of `depth` elements, and the call throws `std::bad_alloc` when the
allocator does not provide it.  `alloc n` tells whether the allocator, in the
environment of the call, provides the storage of `n` elements. -/
def reserve (alloc : Nat → Bool) (depth : Int) : Except SnapshotError Unit :=
  if depth < 0 then Except.error SnapshotError.length_error
  else if depth = 0 then Except.ok ()
  else if alloc depth.toNat = true then Except.ok ()
  else Except.error SnapshotError.bad_alloc

/-- The member `OrderBook::bids`, a `const` member: it returns a copy and has
no access to change the book.  After `reserve` the loop pushes at most `depth`
elements, so no `push_back` allocates. -/
def bids (alloc : Nat → Bool) (b : OrderBook) (depth : Int) :
    Except SnapshotError (List LevelView) :=
  match reserve alloc depth with
  | Except.error e => Except.error e
  | Except.ok _ => Except.ok (snapshot_loop depth b.bid_levels_ 0 [])

/-- The member `OrderBook::asks`, as `bids` on the other ladder. -/
def asks (alloc : Nat → Bool) (b : OrderBook) (depth : Int) :
    Except SnapshotError (List LevelView) :=
  match reserve alloc depth with
  | Except.error e => Except.error e
  | Except.ok _ => Except.ok (snapshot_loop depth b.ask_levels_ 0 [])


/-! ## Definitions used to state and prove the properties -/

/-- The opposite side. -/
def Side.flip : Side → Side
  | Side.Buy => Side.Sell
  | Side.Sell => Side.Buy

/-- The flag `taker_is_buy` of the branch of `match_incoming` taken for a side. -/
def Side.is_buy : Side → Bool
  | Side.Buy => true
  | Side.Sell => false

/-- Key order of the ladder of a side. -/
def side_lt : Side → Int → Int → Bool
  | Side.Buy => bid_lt
  | Side.Sell => ask_lt

/-- Structural form of the outer loop of `match_incoming`, by recursion on the
opposite ladder; `match_loop_eq_sweep` shows that the loop computes it. -/
def sweep (buy : Bool) : Ladder → Order → IdIndex → List Trade → Bool → Sweep
  | [], inn, idx, tr, any => ⟨[], inn, idx, tr, any⟩
  | (trade_px, lvl) :: rest, inn, idx, tr, any =>
    if 0 < inn.qty then
      if inn.type ≠ OrdType.Market ∧ past_limit buy inn.px trade_px = true then
        ⟨(trade_px, lvl) :: rest, inn, idx, tr, any⟩
      else
        let r := fill_queue trade_px buy lvl.q inn idx tr any
        if r.dq.isEmpty then sweep buy rest r.inn r.idx r.trades r.any
        else ⟨(trade_px, { lvl with q := r.dq }) :: rest, r.inn, r.idx, r.trades, r.any⟩
    else ⟨(trade_px, lvl) :: rest, inn, idx, tr, any⟩

/-- The keys (level prices) of a ladder, in iteration order. -/
def keys (m : Ladder) : List Int := m.map Prod.fst

/-- All resting entries of a ladder with the key of their level, best level
first and oldest first within a level. -/
def entries : Ladder → List (Int × QueueEntry)
  | [] => []
  | (k, lvl) :: rest => lvl.q.map (fun e => (k, e)) ++ entries rest

/-- The ids of the resting entries of a ladder with the key of their level. -/
def keyed (m : Ladder) : List (Int × Nat) := (entries m).map (fun p => (p.1, p.2.id))

/-- The ids of the resting entries of a ladder. -/
def ids (m : Ladder) : List Nat := (entries m).map (fun p => p.2.id)

/-- The ladder of a side is strictly sorted in its key order. -/
def Sorted (s : Side) (m : Ladder) : Prop :=
  (keys m).Pairwise (fun a b => side_lt s a b = true)

/-- Books reached from an empty book with a positive tick by calls of the
public mutating members. -/
inductive Reachable : OrderBook → Prop
  | init (symbol : String) (tick : Int) (h : 0 < tick) : Reachable (OrderBook.init symbol tick)
  | add (b : OrderBook) (o : Order) (h : Reachable b) : Reachable (add b o).2
  | cancel (b : OrderBook) (id : Nat) (ts : Int) (h : Reachable b) : Reachable (cancel b id ts).2
  | replace (b : OrderBook) (id : Nat) (new_px new_qty ts : Int) (h : Reachable b) :
      Reachable (replace b id new_px new_qty ts).2
  | pop_trade (b : OrderBook) (h : Reachable b) : Reachable (pop_trade b).2

/-- The representation invariant of a book. -/
structure Inv (b : OrderBook) : Prop where
  sorted : ∀ s, Sorted s (b.ladder s)
  uncrossed : ∀ kb ∈ keys b.bid_levels_, ∀ ka ∈ keys b.ask_levels_, kb < ka
  nonempty : ∀ s, ∀ p ∈ b.ladder s, p.2.q ≠ []
  key_px : ∀ s, ∀ p ∈ b.ladder s, p.2.px = p.1
  qty_pos : ∀ s, ∀ p ∈ entries (b.ladder s), 0 < p.2.qty
  ids_nodup : (ids b.bid_levels_ ++ ids b.ask_levels_).Nodup
  index : ∀ id h, b.id_index_ id = some h ↔ (h.px, id) ∈ keyed (b.ladder h.side)
  tick_pos : 0 < b.tick_

/-- The best (first) price of a ladder. -/
def best (m : Ladder) : Option Int := (keys m).head?

/-- The outer loop may enter a level: the taker has quantity left and the
price check lets the level's price through. -/
def Enters (buy : Bool) (inn : Order) (k : Int) : Prop :=
  0 < inn.qty ∧ ¬ (inn.type ≠ OrdType.Market ∧ past_limit buy inn.px k = true)


/-- The own-side ladder after the resting block of `add` and `replace`:
`try_emplace(px, Level{px})` followed by `enqueue` on the level found. -/
def rest_ladder (lt : Int → Int → Bool) (px : Int) (id : Nat) (qty ts_ns : Int) (m : Ladder) :
    Ladder :=
  map_modify px (fun l => l.enqueue id qty ts_ns) (map_try_emplace lt px ⟨px, []⟩ m)

/-- A price `k` on side `s` does not cross a price `k'` of the other side. -/
def inside (s : Side) (k k' : Int) : Prop :=
  match s with
  | Side.Buy => k < k'
  | Side.Sell => k' < k

/-- The book after the entry `id` was taken out of the level `lvl` its handle
`h` points at and out of the index (the removal step shared by `cancel` and
the price-changing `replace`). -/
def removed (b : OrderBook) (h : Handle) (id : Nat) (lvl : Level) : OrderBook :=
  { b.setLadder h.side (erase_entry id h.px lvl (b.ladder h.side)) with
    id_index_ := b.id_index_.erase id, trades_ := b.trades_ }

/-- The order that a price-changing `replace` re-enters. -/
def reentry (h : Handle) (id : Nat) (new_px new_qty ts_ns : Int) : Order :=
  ⟨id, h.side, OrdType.Limit, TIF.Day, new_px, new_qty, ts_ns, false⟩

/-- The trades `new` are fills of a taker with `q` left against the entries
`F` in order: the first trade is against the first entry at its level's price
for the smaller of the two remaining quantities, a further trade exists only
when that entry was filled whole, and the rest are fills of the remaining
quantity against the remaining entries. -/
def Fills (taker : Order) (buy : Bool) : List (Int × QueueEntry) → Int → List Trade → Prop
  | _, _, [] => True
  | [], _, _ :: _ => False
  | (k, e) :: F, q, t :: ts =>
    t = ⟨taker.id, e.id, k, min q e.qty, taker.ts_ns, buy⟩ ∧ 0 < q ∧
    (ts = [] ∨ e.qty ≤ q) ∧ Fills taker buy F (q - min q e.qty) ts

/-- The sum of the quantities of a list of trades. -/
def traded (l : List Trade) : Int := (l.map (fun t => t.qty)).sum


/-! ## Calls of the public interface as data -/

/-- One call of a mutating member that returns a success flag. -/
inductive Op where
  | add (o : Order)
  | cancel (id : Nat) (ts : Int)
  | replace (id : Nat) (new_px new_qty ts_ns : Int)

/-- The flag returned by a call and the book after it. -/
def apply_op (b : OrderBook) : Op → Bool × OrderBook
  | Op.add o => add b o
  | Op.cancel id ts => cancel b id ts
  | Op.replace id new_px new_qty ts_ns => replace b id new_px new_qty ts_ns

/-- The records appended to the journal between two states of the book. -/
def emitted (before after : OrderBook) : List Trade :=
  after.trades_.drop before.trades_.length

/-- A limit order with the default flags of the tests. -/
def limit_order (id : Nat) (side : Side) (tif : TIF) (px qty ts_ns : Int) : Order :=
  ⟨id, side, OrdType.Limit, tif, px, qty, ts_ns, false⟩

/-- A market order with the default flags of the tests. -/
def market_order (id : Nat) (side : Side) (tif : TIF) (qty ts_ns : Int) : Order :=
  ⟨id, side, OrdType.Market, tif, 0, qty, ts_ns, false⟩

/-- Example book: tick 1, one bid `1` of 50 at 10000 and one ask `2` of 30 at
10100 (the book of the test `InsertAndSnapshot`). -/
def book_two_sided : OrderBook :=
  (add (add (OrderBook.init "TEST" 1) (limit_order 1 Side.Buy TIF.Day 10000 50 1)).2
    (limit_order 2 Side.Sell TIF.Day 10100 30 2)).2

/-- Example book: tick 1 and one ask `1` of 10 at 10100 (the book of the tests
`FOK_RejectsIfNotFullyFillable` and `PostOnly_RejectsIfWouldCross_OtherwiseRests`). -/
def book_one_ask : OrderBook :=
  (add (OrderBook.init "TEST" 1) (limit_order 1 Side.Sell TIF.Day 10100 10 1)).2

/-- Example book: tick 1, asks `1` of 30 and `2` of 10 at 10100 and `3` of 20
at 10150 (the book of the test `MarketableLimit_SweepsBestPrices_FIFOResting`). -/
def book_three_asks : OrderBook :=
  (add (add (add (OrderBook.init "TEST" 1) (limit_order 1 Side.Sell TIF.Day 10100 30 1)).2
    (limit_order 2 Side.Sell TIF.Day 10100 10 2)).2
    (limit_order 3 Side.Sell TIF.Day 10150 20 3)).2

/-- The incoming order that a call hands to the matcher, if any: the order
itself for `add`, the fresh Day limit order built by `replace` for the side
found in the index, nothing for `cancel`. -/
def taker_of (b : OrderBook) : Op → Option Order
  | Op.add o => some o
  | Op.cancel _ _ => none
  | Op.replace id new_px new_qty ts_ns =>
    (b.id_index_ id).map (fun h => reentry h id new_px new_qty ts_ns)

/-- Example order: a Day buy of 35 at 10150 with id 9 (the incoming order of
the test `MarketableLimit_SweepsBestPrices_FIFOResting`). -/
def order_buy_35 : Order := limit_order 9 Side.Buy TIF.Day 10150 35 4

/-- Example trade: the second trade of `order_buy_35` on `book_three_asks`,
5 units against the ask `2` at 10100. -/
def trade_9_2 : Trade := ⟨9, 2, 10100, 5, 4, true⟩

/-- A book whose only resting entry is one unit of id `0` at price `k` on side
`s`, indexed under its id. -/
def book_single (s : Side) (k : Int) : OrderBook :=
  { (OrderBook.init "X" 1).setLadder s [(k, ⟨k, [⟨0, 1, 0⟩]⟩)] with
    id_index_ := fun i => if i = 0 then some ⟨s, k⟩ else none }

/-- The order would cross the book: a buy priced at or above the best ask, or
a sell priced at or below the best bid. -/
def crosses (b : OrderBook) (o : Order) : Prop :=
  (o.side = Side.Buy ∧ ∃ pa, best b.ask_levels_ = some pa ∧ pa ≤ o.px) ∨
  (o.side = Side.Sell ∧ ∃ pb, best b.bid_levels_ = some pb ∧ o.px ≤ pb)

/-- Example order: a PostOnly buy at the price of the resting ask of
`book_one_ask` (rejected in `PostOnly_RejectsIfWouldCross_OtherwiseRests`). -/
def order_post_cross : Order := limit_order 2 Side.Buy TIF.PostOnly 10100 5 2

/-- Example order: a PostOnly buy below the resting ask of `book_one_ask`
(accepted in `PostOnly_RejectsIfWouldCross_OtherwiseRests`). -/
def order_post_rest : Order := limit_order 3 Side.Buy TIF.PostOnly 10050 7 3

/-- Example order: a FOK buy of 15 at 10100, more than `book_one_ask` offers
(rejected in `FOK_RejectsIfNotFullyFillable`). -/
def order_fok_short : Order := limit_order 2 Side.Buy TIF.FOK 10100 15 2

/-- Example order: a FOK buy of 5 at 10100, which `book_one_ask` can fill. -/
def order_fok_fit : Order := limit_order 2 Side.Buy TIF.FOK 10100 5 2

/-- Example order: an IOC buy of 25 at 10100, more than `book_one_ask` offers
(as in `LimitIOC_DoesNotRestResidual`). -/
def order_ioc_25 : Order := limit_order 3 Side.Buy TIF.IOC 10100 25 3

/-- Example order: a Market IOC buy of 25 with id 12 (the incoming order of
the test `MarketOrder_ConsumesOppositeAndDoesNotRest`). -/
def order_market_25 : Order := market_order 12 Side.Buy TIF.IOC 25 3

/-- Example order: a Market FOK buy of 15 with id 12, more than `book_one_ask`
offers. -/
def order_market_fok : Order := market_order 12 Side.Buy TIF.FOK 15 3

/-- Example order: a Market Day buy of 15 with id 12. -/
def order_market_day : Order := market_order 12 Side.Buy TIF.Day 15 3

/-- Example book: tick 1, asks `10` of 10 at 10200 and `11` of 10 at 10300
and a bid `1` of 12 at 10050 (the book of the test
`Replace_PriceChangeCanTrade_OrRepost`). -/
def book_replace : OrderBook :=
  (add (add (add (OrderBook.init "TEST" 1) (limit_order 10 Side.Sell TIF.Day 10200 10 1)).2
    (limit_order 11 Side.Sell TIF.Day 10300 10 1)).2
    (limit_order 1 Side.Buy TIF.Day 10050 12 2)).2

/-- Example book: tick 1 and two asks at 10100, `1` then `2`, of 10 each (the
book of the test `Replace_ShrinkKeepsPlace_IncreaseResetsTime`). -/
def book_two_asks : OrderBook :=
  (add (add (OrderBook.init "TEST" 1) (limit_order 1 Side.Sell TIF.Day 10100 10 1)).2
    (limit_order 2 Side.Sell TIF.Day 10100 10 2)).2

/-- Example order: a Day buy of 15 at 10100 with id 2, of which `book_one_ask`
fills 10. -/
def order_buy_15 : Order := limit_order 2 Side.Buy TIF.Day 10100 15 2

/-- The quantity resting under an id in a list of entries (with their level
keys): the sum of the quantities of the entries that carry the id. -/
def qty_of (l : List (Int × QueueEntry)) (id : Nat) : Int :=
  ((l.filter (fun p => decide (p.2.id = id))).map (fun p => p.2.qty)).sum

/-- The quantity resting under an id in the whole book; zero when no entry
carries the id. -/
def OrderBook.resting (b : OrderBook) (id : Nat) : Int :=
  qty_of (entries b.bid_levels_) id + qty_of (entries b.ask_levels_) id

/-- The quantity traded against a maker id in a list of trades. -/
def traded_with (l : List Trade) (m : Nat) : Int :=
  traded (l.filter (fun t => decide (t.maker_id = m)))

/-- Between two states of the book, for a taker on side `s` and a maker id
`m`: what `m` lost in resting quantity is what was traded with `m`, and if
nothing was traded with `m` its entries on the opposite side are still there. -/
def Conserves (b b' : OrderBook) (s : Side) (m : Nat) : Prop :=
  b.resting m - b'.resting m = traded_with (emitted b b') m ∧
  (m ∈ (emitted b b').map (fun t => t.maker_id) ∨
    ∀ p ∈ entries (b.ladder s.flip), p.2.id = m → p ∈ entries (b'.ladder s.flip))

/-- Between two states of the book, only the ladder of side `s` changed, and
not in what rests under the id `m`; the journal did not change. -/
def OwnOnly (b b' : OrderBook) (s : Side) (m : Nat) : Prop :=
  b'.ladder s.flip = b.ladder s.flip ∧
  qty_of (entries (b'.ladder s)) m = qty_of (entries (b.ladder s)) m ∧
  b'.trades_ = b.trades_

/-- The snapshot of one side: `bids` for Buy, `asks` for Sell. -/
def snapshot (alloc : Nat → Bool) (b : OrderBook) (s : Side) (depth : Int) :
    Except SnapshotError (List LevelView) :=
  match s with
  | Side.Buy => bids alloc b depth
  | Side.Sell => asks alloc b depth

/-- An allocator that provides the storage of up to `cap` elements. -/
def alloc_upto (cap : Nat) : Nat → Bool := fun n => decide (n ≤ cap)

/-- The sum of the quantities of a queue, as a mathematical integer. -/
def queue_sum (q : List QueueEntry) : Int := (q.map (fun e => e.qty)).sum

/-- The value fits an `int64_t`. -/
def fits64 (x : Int) : Prop := -9223372036854775808 ≤ x ∧ x < 9223372036854775808

/-- Every running sum of the queue, taken from the head, fits an `int64_t`. -/
def NoOverflow (q : List QueueEntry) : Prop := ∀ n, n ≤ q.length → fits64 (queue_sum (q.take n))

/-- Example book: tick 1 and two bids at 100, `1` and `2`, of `2^62` each. -/
def book_big : OrderBook :=
  (add (add (OrderBook.init "TEST" 1)
    (limit_order 1 Side.Buy TIF.Day 100 4611686018427387904 1)).2
    (limit_order 2 Side.Buy TIF.Day 100 4611686018427387904 2)).2

/-- Books reached from an empty book, whatever its tick, by calls of the
public mutating members. -/
inductive Reached : OrderBook → Prop
  | init (symbol : String) (tick : Int) : Reached (OrderBook.init symbol tick)
  | add (b : OrderBook) (o : Order) (h : Reached b) : Reached (add b o).2
  | cancel (b : OrderBook) (id : Nat) (ts : Int) (h : Reached b) : Reached (cancel b id ts).2
  | replace (b : OrderBook) (id : Nat) (new_px new_qty ts : Int) (h : Reached b) :
      Reached (replace b id new_px new_qty ts).2
  | pop_trade (b : OrderBook) (h : Reached b) : Reached (pop_trade b).2

/-- Every level of a ladder has a non-empty queue and carries its key as price. -/
def LevelsOk (m : Ladder) : Prop := ∀ p ∈ m, p.2.q ≠ [] ∧ p.2.px = p.1

/-- Example book: tick `-5` and one bid `1` of 3 at 10. -/
def book_neg_tick : OrderBook :=
  (add (OrderBook.init "TEST" (-5)) (limit_order 1 Side.Buy TIF.Day 10 3 1)).2

/-- A level price is acceptable to an order: at most the order's price for a
Limit buy, at least the order's price for a Limit sell, any price for a Market
order. -/
def acceptable (x : Order) (px : Int) : Bool :=
  match x.type, x.side with
  | OrdType.Market, _ => true
  | OrdType.Limit, Side.Buy => decide (px ≤ x.px)
  | OrdType.Limit, Side.Sell => decide (x.px ≤ px)

/-- The sum of the quantities of the levels of a ladder whose `px` is
acceptable to the order. -/
def acceptable_sum (x : Order) (m : Ladder) : Int :=
  ((m.filter (fun p => acceptable x p.2.px)).map (fun p => queue_sum p.2.q)).sum

/-- The reference sum of the feasibility check: the quantities of all entries
on the side opposite to the order at acceptable prices. -/
def available (b : OrderBook) (x : Order) : Int := acceptable_sum x (b.ladder x.side.flip)

/-- Example order: a FOK buy of 45 at 10100; `book_three_asks` offers 40 at
that price and 20 more above it. -/
def order_fok_45 : Order := limit_order 9 Side.Buy TIF.FOK 10100 45 4


/-! ## The matcher: termination and basic facts -/

theorem fill_queue_exit (px : Int) (buy : Bool) (dq : List QueueEntry) :
    ∀ (inn : Order) (idx : IdIndex) (tr : List Trade) (any : Bool),
      (fill_queue px buy dq inn idx tr any).dq ≠ [] →
        (fill_queue px buy dq inn idx tr any).inn.qty ≤ 0 := by
  induction dq with
  | nil => intro inn idx tr any h; simp [fill_queue] at h
  | cons m rest ih =>
    intro inn idx tr any h
    unfold fill_queue at h ⊢
    by_cases hq : 0 < inn.qty
    · simp only [hq, if_true] at h ⊢
      by_cases hm : m.qty - min inn.qty m.qty = 0
      · simp only [hm, if_true] at h ⊢
        exact ih _ _ _ _ h
      · simp only [hm, if_false] at h ⊢
        have : min inn.qty m.qty = inn.qty := by
          rcases min_choice inn.qty m.qty with h1 | h1
          · exact h1
          · exfalso; apply hm; rw [h1]; simp
        simp [this]
    · simp only [hq, if_false] at h ⊢
      omega

theorem match_loop_eq_sweep (buy : Bool) (fuel : Nat) :
    ∀ (s : Sweep), s.opp.length < fuel →
      match_loop buy fuel s = sweep buy s.opp s.inn s.idx s.trades s.any := by
  induction fuel with
  | zero => intro s h; omega
  | succ n ih =>
    intro s h
    obtain ⟨opp, inn, idx, tr, any⟩ := s
    cases opp with
    | nil => simp [match_loop, sweep]
    | cons p rest =>
      obtain ⟨k, lvl⟩ := p
      simp only [match_loop, sweep]
      by_cases hq : 0 < inn.qty
      · simp only [hq, if_true]
        by_cases hg : inn.type ≠ OrdType.Market ∧ past_limit buy inn.px k = true
        · rw [if_pos hg, if_pos hg]
        · rw [if_neg hg, if_neg hg]
          by_cases he : (fill_queue k buy lvl.q inn idx tr any).dq.isEmpty = true
          · simp only [he, if_true]
            rw [ih]
            simp at h ⊢; omega
          · simp only [he, if_false]
            have hne : (fill_queue k buy lvl.q inn idx tr any).dq ≠ [] := by
              intro h0; apply he; simp [h0]
            have hz := fill_queue_exit k buy lvl.q inn idx tr any hne
            cases n with
            | zero => simp [match_loop]
            | succ n =>
              have : ¬ (0 < (fill_queue k buy lvl.q inn idx tr any).inn.qty) := by omega
              simp [match_loop, this]
      · simp only [hq, if_false]

/-- Enough fuel: any two fuels above the number of levels give the same
result, so the bound used by `match_incoming` never cuts the loop short. -/
theorem match_loop_fuel (buy : Bool) (s : Sweep) (n m : Nat)
    (hn : s.opp.length < n) (hm : s.opp.length < m) :
    match_loop buy n s = match_loop buy m s := by
  rw [match_loop_eq_sweep buy n s hn, match_loop_eq_sweep buy m s hm]

@[simp] theorem ladder_setLadder_same (b : OrderBook) (s : Side) (m : Ladder) :
    (b.setLadder s m).ladder s = m := by
  cases s <;> rfl

@[simp] theorem ladder_setLadder_flip (b : OrderBook) (s : Side) (m : Ladder) :
    (b.setLadder s m).ladder s.flip = b.ladder s.flip := by
  cases s <;> rfl

@[simp] theorem ladder_setLadder_flip' (b : OrderBook) (s : Side) (m : Ladder) :
    (b.setLadder s.flip m).ladder s = b.ladder s := by
  cases s <;> rfl

@[simp] theorem flip_flip (s : Side) : s.flip.flip = s := by
  cases s <;> rfl

/-- Side-generic form of `match_incoming`. -/
theorem match_incoming_eq (b : OrderBook) (inn : Order) :
    match_incoming b inn =
      ((sweep inn.side.is_buy (b.ladder inn.side.flip) inn b.id_index_ b.trades_ false).any,
       (sweep inn.side.is_buy (b.ladder inn.side.flip) inn b.id_index_ b.trades_ false).inn,
       { b.setLadder inn.side.flip
            (sweep inn.side.is_buy (b.ladder inn.side.flip) inn b.id_index_ b.trades_ false).opp with
          id_index_ :=
            (sweep inn.side.is_buy (b.ladder inn.side.flip) inn b.id_index_ b.trades_ false).idx
          trades_ :=
            (sweep inn.side.is_buy (b.ladder inn.side.flip) inn b.id_index_ b.trades_ false).trades }) := by
  unfold match_incoming
  cases hs : inn.side
  · simp only [Side.flip, Side.is_buy, OrderBook.ladder, OrderBook.setLadder]
    rw [match_loop_eq_sweep _ _ _ (by simp)]
  · simp only [Side.flip, Side.is_buy, OrderBook.ladder, OrderBook.setLadder]
    rw [match_loop_eq_sweep _ _ _ (by simp)]


/-! ### Equations and induction principles for the two loops -/

theorem fill_queue_stop (px : Int) (buy : Bool) (dq : List QueueEntry) (inn : Order)
    (idx : IdIndex) (tr : List Trade) (any : Bool) (h : ¬ 0 < inn.qty) :
    fill_queue px buy dq inn idx tr any = ⟨dq, inn, idx, tr, any⟩ := by
  cases dq with
  | nil => rfl
  | cons m rest => simp [fill_queue, h]

theorem fill_queue_whole (px : Int) (buy : Bool) (m : QueueEntry) (rest : List QueueEntry)
    (inn : Order) (idx : IdIndex) (tr : List Trade) (any : Bool)
    (hq : 0 < inn.qty) (hm : m.qty ≤ inn.qty) :
    fill_queue px buy (m :: rest) inn idx tr any =
      fill_queue px buy rest { inn with qty := inn.qty - m.qty } (idx.erase m.id)
        (tr ++ [⟨inn.id, m.id, px, m.qty, inn.ts_ns, buy⟩]) true := by
  have h1 : min inn.qty m.qty = m.qty := min_eq_right hm
  simp [fill_queue, hq, h1]

theorem fill_queue_part (px : Int) (buy : Bool) (m : QueueEntry) (rest : List QueueEntry)
    (inn : Order) (idx : IdIndex) (tr : List Trade) (any : Bool)
    (hq : 0 < inn.qty) (hm : inn.qty < m.qty) :
    fill_queue px buy (m :: rest) inn idx tr any =
      ⟨{ m with qty := m.qty - inn.qty } :: rest, { inn with qty := 0 }, idx,
        tr ++ [⟨inn.id, m.id, px, inn.qty, inn.ts_ns, buy⟩], true⟩ := by
  have h1 : min inn.qty m.qty = inn.qty := min_eq_left (le_of_lt hm)
  have h2 : ¬ (m.qty - inn.qty = 0) := by omega
  simp [fill_queue, hq, h1, h2]

/-- Induction along the run of the inner loop. -/
theorem fill_queue_induct (px : Int) (buy : Bool)
    (P : List QueueEntry → Order → IdIndex → List Trade → Bool → Fill → Prop)
    (stop : ∀ dq inn idx tr any, (dq = [] ∨ ¬ 0 < inn.qty) → P dq inn idx tr any ⟨dq, inn, idx, tr, any⟩)
    (whole : ∀ m rest inn idx tr any res, 0 < inn.qty → m.qty ≤ inn.qty →
      P rest { inn with qty := inn.qty - m.qty } (idx.erase m.id)
        (tr ++ [⟨inn.id, m.id, px, m.qty, inn.ts_ns, buy⟩]) true res →
      P (m :: rest) inn idx tr any res)
    (part : ∀ m rest inn idx tr any, 0 < inn.qty → inn.qty < m.qty →
      P (m :: rest) inn idx tr any
        ⟨{ m with qty := m.qty - inn.qty } :: rest, { inn with qty := 0 }, idx,
          tr ++ [⟨inn.id, m.id, px, inn.qty, inn.ts_ns, buy⟩], true⟩)
    (dq : List QueueEntry) :
    ∀ inn idx tr any, P dq inn idx tr any (fill_queue px buy dq inn idx tr any) := by
  induction dq with
  | nil => intro inn idx tr any; exact stop [] inn idx tr any (Or.inl rfl)
  | cons m rest ih =>
    intro inn idx tr any
    by_cases hq : 0 < inn.qty
    · by_cases hm : m.qty ≤ inn.qty
      · rw [fill_queue_whole px buy m rest inn idx tr any hq hm]
        exact whole m rest inn idx tr any _ hq hm (ih _ _ _ _)
      · rw [fill_queue_part px buy m rest inn idx tr any hq (by omega)]
        exact part m rest inn idx tr any hq (by omega)
    · rw [fill_queue_stop px buy _ inn idx tr any hq]
      exact stop _ inn idx tr any (Or.inr hq)

theorem sweep_nil (buy : Bool) (inn : Order) (idx : IdIndex) (tr : List Trade) (any : Bool) :
    sweep buy [] inn idx tr any = ⟨[], inn, idx, tr, any⟩ := rfl

theorem sweep_stop (buy : Bool) (k : Int) (lvl : Level) (rest : Ladder) (inn : Order)
    (idx : IdIndex) (tr : List Trade) (any : Bool) (h : ¬ Enters buy inn k) :
    sweep buy ((k, lvl) :: rest) inn idx tr any = ⟨(k, lvl) :: rest, inn, idx, tr, any⟩ := by
  unfold Enters at h
  by_cases hq : 0 < inn.qty
  · have hg : inn.type ≠ OrdType.Market ∧ past_limit buy inn.px k = true := by
      by_contra hc; exact h ⟨hq, hc⟩
    simp only [sweep, hq, if_true]
    rw [if_pos hg]
  · simp only [sweep, hq, if_false]

theorem sweep_next (buy : Bool) (k : Int) (lvl : Level) (rest : Ladder) (inn : Order)
    (idx : IdIndex) (tr : List Trade) (any : Bool) (h : Enters buy inn k)
    (he : (fill_queue k buy lvl.q inn idx tr any).dq = []) :
    sweep buy ((k, lvl) :: rest) inn idx tr any =
      sweep buy rest (fill_queue k buy lvl.q inn idx tr any).inn
        (fill_queue k buy lvl.q inn idx tr any).idx
        (fill_queue k buy lvl.q inn idx tr any).trades
        (fill_queue k buy lvl.q inn idx tr any).any := by
  obtain ⟨hq, hg⟩ := h
  simp only [sweep, hq, if_true]
  rw [if_neg hg]
  simp [he]

theorem sweep_part (buy : Bool) (k : Int) (lvl : Level) (rest : Ladder) (inn : Order)
    (idx : IdIndex) (tr : List Trade) (any : Bool) (h : Enters buy inn k)
    (he : (fill_queue k buy lvl.q inn idx tr any).dq ≠ []) :
    sweep buy ((k, lvl) :: rest) inn idx tr any =
      ⟨(k, { lvl with q := (fill_queue k buy lvl.q inn idx tr any).dq }) :: rest,
        (fill_queue k buy lvl.q inn idx tr any).inn,
        (fill_queue k buy lvl.q inn idx tr any).idx,
        (fill_queue k buy lvl.q inn idx tr any).trades,
        (fill_queue k buy lvl.q inn idx tr any).any⟩ := by
  obtain ⟨hq, hg⟩ := h
  simp only [sweep, hq, if_true]
  rw [if_neg hg]
  simp [he]

/-- Induction along the run of the outer loop. -/
theorem sweep_induct (buy : Bool)
    (P : Ladder → Order → IdIndex → List Trade → Bool → Sweep → Prop)
    (stop : ∀ opp inn idx tr any,
      (opp = [] ∨ ∃ k lvl rest, opp = (k, lvl) :: rest ∧ ¬ Enters buy inn k) →
      P opp inn idx tr any ⟨opp, inn, idx, tr, any⟩)
    (next : ∀ k lvl rest inn idx tr any res, Enters buy inn k →
      (fill_queue k buy lvl.q inn idx tr any).dq = [] →
      P rest (fill_queue k buy lvl.q inn idx tr any).inn
        (fill_queue k buy lvl.q inn idx tr any).idx
        (fill_queue k buy lvl.q inn idx tr any).trades
        (fill_queue k buy lvl.q inn idx tr any).any res →
      P ((k, lvl) :: rest) inn idx tr any res)
    (part : ∀ k lvl rest inn idx tr any, Enters buy inn k →
      (fill_queue k buy lvl.q inn idx tr any).dq ≠ [] →
      P ((k, lvl) :: rest) inn idx tr any
        ⟨(k, { lvl with q := (fill_queue k buy lvl.q inn idx tr any).dq }) :: rest,
          (fill_queue k buy lvl.q inn idx tr any).inn,
          (fill_queue k buy lvl.q inn idx tr any).idx,
          (fill_queue k buy lvl.q inn idx tr any).trades,
          (fill_queue k buy lvl.q inn idx tr any).any⟩)
    (opp : Ladder) :
    ∀ inn idx tr any, P opp inn idx tr any (sweep buy opp inn idx tr any) := by
  induction opp with
  | nil => intro inn idx tr any; exact stop [] inn idx tr any (Or.inl rfl)
  | cons p rest ih =>
    obtain ⟨k, lvl⟩ := p
    intro inn idx tr any
    by_cases h : Enters buy inn k
    · by_cases he : (fill_queue k buy lvl.q inn idx tr any).dq = []
      · rw [sweep_next buy k lvl rest inn idx tr any h he]
        exact next k lvl rest inn idx tr any _ h he (ih _ _ _ _)
      · rw [sweep_part buy k lvl rest inn idx tr any h he]
        exact part k lvl rest inn idx tr any h he
    · rw [sweep_stop buy k lvl rest inn idx tr any h]
      exact stop _ inn idx tr any (Or.inr ⟨k, lvl, rest, rfl, h⟩)


/-! ### Facts about the matcher that hold on every book -/

theorem fill_queue_inn (px : Int) (buy : Bool) (dq : List QueueEntry) :
    ∀ inn idx tr any, (fill_queue px buy dq inn idx tr any).inn =
      { inn with qty := (fill_queue px buy dq inn idx tr any).inn.qty } := by
  apply fill_queue_induct px buy (fun _ inn _ _ _ r => r.inn = { inn with qty := r.inn.qty })
  · intro dq inn idx tr any _; rfl
  · intro m rest inn idx tr any res _ _ ih
    rw [ih]
  · intro m rest inn idx tr any _ _; rfl

theorem sweep_inn (buy : Bool) (opp : Ladder) :
    ∀ inn idx tr any, (sweep buy opp inn idx tr any).inn =
      { inn with qty := (sweep buy opp inn idx tr any).inn.qty } := by
  apply sweep_induct buy (fun _ inn _ _ _ r => r.inn = { inn with qty := r.inn.qty })
  · intro opp inn idx tr any _; rfl
  · intro k lvl rest inn idx tr any res _ _ ih
    rw [ih, fill_queue_inn]
  · intro k lvl rest inn idx tr any _ _
    exact fill_queue_inn k buy lvl.q inn idx tr any

theorem sweep_keys_suffix (buy : Bool) (opp : Ladder) :
    ∀ inn idx tr any, keys (sweep buy opp inn idx tr any).opp <:+ keys opp := by
  apply sweep_induct buy (fun opp _ _ _ _ r => keys r.opp <:+ keys opp)
  · intro opp inn idx tr any _; exact List.suffix_refl _
  · intro k lvl rest inn idx tr any res _ _ ih
    exact ih.trans (List.suffix_cons _ _)
  · intro k lvl rest inn idx tr any _ _
    simp [keys]

/-- When the outer loop returns, the taker is exhausted, or the opposite
ladder is empty, or the best remaining price is past the taker's limit. -/
theorem sweep_exit (buy : Bool) (opp : Ladder) :
    ∀ inn idx tr any,
      (sweep buy opp inn idx tr any).inn.qty ≤ 0 ∨
      (sweep buy opp inn idx tr any).opp = [] ∨
      ∃ k lvl rest, (sweep buy opp inn idx tr any).opp = (k, lvl) :: rest ∧
        inn.type ≠ OrdType.Market ∧ past_limit buy inn.px k = true := by
  apply sweep_induct buy (fun _ inn _ _ _ r => r.inn.qty ≤ 0 ∨ r.opp = [] ∨
      ∃ k lvl rest, r.opp = (k, lvl) :: rest ∧ inn.type ≠ OrdType.Market ∧ past_limit buy inn.px k = true)
  · intro opp inn idx tr any h
    rcases h with h | ⟨k, lvl, rest, h, hn⟩
    · exact Or.inr (Or.inl h)
    · by_cases hq : 0 < inn.qty
      · right; right
        refine ⟨k, lvl, rest, h, ?_⟩
        by_contra hc; exact hn ⟨hq, hc⟩
      · left; simpa using hq
  · intro k lvl rest inn idx tr any res _ _ ih
    rw [fill_queue_inn] at ih
    exact ih
  · intro k lvl rest inn idx tr any _ he
    exact Or.inl (fill_queue_exit k buy lvl.q inn idx tr any he)

theorem fill_queue_idx_none (px : Int) (buy : Bool) (dq : List QueueEntry) (id : Nat) :
    ∀ inn idx tr any, idx id = none → (fill_queue px buy dq inn idx tr any).idx id = none := by
  apply fill_queue_induct px buy (fun _ _ idx _ _ r => idx id = none → r.idx id = none)
  · intro dq inn idx tr any _ h; exact h
  · intro m rest inn idx tr any res _ _ ih h
    apply ih
    simp [IdIndex.erase, h]
  · intro m rest inn idx tr any _ _ h; exact h

theorem sweep_idx_none (buy : Bool) (opp : Ladder) (id : Nat) :
    ∀ inn idx tr any, idx id = none → (sweep buy opp inn idx tr any).idx id = none := by
  apply sweep_induct buy (fun _ _ idx _ _ r => idx id = none → r.idx id = none)
  · intro opp inn idx tr any _ h; exact h
  · intro k lvl rest inn idx tr any res _ _ ih h
    exact ih (fill_queue_idx_none k buy lvl.q id inn idx tr any h)
  · intro k lvl rest inn idx tr any _ _ h
    exact fill_queue_idx_none k buy lvl.q id inn idx tr any h


/-! ### Ordered maps -/

theorem side_lt_irrefl (s : Side) (a : Int) : side_lt s a a = false := by
  cases s <;> simp [side_lt, bid_lt, ask_lt]

theorem side_lt_trans (s : Side) {a b c : Int} (h1 : side_lt s a b = true)
    (h2 : side_lt s b c = true) : side_lt s a c = true := by
  cases s <;> simp [side_lt, bid_lt, ask_lt] at * <;> omega

theorem side_lt_total (s : Side) {a b : Int} (h1 : a ≠ b) (h2 : ¬ side_lt s a b = true) :
    side_lt s b a = true := by
  cases s <;> simp [side_lt, bid_lt, ask_lt] at * <;> omega

theorem side_lt_ne (s : Side) {a b : Int} (h : side_lt s a b = true) : a ≠ b := by
  intro hab; subst hab; rw [side_lt_irrefl] at h; exact Bool.noConfusion h

theorem rest_ladder_nil (lt : Int → Int → Bool) (px : Int) (id : Nat) (qty ts : Int) :
    rest_ladder lt px id qty ts [] = [(px, ⟨px, [⟨id, qty, ts⟩]⟩)] := by
  simp [rest_ladder, map_try_emplace, map_modify, Level.enqueue]

theorem rest_ladder_hit (lt : Int → Int → Bool) (px : Int) (id : Nat) (qty ts : Int)
    (v : Level) (rest : Ladder) :
    rest_ladder lt px id qty ts ((px, v) :: rest) = (px, v.enqueue id qty ts) :: rest := by
  simp [rest_ladder, map_try_emplace, map_modify]

theorem rest_ladder_before (lt : Int → Int → Bool) (px : Int) (id : Nat) (qty ts : Int)
    (k : Int) (v : Level) (rest : Ladder) (h1 : px ≠ k) (h2 : lt px k = true) :
    rest_ladder lt px id qty ts ((k, v) :: rest) =
      (px, ⟨px, [⟨id, qty, ts⟩]⟩) :: (k, v) :: rest := by
  simp [rest_ladder, map_try_emplace, map_modify, Level.enqueue, h1, h2]

theorem rest_ladder_after (lt : Int → Int → Bool) (px : Int) (id : Nat) (qty ts : Int)
    (k : Int) (v : Level) (rest : Ladder) (h1 : px ≠ k) (h2 : ¬ lt px k = true) :
    rest_ladder lt px id qty ts ((k, v) :: rest) =
      (k, v) :: rest_ladder lt px id qty ts rest := by
  simp [rest_ladder, map_try_emplace, map_modify, h1, h2]

/-- Induction along the search of the resting block for its level. -/
theorem rest_ladder_induct (lt : Int → Int → Bool) (px : Int) (id : Nat) (qty ts : Int)
    (P : Ladder → Ladder → Prop)
    (nil : P [] [(px, ⟨px, [⟨id, qty, ts⟩]⟩)])
    (hit : ∀ v rest, P ((px, v) :: rest) ((px, v.enqueue id qty ts) :: rest))
    (before : ∀ k v rest, px ≠ k → lt px k = true →
      P ((k, v) :: rest) ((px, ⟨px, [⟨id, qty, ts⟩]⟩) :: (k, v) :: rest))
    (after : ∀ k v rest res, px ≠ k → ¬ lt px k = true → P rest res →
      P ((k, v) :: rest) ((k, v) :: res))
    (m : Ladder) : P m (rest_ladder lt px id qty ts m) := by
  induction m with
  | nil => rw [rest_ladder_nil]; exact nil
  | cons p rest ih =>
    obtain ⟨k, v⟩ := p
    by_cases h1 : px = k
    · subst h1; rw [rest_ladder_hit]; exact hit v rest
    · by_cases h2 : lt px k = true
      · rw [rest_ladder_before lt px id qty ts k v rest h1 h2]; exact before k v rest h1 h2
      · rw [rest_ladder_after lt px id qty ts k v rest h1 h2]; exact after k v rest _ h1 h2 ih

theorem rest_ladder_keys (lt : Int → Int → Bool) (px : Int) (id : Nat) (qty ts : Int)
    (m : Ladder) (k : Int) :
    k ∈ keys (rest_ladder lt px id qty ts m) ↔ k = px ∨ k ∈ keys m := by
  apply rest_ladder_induct lt px id qty ts
    (fun m r => k ∈ keys r ↔ k = px ∨ k ∈ keys m)
  · simp [keys]
  · intro v rest; simp [keys]
  · intro k' v rest _ _; simp [keys]
  · intro k' v rest res _ _ ih
    simp only [keys, List.map_cons, List.mem_cons] at ih ⊢
    rw [ih]; tauto

theorem rest_ladder_sorted (s : Side) (px : Int) (id : Nat) (qty ts : Int) (m : Ladder) :
    Sorted s m → Sorted s (rest_ladder (side_lt s) px id qty ts m) := by
  induction m with
  | nil => intro _; rw [rest_ladder_nil]; simp [Sorted, keys]
  | cons p rest ih =>
    obtain ⟨k, v⟩ := p
    intro hs
    have hs' : (∀ a ∈ keys rest, side_lt s k a = true) ∧ Sorted s rest := by
      simpa [Sorted, keys] using hs
    by_cases h1 : px = k
    · subst h1; rw [rest_ladder_hit]; simpa [Sorted, keys] using hs
    · by_cases h2 : side_lt s px k = true
      · rw [rest_ladder_before _ px id qty ts k v rest h1 h2]
        have : ∀ a ∈ keys ((k, v) :: rest), side_lt s px a = true := by
          intro a ha
          simp only [keys, List.map_cons, List.mem_cons] at ha
          rcases ha with ha | ha
          · rw [ha]; exact h2
          · exact side_lt_trans s h2 (hs'.1 a ha)
        exact List.Pairwise.cons this hs
      · rw [rest_ladder_after _ px id qty ts k v rest h1 h2]
        have h3 : ∀ a ∈ keys (rest_ladder (side_lt s) px id qty ts rest), side_lt s k a = true := by
          intro a ha
          rcases (rest_ladder_keys _ px id qty ts rest a).1 ha with ha | ha
          · rw [ha]; exact side_lt_total s h1 h2
          · exact hs'.1 a ha
        exact List.Pairwise.cons h3 (ih hs'.2)

theorem rest_ladder_entries (lt : Int → Int → Bool) (px : Int) (id : Nat) (qty ts : Int)
    (m : Ladder) :
    (entries (rest_ladder lt px id qty ts m)).Perm ((px, ⟨id, qty, ts⟩) :: entries m) := by
  apply rest_ladder_induct lt px id qty ts
    (fun m r => (entries r).Perm ((px, ⟨id, qty, ts⟩) :: entries m))
  · simp [entries]
  · intro v rest
    simp only [entries, Level.enqueue, List.map_append, List.map_cons, List.map_nil,
      List.append_assoc]
    exact (List.perm_middle).trans (List.Perm.refl _)
  · intro k v rest _ _
    simp [entries]
  · intro k v rest res _ _ ih
    simp only [entries]
    exact (List.Perm.append_left _ ih).trans List.perm_middle

theorem rest_ladder_levels (lt : Int → Int → Bool) (px : Int) (id : Nat) (qty ts : Int)
    (m : Ladder) :
    ∀ p ∈ rest_ladder lt px id qty ts m,
      p ∈ m ∨ (p.1 = px ∧ p.2.q ≠ [] ∧ (p.2.px = px ∨ ∃ v, (px, v) ∈ m ∧ p.2.px = v.px)) := by
  apply rest_ladder_induct lt px id qty ts
    (fun m r => ∀ p ∈ r, p ∈ m ∨
      (p.1 = px ∧ p.2.q ≠ [] ∧ (p.2.px = px ∨ ∃ v, (px, v) ∈ m ∧ p.2.px = v.px)))
  · intro p hp; simp at hp; subst hp; simp
  · intro v rest p hp
    simp only [List.mem_cons] at hp
    rcases hp with hp | hp
    · subst hp; right
      refine ⟨rfl, by simp [Level.enqueue], Or.inr ⟨v, by simp, rfl⟩⟩
    · left; simp [hp]
  · intro k v rest _ _ p hp
    simp only [List.mem_cons] at hp
    rcases hp with hp | hp | hp
    · subst hp; simp
    · left; simp [hp]
    · left; simp [hp]
  · intro k v rest res _ _ ih p hp
    simp only [List.mem_cons] at hp
    rcases hp with hp | hp
    · left; simp [hp]
    · rcases ih p hp with h | ⟨h1, h2, h3⟩
      · left; simp [h]
      · right
        refine ⟨h1, h2, ?_⟩
        rcases h3 with h3 | ⟨v', hv', h3⟩
        · exact Or.inl h3
        · exact Or.inr ⟨v', by simp [hv'], h3⟩


/-! ### Lookup, erase and write-through on a ladder -/

theorem map_find_mem {k : Int} {m : Ladder} {lvl : Level} (h : map_find k m = some lvl) :
    (k, lvl) ∈ m := by
  induction m with
  | nil => simp [map_find] at h
  | cons p rest ih =>
    obtain ⟨k', v⟩ := p
    by_cases hk : k = k'
    · subst hk; simp [map_find] at h; subst h; simp
    · simp [map_find, hk] at h; simp [ih h]

theorem map_erase_keys_sublist (k : Int) (m : Ladder) :
    (keys (map_erase k m)).Sublist (keys m) := by
  induction m with
  | nil => simp [map_erase, keys]
  | cons p rest ih =>
    obtain ⟨k', v⟩ := p
    by_cases hk : k = k'
    · simp [map_erase, hk, keys]
    · simp only [map_erase, hk, if_false, keys, List.map_cons]
      exact List.Sublist.cons₂ _ ih

theorem map_erase_sublist (k : Int) (m : Ladder) : (map_erase k m).Sublist m := by
  induction m with
  | nil => simp [map_erase]
  | cons p rest ih =>
    obtain ⟨k', v⟩ := p
    by_cases hk : k = k'
    · simp [map_erase, hk]
    · simp only [map_erase, hk, if_false]
      exact List.Sublist.cons₂ _ ih

theorem map_modify_keys (k : Int) (f : Level → Level) (m : Ladder) :
    keys (map_modify k f m) = keys m := by
  induction m with
  | nil => simp [map_modify, keys]
  | cons p rest ih =>
    obtain ⟨k', v⟩ := p
    by_cases hk : k = k'
    · simp [map_modify, hk, keys]
    · simp only [keys] at ih
      simp [map_modify, hk, keys, ih]

theorem map_modify_mem (k : Int) (f : Level → Level) (m : Ladder) :
    ∀ p ∈ map_modify k f m, p ∈ m ∨ ∃ l, map_find k m = some l ∧ p = (k, f l) := by
  induction m with
  | nil => simp [map_modify]
  | cons q rest ih =>
    obtain ⟨k', v⟩ := q
    intro p hp
    by_cases hk : k = k'
    · subst hk
      simp only [map_modify, if_true, List.mem_cons] at hp
      rcases hp with hp | hp
      · right; exact ⟨v, by simp [map_find], hp⟩
      · left; simp [hp]
    · simp only [map_modify, hk, if_false, List.mem_cons] at hp
      rcases hp with hp | hp
      · left; simp [hp]
      · rcases ih p hp with h | ⟨l, hl, h⟩
        · left; simp [h]
        · right; exact ⟨l, by simp [map_find, hk, hl], h⟩

/-- The entries of a ladder, with one level singled out. -/
theorem entries_split {k : Int} {m : Ladder} {lvl : Level} (h : map_find k m = some lvl) :
    (entries m).Perm (lvl.q.map (fun e => (k, e)) ++ entries (map_erase k m)) := by
  induction m with
  | nil => simp [map_find] at h
  | cons p rest ih =>
    obtain ⟨k', v⟩ := p
    by_cases hk : k = k'
    · subst hk; simp [map_find] at h; subst h
      simp [map_erase, entries]
    · simp only [map_find, hk, if_false] at h
      simp only [map_erase, hk, if_false, entries]
      refine (List.Perm.append_left _ (ih h)).trans ?_
      rw [← List.append_assoc, ← List.append_assoc]
      exact List.Perm.append_right _ List.perm_append_comm

theorem entries_modify {k : Int} {m : Ladder} {lvl : Level} (f : Level → Level)
    (h : map_find k m = some lvl) :
    (entries (map_modify k f m)).Perm
      ((f lvl).q.map (fun e => (k, e)) ++ entries (map_erase k m)) := by
  induction m with
  | nil => simp [map_find] at h
  | cons p rest ih =>
    obtain ⟨k', v⟩ := p
    by_cases hk : k = k'
    · subst hk; simp [map_find] at h; subst h
      simp [map_erase, map_modify, entries]
    · simp only [map_find, hk, if_false] at h
      simp only [map_erase, map_modify, hk, if_false, entries]
      refine (List.Perm.append_left _ (ih h)).trans ?_
      rw [← List.append_assoc, ← List.append_assoc]
      exact List.Perm.append_right _ List.perm_append_comm

theorem find_row_some {id : Nat} {q : List QueueEntry} {row : QueueEntry}
    (h : find_row id q = some row) : row.id = id ∧ row ∈ q := by
  induction q with
  | nil => simp [find_row] at h
  | cons e rest ih =>
    by_cases he : e.id = id
    · simp [find_row, he] at h; subst h; simp [he]
    · simp only [find_row, he, if_false] at h
      exact ⟨(ih h).1, by simp [(ih h).2]⟩

theorem find_row_none {id : Nat} {q : List QueueEntry}
    (h : find_row id q = none) : ∀ e ∈ q, e.id ≠ id := by
  induction q with
  | nil => simp
  | cons e rest ih =>
    by_cases he : e.id = id
    · simp [find_row, he] at h
    · simp only [find_row, he, if_false] at h
      intro e' he'
      simp only [List.mem_cons] at he'
      rcases he' with he' | he'
      · subst he'; exact he
      · exact ih h e' he'

theorem erase_first_perm {id : Nat} {q : List QueueEntry} {row : QueueEntry}
    (h : find_row id q = some row) : q.Perm (row :: erase_first id q) := by
  induction q with
  | nil => simp [find_row] at h
  | cons e rest ih =>
    by_cases he : e.id = id
    · simp [find_row, he] at h; subst h; simp [erase_first, he]
    · simp only [find_row, he, if_false] at h
      simp only [erase_first, he, if_false]
      exact (List.Perm.cons e (ih h)).trans (List.Perm.swap _ _ _)

theorem erase_first_sublist (id : Nat) (q : List QueueEntry) :
    (erase_first id q).Sublist q := by
  induction q with
  | nil => simp [erase_first]
  | cons e rest ih =>
    by_cases he : e.id = id
    · simp [erase_first, he]
    · simp only [erase_first, he, if_false]
      exact List.Sublist.cons₂ _ ih

/-- Removing the entry found by the scan takes exactly that entry out of the
entries of the ladder. -/
theorem erase_entry_entries {id : Nat} {px : Int} {m : Ladder} {lvl : Level} {row : QueueEntry}
    (h : map_find px m = some lvl) (hr : find_row id lvl.q = some row) :
    (entries m).Perm ((px, row) :: entries (erase_entry id px lvl m)) := by
  have h1 := entries_split h
  have h2 : (lvl.q.map (fun e => (px, e))).Perm
      ((px, row) :: (erase_first id lvl.q).map (fun e => (px, e))) := by
    have := (erase_first_perm hr).map (fun e => (px, e))
    simpa using this
  unfold erase_entry
  by_cases he : (erase_first id lvl.q).isEmpty = true
  · rw [if_pos he]
    have he' : erase_first id lvl.q = [] := by simpa using he
    rw [he'] at h2
    refine h1.trans ?_
    simpa using List.Perm.append_right (entries (map_erase px m)) h2
  · rw [if_neg he]
    have h3 := entries_modify (fun l => { l with q := erase_first id lvl.q }) h
    refine h1.trans ?_
    refine (List.Perm.append_right _ h2).trans ?_
    simp only [List.cons_append]
    exact List.Perm.cons _ h3.symm

theorem erase_entry_keys (id : Nat) (px : Int) (lvl : Level) (m : Ladder) :
    (keys (erase_entry id px lvl m)).Sublist (keys m) := by
  unfold erase_entry
  by_cases he : (erase_first id lvl.q).isEmpty = true
  · rw [if_pos he]; exact map_erase_keys_sublist px m
  · rw [if_neg he, map_modify_keys]

theorem erase_entry_levels (id : Nat) {px : Int} {m : Ladder} {lvl : Level}
    (h : map_find px m = some lvl) :
    ∀ p ∈ erase_entry id px lvl m, p ∈ m ∨ (p.1 = px ∧ p.2.q ≠ [] ∧ p.2.px = lvl.px) := by
  intro p hp
  unfold erase_entry at hp
  by_cases he : (erase_first id lvl.q).isEmpty = true
  · rw [if_pos he] at hp
    exact Or.inl ((map_erase_sublist px m).subset hp)
  · rw [if_neg he] at hp
    rcases map_modify_mem _ _ _ p hp with h1 | ⟨l, hl, h1⟩
    · exact Or.inl h1
    · right
      rw [h] at hl
      cases hl
      subst h1
      refine ⟨rfl, ?_, rfl⟩
      simpa using he


/-! ### The matcher and the representation invariant -/

theorem mem_entries {k : Int} {e : QueueEntry} {m : Ladder} :
    (k, e) ∈ entries m ↔ ∃ lvl, (k, lvl) ∈ m ∧ e ∈ lvl.q := by
  induction m with
  | nil => simp [entries]
  | cons p rest ih =>
    obtain ⟨k', v⟩ := p
    simp only [entries, List.mem_append, List.mem_map, Prod.mk.injEq, List.mem_cons, ih]
    constructor
    · rintro (⟨a, ha, rfl, rfl⟩ | ⟨lvl, h1, h2⟩)
      · exact ⟨v, Or.inl ⟨rfl, rfl⟩, ha⟩
      · exact ⟨lvl, Or.inr h1, h2⟩
    · rintro ⟨lvl, (⟨rfl, rfl⟩ | h1), h2⟩
      · exact Or.inl ⟨e, h2, rfl, rfl⟩
      · exact Or.inr ⟨lvl, h1, h2⟩

theorem sweep_levels (buy : Bool) (opp : Ladder) :
    ∀ inn idx tr any, ∀ p ∈ (sweep buy opp inn idx tr any).opp,
      (p ∈ opp ∨ p.2.q ≠ []) ∧ ∃ lvl, (p.1, lvl) ∈ opp ∧ p.2.px = lvl.px := by
  apply sweep_induct buy (fun opp _ _ _ _ r => ∀ p ∈ r.opp,
      (p ∈ opp ∨ p.2.q ≠ []) ∧ ∃ lvl, (p.1, lvl) ∈ opp ∧ p.2.px = lvl.px)
  · intro opp inn idx tr any _ p hp
    exact ⟨Or.inl hp, p.2, hp, rfl⟩
  · intro k lvl rest inn idx tr any res _ _ ih p hp
    obtain ⟨h1, l, h2, h3⟩ := ih p hp
    refine ⟨?_, l, by simp [h2], h3⟩
    rcases h1 with h1 | h1
    · left; simp [h1]
    · right; exact h1
  · intro k lvl rest inn idx tr any _ he p hp
    simp only [List.mem_cons] at hp
    rcases hp with hp | hp
    · subst hp
      exact ⟨Or.inr he, lvl, by simp, rfl⟩
    · exact ⟨Or.inl (by simp [hp]), p.2, by simp [hp], rfl⟩

theorem fill_queue_ids (px : Int) (buy : Bool) (dq : List QueueEntry) :
    ∀ inn idx tr any, ∃ gone : List Nat,
      dq.map (fun e => e.id) = gone ++ (fill_queue px buy dq inn idx tr any).dq.map (fun e => e.id) ∧
      (fill_queue px buy dq inn idx tr any).idx = fun i => if i ∈ gone then none else idx i := by
  apply fill_queue_induct px buy (fun dq _ idx _ _ r => ∃ gone : List Nat,
      dq.map (fun e => e.id) = gone ++ r.dq.map (fun e => e.id) ∧
      r.idx = fun i => if i ∈ gone then none else idx i)
  · intro dq inn idx tr any _
    exact ⟨[], by simp, by simp⟩
  · intro m rest inn idx tr any res _ _ ih
    obtain ⟨gone, h1, h2⟩ := ih
    refine ⟨m.id :: gone, by simp [h1], ?_⟩
    rw [h2]
    funext i
    by_cases hi : i = m.id
    · simp [hi, IdIndex.erase]
    · simp [hi, IdIndex.erase]
  · intro m rest inn idx tr any _ _
    exact ⟨[], by simp, by simp⟩

theorem keyed_cons (k : Int) (lvl : Level) (rest : Ladder) :
    keyed ((k, lvl) :: rest) = lvl.q.map (fun e => (k, e.id)) ++ keyed rest := by
  simp [keyed, entries]

/-- The outer loop removes a prefix of the resting ids, in book order, and
erases exactly those ids from the index. -/
theorem sweep_ids (buy : Bool) (opp : Ladder) :
    ∀ inn idx tr any, ∃ gone : List (Int × Nat),
      keyed opp = gone ++ keyed (sweep buy opp inn idx tr any).opp ∧
      (sweep buy opp inn idx tr any).idx =
        fun i => if i ∈ gone.map Prod.snd then none else idx i := by
  apply sweep_induct buy (fun opp _ idx _ _ r => ∃ gone : List (Int × Nat),
      keyed opp = gone ++ keyed r.opp ∧
      r.idx = fun i => if i ∈ gone.map Prod.snd then none else idx i)
  · intro opp inn idx tr any _
    exact ⟨[], by simp, by simp⟩
  · intro k lvl rest inn idx tr any res _ he ih
    obtain ⟨g1, h1, h2⟩ := fill_queue_ids k buy lvl.q inn idx tr any
    obtain ⟨g2, h3, h4⟩ := ih
    rw [he] at h1
    simp only [List.map_nil, List.append_nil] at h1
    refine ⟨g1.map (fun i => (k, i)) ++ g2, ?_, ?_⟩
    · rw [keyed_cons, h3, ← List.append_assoc]
      congr 1
      rw [← h1]
      simp
    · rw [h4, h2]
      funext i
      by_cases hi1 : i ∈ g1
      · simp [hi1]
      · by_cases hi2 : i ∈ g2.map Prod.snd
        · simp only [hi2, if_true]
          simp only [List.mem_map] at hi2
          obtain ⟨a, ha, rfl⟩ := hi2
          simp only [List.map_append, List.map_map, List.mem_append, List.mem_map]
          rw [if_pos]
          right; exact ⟨a, ha, rfl⟩
        · have : i ∉ (g1.map (fun i => (k, i)) ++ g2).map Prod.snd := by
            simp only [List.map_append, List.map_map, List.mem_append, List.mem_map, not_or]
            constructor
            · rintro ⟨a, ha, rfl⟩; exact hi1 ha
            · simpa using hi2
          simp [hi1, hi2, this]
  · intro k lvl rest inn idx tr any _ he
    obtain ⟨g1, h1, h2⟩ := fill_queue_ids k buy lvl.q inn idx tr any
    refine ⟨g1.map (fun i => (k, i)), ?_, ?_⟩
    · rw [keyed_cons, keyed_cons, ← List.append_assoc]
      congr 1
      have := congrArg (List.map (fun i => (k, i))) h1
      simpa using this
    · rw [h2]
      funext i
      simp

theorem fill_queue_qty_pos (px : Int) (buy : Bool) (dq : List QueueEntry) :
    ∀ inn idx tr any, (∀ e ∈ dq, 0 < e.qty) →
      ∀ e ∈ (fill_queue px buy dq inn idx tr any).dq, 0 < e.qty := by
  apply fill_queue_induct px buy (fun dq _ _ _ _ r => (∀ e ∈ dq, 0 < e.qty) →
      ∀ e ∈ r.dq, 0 < e.qty)
  · intro dq inn idx tr any _ h; exact h
  · intro m rest inn idx tr any res _ _ ih h
    exact ih (fun e he => h e (by simp [he]))
  · intro m rest inn idx tr any _ hlt h e he
    simp only [List.mem_cons] at he
    rcases he with he | he
    · subst he; simp; omega
    · exact h e (by simp [he])

theorem sweep_qty_pos (buy : Bool) (opp : Ladder) :
    ∀ inn idx tr any, (∀ p ∈ entries opp, 0 < p.2.qty) →
      ∀ p ∈ entries (sweep buy opp inn idx tr any).opp, 0 < p.2.qty := by
  apply sweep_induct buy (fun opp _ _ _ _ r => (∀ p ∈ entries opp, 0 < p.2.qty) →
      ∀ p ∈ entries r.opp, 0 < p.2.qty)
  · intro opp inn idx tr any _ h; exact h
  · intro k lvl rest inn idx tr any res _ _ ih h
    exact ih (fun p hp => h p (by simp [entries, hp]))
  · intro k lvl rest inn idx tr any _ _ h p hp
    simp only [entries, List.mem_append, List.mem_map] at hp
    rcases hp with ⟨e, he, rfl⟩ | hp
    · refine fill_queue_qty_pos k buy lvl.q inn idx tr any ?_ e he
      intro e' he'
      exact h (k, e') (by simp [entries, he'])
    · exact h p (by simp [entries, hp])


/-! ### Rebuilding the invariant after one ladder changed -/

theorem side_cases (s0 s : Side) : s = s0 ∨ s = s0.flip := by
  cases s0 <;> cases s <;> simp [Side.flip]

theorem flip_ne (s : Side) : s.flip ≠ s := by
  cases s <;> simp [Side.flip]

theorem Sorted.of_sublist {s : Side} {m m' : Ladder} (h : Sorted s m)
    (hs : (keys m').Sublist (keys m)) : Sorted s m' :=
  List.Pairwise.sublist hs h

theorem Inv.inside {b : OrderBook} (hb : Inv b) (s : Side) :
    ∀ k ∈ keys (b.ladder s), ∀ k' ∈ keys (b.ladder s.flip), inside s k k' := by
  intro k hk k' hk'
  cases s
  · exact hb.uncrossed k hk k' hk'
  · exact hb.uncrossed k' hk' k hk

theorem Inv.nodup_side {b : OrderBook} (hb : Inv b) (s : Side) :
    (ids (b.ladder s) ++ ids (b.ladder s.flip)).Nodup := by
  cases s
  · exact hb.ids_nodup
  · exact (List.perm_append_comm.nodup_iff).1 hb.ids_nodup

theorem mem_ids_of_keyed {m : Ladder} {px : Int} {id : Nat} (h : (px, id) ∈ keyed m) :
    id ∈ ids m := by
  simp only [keyed, ids, List.mem_map] at h ⊢
  obtain ⟨p, hp, he⟩ := h
  exact ⟨p, hp, by simpa using (congrArg Prod.snd he)⟩

theorem keyed_of_mem_ids {m : Ladder} {id : Nat} (h : id ∈ ids m) :
    ∃ px, (px, id) ∈ keyed m := by
  simp only [keyed, ids, List.mem_map] at h ⊢
  obtain ⟨p, hp, he⟩ := h
  exact ⟨p.1, p, hp, by simp [he]⟩

theorem ids_eq_keyed (m : Ladder) : ids m = (keyed m).map Prod.snd := by
  simp [ids, keyed]

/-- An id absent from the index rests nowhere. -/
theorem Inv.not_resting {b : OrderBook} (hb : Inv b) (id : Nat) (h : b.id_index_ id = none)
    (s : Side) : id ∉ ids (b.ladder s) := by
  intro hm
  obtain ⟨px, hpx⟩ := keyed_of_mem_ids hm
  have := (hb.index id ⟨s, px⟩).2 hpx
  rw [h] at this
  exact Option.noConfusion this

/-- The invariant after the ladder of side `s0`, the index and the journal
were replaced. -/
theorem inv_update (b : OrderBook) (hb : Inv b) (s0 : Side) (m' : Ladder) (idx' : IdIndex)
    (tr' : List Trade)
    (h_sorted : Sorted s0 m')
    (h_in : ∀ k ∈ keys m', ∀ k' ∈ keys (b.ladder s0.flip), inside s0 k k')
    (h_ne : ∀ p ∈ m', p.2.q ≠ [])
    (h_kp : ∀ p ∈ m', p.2.px = p.1)
    (h_qp : ∀ p ∈ entries m', 0 < p.2.qty)
    (h_nd : (ids m' ++ ids (b.ladder s0.flip)).Nodup)
    (h_own : ∀ id px, idx' id = some ⟨s0, px⟩ ↔ (px, id) ∈ keyed m')
    (h_opp : ∀ id px, idx' id = some ⟨s0.flip, px⟩ ↔ (px, id) ∈ keyed (b.ladder s0.flip)) :
    Inv { b.setLadder s0 m' with id_index_ := idx', trades_ := tr' } := by
  have hl1 : ({ b.setLadder s0 m' with id_index_ := idx', trades_ := tr' } : OrderBook).ladder s0
      = m' := by cases s0 <;> rfl
  have hl2 : ({ b.setLadder s0 m' with id_index_ := idx', trades_ := tr' } : OrderBook).ladder
      s0.flip = b.ladder s0.flip := by cases s0 <;> rfl
  have hall : ∀ (P : Side → Ladder → Prop), P s0 m' → (∀ s, P s (b.ladder s)) →
      ∀ s, P s (({ b.setLadder s0 m' with id_index_ := idx', trades_ := tr' } : OrderBook).ladder s) := by
    intro P h1 h2 s
    rcases side_cases s0 s with h | h
    · subst h; rw [hl1]; exact h1
    · subst h; rw [hl2]; exact h2 _
  refine ⟨?_, ?_, ?_, ?_, ?_, ?_, ?_, ?_⟩
  · exact hall (fun s m => Sorted s m) h_sorted hb.sorted
  · cases s0
    · intro kb hkb ka hka
      exact h_in kb hkb ka hka
    · intro kb hkb ka hka
      exact h_in ka hka kb hkb
  · exact hall (fun _ m => ∀ p ∈ m, p.2.q ≠ []) h_ne hb.nonempty
  · exact hall (fun _ m => ∀ p ∈ m, p.2.px = p.1) h_kp hb.key_px
  · exact hall (fun _ m => ∀ p ∈ entries m, 0 < p.2.qty) h_qp hb.qty_pos
  · cases s0
    · exact h_nd
    · exact (List.perm_append_comm.nodup_iff).1 h_nd
  · intro id h
    obtain ⟨hs, hpx⟩ := h
    rcases side_cases s0 hs with h | h
    · subst h
      show idx' id = _ ↔ _
      simp only []
      rw [hl1]; exact h_own id hpx
    · subst h
      show idx' id = _ ↔ _
      simp only []
      rw [hl2]; exact h_opp id hpx
  · cases s0 <;> exact hb.tick_pos


/-! ### The invariant is kept by the matcher and by the resting block -/

theorem ids_sublist_of_keyed {m m' : Ladder} {gone : List (Int × Nat)}
    (h : keyed m = gone ++ keyed m') : (ids m').Sublist (ids m) := by
  rw [ids_eq_keyed, ids_eq_keyed, h, List.map_append]
  exact List.sublist_append_right _ _

theorem inv_sweep (b : OrderBook) (hb : Inv b) (s0 : Side) (buy : Bool) (inn : Order) :
    Inv { b.setLadder s0 (sweep buy (b.ladder s0) inn b.id_index_ b.trades_ false).opp with
          id_index_ := (sweep buy (b.ladder s0) inn b.id_index_ b.trades_ false).idx
          trades_ := (sweep buy (b.ladder s0) inn b.id_index_ b.trades_ false).trades } := by
  obtain ⟨gone, hk, hi⟩ := sweep_ids buy (b.ladder s0) inn b.id_index_ b.trades_ false
  have hsuf := sweep_keys_suffix buy (b.ladder s0) inn b.id_index_ b.trades_ false
  have hlev := sweep_levels buy (b.ladder s0) inn b.id_index_ b.trades_ false
  have hnd := hb.nodup_side s0
  have hids : ids (b.ladder s0) = gone.map Prod.snd ++
      ids (sweep buy (b.ladder s0) inn b.id_index_ b.trades_ false).opp := by
    rw [ids_eq_keyed, hk, List.map_append, ← ids_eq_keyed]
  have hgone_own : ∀ i ∈ gone.map Prod.snd,
      i ∉ ids (sweep buy (b.ladder s0) inn b.id_index_ b.trades_ false).opp := by
    intro i hi1 hi2
    have h1 : (ids (b.ladder s0)).Nodup := (List.nodup_append.1 hnd).1
    rw [hids] at h1
    exact (List.nodup_append.1 h1).2.2 hi1 hi2
  have hgone_opp : ∀ i ∈ gone.map Prod.snd, i ∉ ids (b.ladder s0.flip) := by
    intro i hi1 hi2
    have h1 : i ∈ ids (b.ladder s0) := by rw [hids]; simp [hi1]
    exact (List.nodup_append.1 hnd).2.2 h1 hi2
  apply inv_update b hb s0
  · exact (hb.sorted s0).of_sublist hsuf.sublist
  · intro k hk1 k' hk'
    exact hb.inside s0 k (hsuf.subset hk1) k' hk'
  · intro p hp
    rcases (hlev p hp).1 with h | h
    · exact hb.nonempty s0 p h
    · exact h
  · intro p hp
    obtain ⟨lvl, h1, h2⟩ := (hlev p hp).2
    rw [h2]
    exact hb.key_px s0 (p.1, lvl) h1
  · exact sweep_qty_pos buy (b.ladder s0) inn b.id_index_ b.trades_ false (hb.qty_pos s0)
  · exact List.Sublist.nodup
      (List.Sublist.append (ids_sublist_of_keyed hk) (List.Sublist.refl _)) hnd
  · intro id px
    rw [hi]
    constructor
    · intro h
      by_cases hg : id ∈ gone.map Prod.snd
      · simp [hg] at h
      · simp only [hg, if_false] at h
        have h1 := (hb.index id ⟨s0, px⟩).1 h
        simp only [] at h1
        rw [hk, List.mem_append] at h1
        rcases h1 with h1 | h1
        · exact absurd (List.mem_map_of_mem Prod.snd h1) hg
        · exact h1
    · intro h
      have hg : id ∉ gone.map Prod.snd := fun hg => hgone_own id hg (mem_ids_of_keyed h)
      simp only [hg, if_false]
      apply (hb.index id ⟨s0, px⟩).2
      simp only []
      rw [hk]; simp [h]
  · intro id px
    rw [hi]
    constructor
    · intro h
      by_cases hg : id ∈ gone.map Prod.snd
      · simp [hg] at h
      · simp only [hg, if_false] at h
        exact (hb.index id ⟨s0.flip, px⟩).1 h
    · intro h
      have hg : id ∉ gone.map Prod.snd := fun hg => hgone_opp id hg (mem_ids_of_keyed h)
      simp only [hg, if_false]
      exact (hb.index id ⟨s0.flip, px⟩).2 h

theorem inv_match (b : OrderBook) (hb : Inv b) (inn : Order) :
    Inv (match_incoming b inn).2.2 := by
  rw [match_incoming_eq]
  exact inv_sweep b hb inn.side.flip inn.side.is_buy inn

/-- Side-generic form of the resting block. -/
theorem rest_order_eq (b : OrderBook) (s : Side) (px : Int) (id : Nat) (qty ts : Int) :
    rest_order b s px id qty ts =
      { b.setLadder s (rest_ladder (side_lt s) px id qty ts (b.ladder s)) with
        id_index_ := b.id_index_.assign id ⟨s, px⟩
        trades_ := b.trades_ } := by
  cases s <;> rfl

theorem keyed_perm {m : Ladder} {l : List (Int × QueueEntry)} (h : (entries m).Perm l) :
    (keyed m).Perm (l.map (fun p => (p.1, p.2.id))) := h.map _

theorem ids_perm {m : Ladder} {l : List (Int × QueueEntry)} (h : (entries m).Perm l) :
    (ids m).Perm (l.map (fun p => p.2.id)) := h.map _

theorem inv_rest (b : OrderBook) (hb : Inv b) (s : Side) (px : Int) (id : Nat) (qty ts : Int)
    (hid : b.id_index_ id = none) (hq : 0 < qty)
    (hin : ∀ k' ∈ keys (b.ladder s.flip), inside s px k') :
    Inv (rest_order b s px id qty ts) := by
  rw [rest_order_eq]
  have hperm := rest_ladder_entries (side_lt s) px id qty ts (b.ladder s)
  have hlev := rest_ladder_levels (side_lt s) px id qty ts (b.ladder s)
  have hkp := keyed_perm hperm
  have hip := ids_perm hperm
  simp only [List.map_cons] at hkp hip
  apply inv_update b hb s
  · exact rest_ladder_sorted s px id qty ts (b.ladder s) (hb.sorted s)
  · intro k hk k' hk'
    rcases (rest_ladder_keys _ px id qty ts (b.ladder s) k).1 hk with h | h
    · rw [h]; exact hin k' hk'
    · exact hb.inside s k h k' hk'
  · intro p hp
    rcases hlev p hp with h | h
    · exact hb.nonempty s p h
    · exact h.2.1
  · intro p hp
    rcases hlev p hp with h | ⟨h1, _, h3⟩
    · exact hb.key_px s p h
    · rcases h3 with h3 | ⟨v, hv, h3⟩
      · rw [h3, h1]
      · rw [h3, h1]; exact hb.key_px s (px, v) hv
  · intro p hp
    have := hperm.subset hp
    simp only [List.mem_cons] at this
    rcases this with h | h
    · rw [h]; exact hq
    · exact hb.qty_pos s p h
  · have h1 : (id :: (ids (b.ladder s) ++ ids (b.ladder s.flip))).Nodup := by
      refine List.nodup_cons.2 ⟨?_, hb.nodup_side s⟩
      intro hm
      rcases List.mem_append.1 hm with h | h
      · exact hb.not_resting id hid s h
      · exact hb.not_resting id hid s.flip h
    refine (List.Perm.nodup_iff ?_).2 h1
    exact (List.Perm.append_right _ hip)
  · intro i px'
    rw [hkp.mem_iff]
    by_cases hi : i = id
    · subst hi
      simp only [IdIndex.assign, if_true, Option.some.injEq, Handle.mk.injEq, true_and,
        List.mem_cons, Prod.mk.injEq, and_true]
      constructor
      · intro h; exact Or.inl h.symm
      · rintro (h | h)
        · exact h.symm
        · exact absurd (mem_ids_of_keyed h) (hb.not_resting i hid s)
    · simp only [IdIndex.assign, hi, if_false, List.mem_cons, Prod.mk.injEq, and_false,
        false_or]
      exact hb.index i ⟨s, px'⟩
  · intro i px'
    by_cases hi : i = id
    · subst hi
      simp only [IdIndex.assign, if_true, Option.some.injEq, Handle.mk.injEq]
      constructor
      · intro h; exact absurd h.1.symm (flip_ne s)
      · intro h; exact absurd (mem_ids_of_keyed h) (hb.not_resting i hid s.flip)
    · simp only [IdIndex.assign, hi, if_false]
      exact hb.index i ⟨s.flip, px'⟩


/-! ### The invariant is kept by removing and by rewriting an entry -/

theorem setLadder_eta (b : OrderBook) (s : Side) (m : Ladder) :
    b.setLadder s m =
      { b.setLadder s m with id_index_ := b.id_index_, trades_ := b.trades_ } := by
  cases s <;> rfl

theorem inv_erase (b : OrderBook) (hb : Inv b) (id : Nat) (h : Handle) (lvl : Level)
    (row : QueueEntry) (hfind : map_find h.px (b.ladder h.side) = some lvl)
    (hrow : find_row id lvl.q = some row) :
    Inv { b.setLadder h.side (erase_entry id h.px lvl (b.ladder h.side)) with
          id_index_ := b.id_index_.erase id, trades_ := b.trades_ } := by
  have hperm := erase_entry_entries hfind hrow
  have hlev := erase_entry_levels id hfind
  have hkeys := erase_entry_keys id h.px lvl (b.ladder h.side)
  have hrid := (find_row_some hrow).1
  have hkp := keyed_perm hperm
  have hip := ids_perm hperm
  simp only [List.map_cons, hrid] at hkp hip
  have hnd := hb.nodup_side h.side
  have hnd2 : (id :: (ids (erase_entry id h.px lvl (b.ladder h.side)) ++
      ids (b.ladder h.side.flip))).Nodup :=
    (List.Perm.nodup_iff (List.Perm.append_right _ hip)).1 hnd
  have hnot : id ∉ ids (erase_entry id h.px lvl (b.ladder h.side)) ∧
      id ∉ ids (b.ladder h.side.flip) := by
    have := (List.nodup_cons.1 hnd2).1
    simpa [List.mem_append, not_or] using this
  apply inv_update b hb h.side
  · exact (hb.sorted h.side).of_sublist hkeys
  · intro k hk k' hk'
    exact hb.inside h.side k (hkeys.subset hk) k' hk'
  · intro p hp
    rcases hlev p hp with h1 | h1
    · exact hb.nonempty h.side p h1
    · exact h1.2.1
  · intro p hp
    rcases hlev p hp with h1 | ⟨h1, _, h3⟩
    · exact hb.key_px h.side p h1
    · rw [h3, h1]; exact hb.key_px h.side (h.px, lvl) (map_find_mem hfind)
  · intro p hp
    exact hb.qty_pos h.side p (hperm.symm.subset (by simp [hp]))
  · exact (List.nodup_cons.1 hnd2).2
  · intro i px
    by_cases hi : i = id
    · subst hi
      simp only [IdIndex.erase, if_true]
      constructor
      · intro h1; exact Option.noConfusion h1
      · intro h1; exact absurd (mem_ids_of_keyed h1) hnot.1
    · simp only [IdIndex.erase, hi, if_false]
      rw [hb.index i ⟨h.side, px⟩]
      simp only []
      rw [hkp.mem_iff]
      simp only [List.mem_cons, Prod.mk.injEq, hi, and_false, false_or]
      rfl
  · intro i px
    by_cases hi : i = id
    · subst hi
      simp only [IdIndex.erase, if_true]
      constructor
      · intro h1; exact Option.noConfusion h1
      · intro h1; exact absurd (mem_ids_of_keyed h1) hnot.2
    · simp only [IdIndex.erase, hi, if_false]
      exact hb.index i ⟨h.side.flip, px⟩

/-- Rewriting the queue of one level keeps the invariant when the ids of the
queue are kept, it stays non-empty and its quantities stay positive. -/
theorem inv_modify (b : OrderBook) (hb : Inv b) (s : Side) (px : Int) (lvl : Level)
    (g : List QueueEntry → List QueueEntry)
    (hfind : map_find px (b.ladder s) = some lvl)
    (hids : ((g lvl.q).map (fun e => e.id)).Perm (lvl.q.map (fun e => e.id)))
    (hne : g lvl.q ≠ []) (hpos : ∀ e ∈ g lvl.q, 0 < e.qty) :
    Inv (b.setLadder s (map_modify px (fun l => { l with q := g l.q }) (b.ladder s))) := by
  rw [setLadder_eta]
  have h1 := entries_split hfind
  have h2 := entries_modify (fun l => { l with q := g l.q }) hfind
  simp only [] at h2
  have hk1 := keyed_perm h1
  have hk2 := keyed_perm h2
  simp only [List.map_append, List.map_map] at hk1 hk2
  have hq : (List.map ((fun p : Int × QueueEntry => (p.1, p.2.id)) ∘ fun e => (px, e)) (g lvl.q)).Perm
      (List.map ((fun p : Int × QueueEntry => (p.1, p.2.id)) ∘ fun e => (px, e)) lvl.q) := by
    have := hids.map (fun i => (px, i))
    simpa [List.map_map, Function.comp] using this
  have hkeyed : (keyed (map_modify px (fun l => { l with q := g l.q }) (b.ladder s))).Perm
      (keyed (b.ladder s)) :=
    (hk2.trans (List.Perm.append_right _ hq)).trans hk1.symm
  have hidp : (ids (map_modify px (fun l => { l with q := g l.q }) (b.ladder s))).Perm
      (ids (b.ladder s)) := by
    rw [ids_eq_keyed, ids_eq_keyed]; exact hkeyed.map _
  apply inv_update b hb s
  · have := hb.sorted s
    unfold Sorted at this ⊢
    rw [map_modify_keys]; exact this
  · intro k hk k' hk'
    rw [map_modify_keys] at hk
    exact hb.inside s k hk k' hk'
  · intro p hp
    rcases map_modify_mem _ _ _ p hp with h | ⟨l, hl, h⟩
    · exact hb.nonempty s p h
    · rw [hfind] at hl; cases hl; subst h; exact hne
  · intro p hp
    rcases map_modify_mem _ _ _ p hp with h | ⟨l, hl, h⟩
    · exact hb.key_px s p h
    · rw [hfind] at hl; cases hl; subst h
      exact hb.key_px s (px, lvl) (map_find_mem hfind)
  · intro p hp
    have := h2.subset hp
    rcases List.mem_append.1 this with h | h
    · simp only [List.mem_map] at h
      obtain ⟨e, he, rfl⟩ := h
      exact hpos e he
    · exact hb.qty_pos s p (h1.symm.subset (by simp [h]))
  · exact (List.Perm.nodup_iff (List.Perm.append_right _ hidp)).2 (hb.nodup_side s)
  · intro i px'
    rw [hkeyed.mem_iff]
    exact hb.index i ⟨s, px'⟩
  · intro i px'
    exact hb.index i ⟨s.flip, px'⟩


/-! ### The invariant holds on every reachable book -/

theorem past_limit_iff_inside (s : Side) (px k : Int) : past_limit s.is_buy px k = true ↔ inside s px k := by
  cases s <;> simp [past_limit, Side.is_buy, inside]

theorem inside_of_head (s : Side) {px k k' : Int} (h1 : inside s px k)
    (h2 : side_lt s.flip k k' = true) : inside s px k' := by
  cases s <;> simp [inside, side_lt, Side.flip, bid_lt, ask_lt] at * <;> omega

theorem Sorted.head_best {s : Side} {k : Int} {lvl : Level} {rest : Ladder}
    (h : Sorted s ((k, lvl) :: rest)) : ∀ k' ∈ keys ((k, lvl) :: rest), k' = k ∨ side_lt s k k' = true := by
  intro k' hk'
  simp only [keys, List.map_cons, List.mem_cons] at hk'
  rcases hk' with h1 | h1
  · exact Or.inl h1
  · right
    have := (List.pairwise_cons.1 h).1
    exact this k' h1

theorem inside_of_best (s : Side) (m : Ladder) (px : Int) (hs : Sorted s.flip m)
    (h : m = [] ∨ ∃ k lvl rest, m = (k, lvl) :: rest ∧ inside s px k) :
    ∀ k' ∈ keys m, inside s px k' := by
  intro k' hk'
  rcases h with h | ⟨k, lvl, rest, h, hin⟩
  · subst h; simp [keys] at hk'
  · subst h
    rcases hs.head_best k' hk' with h1 | h1
    · rw [h1]; exact hin
    · exact inside_of_head s hin h1

theorem match_incoming_inn (b : OrderBook) (inn : Order) :
    (match_incoming b inn).2.1 = { inn with qty := (match_incoming b inn).2.1.qty } := by
  rw [match_incoming_eq]
  exact sweep_inn _ _ _ _ _ _

theorem match_incoming_idx_none (b : OrderBook) (inn : Order) (id : Nat)
    (h : b.id_index_ id = none) : (match_incoming b inn).2.2.id_index_ id = none := by
  rw [match_incoming_eq]
  exact sweep_idx_none _ _ _ _ _ _ _ h

theorem match_incoming_own (b : OrderBook) (inn : Order) :
    (match_incoming b inn).2.2.ladder inn.side = b.ladder inn.side := by
  rw [match_incoming_eq]
  cases inn.side <;> rfl

theorem match_incoming_opp (b : OrderBook) (inn : Order) :
    (match_incoming b inn).2.2.ladder inn.side.flip =
      (sweep inn.side.is_buy (b.ladder inn.side.flip) inn b.id_index_ b.trades_ false).opp := by
  rw [match_incoming_eq]
  cases inn.side <;> rfl

/-- After the matcher left a taker with quantity, its price crosses no
price of the opposite ladder. -/
theorem match_incoming_inside (b : OrderBook) (hb : Inv b) (inn : Order)
    (hq : 0 < (match_incoming b inn).2.1.qty) :
    ∀ k' ∈ keys ((match_incoming b inn).2.2.ladder inn.side.flip), inside inn.side inn.px k' := by
  have hs := (inv_match b hb inn).sorted inn.side.flip
  apply inside_of_best inn.side _ inn.px hs
  rw [match_incoming_opp]
  have hq' : 0 < (sweep inn.side.is_buy (b.ladder inn.side.flip) inn b.id_index_
      b.trades_ false).inn.qty := by
    rw [match_incoming_eq] at hq; exact hq
  rcases sweep_exit inn.side.is_buy (b.ladder inn.side.flip) inn b.id_index_ b.trades_ false
    with h | h | ⟨k, lvl, rest, h1, _, h3⟩
  · omega
  · exact Or.inl h
  · exact Or.inr ⟨k, lvl, rest, h1, (past_limit_iff_inside inn.side inn.px k).1 h3⟩

theorem inv_match_rest (b : OrderBook) (hb : Inv b) (inn : Order)
    (hid : b.id_index_ inn.id = none) (hq : 0 < (match_incoming b inn).2.1.qty) :
    Inv (rest_order (match_incoming b inn).2.2 inn.side inn.px inn.id
      (match_incoming b inn).2.1.qty inn.ts_ns) := by
  apply inv_rest _ (inv_match b hb inn)
  · exact match_incoming_idx_none b inn inn.id hid
  · exact hq
  · exact match_incoming_inside b hb inn hq

theorem not_cross_inside (b : OrderBook) (hb : Inv b) (o : Order)
    (hlim : o.type ≠ OrdType.Market) (hc : would_cross_limit b o = false) :
    ∀ k' ∈ keys (b.ladder o.side.flip), inside o.side o.px k' := by
  apply inside_of_best o.side _ o.px (hb.sorted o.side.flip)
  unfold would_cross_limit at hc
  simp only [hlim, if_false] at hc
  cases hs : o.side
  · simp only [hs] at hc
    simp only [Side.flip, OrderBook.ladder]
    cases ha : b.ask_levels_ with
    | nil => exact Or.inl rfl
    | cons p rest =>
      obtain ⟨k, lvl⟩ := p
      rw [ha] at hc
      simp only [decide_eq_false_iff_not, not_le] at hc
      exact Or.inr ⟨k, lvl, rest, rfl, hc⟩
  · simp only [hs] at hc
    simp only [Side.flip, OrderBook.ladder]
    cases ha : b.bid_levels_ with
    | nil => exact Or.inl rfl
    | cons p rest =>
      obtain ⟨k, lvl⟩ := p
      rw [ha] at hc
      simp only [decide_eq_false_iff_not, not_le] at hc
      exact Or.inr ⟨k, lvl, rest, rfl, hc⟩

theorem match_incoming_fields (b : OrderBook) (inn : Order) :
    (match_incoming b inn).2.1.side = inn.side ∧ (match_incoming b inn).2.1.px = inn.px ∧
    (match_incoming b inn).2.1.id = inn.id ∧ (match_incoming b inn).2.1.ts_ns = inn.ts_ns ∧
    (match_incoming b inn).2.1.type = inn.type := by
  have h := match_incoming_inn b inn
  refine ⟨?_, ?_, ?_, ?_, ?_⟩ <;> (rw [h])

/-- The dispatch of `add`, with the local copies of the order resolved. -/
theorem add_eq (b : OrderBook) (o : Order) :
    add b o =
      if o.qty ≤ 0 then (false, b)
      else if (b.id_index_ o.id).isSome then (false, b)
      else if o.type ≠ OrdType.Market ∧ (o.px ≤ 0 ∨ Int.tmod o.px b.tick_ ≠ 0) then (false, b)
      else if o.tif = TIF.PostOnly then
        if o.type = OrdType.Market ∨ would_cross_limit b o = true then (false, b)
        else (true, rest_order b o.side o.px o.id o.qty o.ts_ns)
      else if o.tif = TIF.FOK then
        if can_fully_fill b o = false then (false, b)
        else (decide ((match_incoming b o).2.1.qty = 0), (match_incoming b o).2.2)
      else if o.type = OrdType.Market then (true, (match_incoming b o).2.2)
      else if o.tif = TIF.IOC then (true, (match_incoming b o).2.2)
      else if 0 < (match_incoming b o).2.1.qty then
        (true, rest_order (match_incoming b o).2.2 o.side o.px o.id
          (match_incoming b o).2.1.qty o.ts_ns)
      else (true, (match_incoming b o).2.2) := by
  obtain ⟨h1, h2, h3, h4, _⟩ := match_incoming_fields b o
  unfold add
  simp only [h1, h2, h3, h4]

theorem add_index_none {b : OrderBook} {o : Order} (h : ¬ (b.id_index_ o.id).isSome = true) :
    b.id_index_ o.id = none := by
  cases h' : b.id_index_ o.id with
  | none => rfl
  | some v => simp [h'] at h

theorem inv_add (b : OrderBook) (hb : Inv b) (o : Order) : Inv (add b o).2 := by
  rw [add_eq]
  split_ifs with h1 h2 h3 h4 h5 h6 h7 h8 h9 h10
  · exact hb
  · exact hb
  · exact hb
  · exact hb
  · have hlim : o.type ≠ OrdType.Market := fun hm => h5 (Or.inl hm)
    have hc : would_cross_limit b o = false := by
      cases h : would_cross_limit b o with
      | false => rfl
      | true => exact absurd (Or.inr h) h5
    exact inv_rest b hb o.side o.px o.id o.qty o.ts_ns (add_index_none h2) (by omega)
      (not_cross_inside b hb o hlim hc)
  · exact hb
  · exact inv_match b hb o
  · exact inv_match b hb o
  · exact inv_match b hb o
  · exact inv_match_rest b hb o (add_index_none h2) h10
  · exact inv_match b hb o

theorem cancel_eq (b : OrderBook) (id : Nat) (ts : Int) :
    cancel b id ts =
      match b.id_index_ id with
      | none => (false, b)
      | some h =>
        match map_find h.px (b.ladder h.side) with
        | none => (false, b)
        | some lvl =>
          match find_row id lvl.q with
          | none => (false, b)
          | some _ =>
            (true, removed b h id lvl) := by
  unfold cancel
  cases hi : b.id_index_ id with
  | none => rfl
  | some h =>
    obtain ⟨s, px⟩ := h
    cases s
    · simp only [erase_from_level, OrderBook.ladder]
      cases hf : map_find px b.bid_levels_ with
      | none => rfl
      | some lvl =>
        simp only []
        cases hr : find_row id lvl.q with
        | none => rfl
        | some row => rfl
    · simp only [erase_from_level, OrderBook.ladder]
      cases hf : map_find px b.ask_levels_ with
      | none => rfl
      | some lvl =>
        simp only []
        cases hr : find_row id lvl.q with
        | none => rfl
        | some row => rfl

theorem inv_cancel (b : OrderBook) (hb : Inv b) (id : Nat) (ts : Int) :
    Inv (cancel b id ts).2 := by
  rw [cancel_eq]
  cases hi : b.id_index_ id with
  | none => exact hb
  | some h =>
    simp only []
    cases hf : map_find h.px (b.ladder h.side) with
    | none => exact hb
    | some lvl =>
      simp only []
      cases hr : find_row id lvl.q with
      | none => exact hb
      | some row => exact inv_erase b hb id h lvl row hf hr


theorem shrink_row_ids (id : Nat) (new_qty : Int) (q : List QueueEntry) :
    (shrink_row id new_qty q).map (fun e => e.id) = q.map (fun e => e.id) := by
  induction q with
  | nil => rfl
  | cons e rest ih =>
    by_cases he : e.id = id
    · simp [shrink_row, he]
    · simp [shrink_row, he, ih]

theorem shrink_row_mem (id : Nat) (new_qty : Int) (q : List QueueEntry) :
    ∀ e ∈ shrink_row id new_qty q, e ∈ q ∨ e.qty = new_qty := by
  induction q with
  | nil => simp [shrink_row]
  | cons e rest ih =>
    intro e' he'
    by_cases he : e.id = id
    · simp only [shrink_row, he, if_true, List.mem_cons] at he'
      rcases he' with h | h
      · right; rw [h]
      · left; simp [h]
    · simp only [shrink_row, he, if_false, List.mem_cons] at he'
      rcases he' with h | h
      · left; simp [h]
      · rcases ih e' h with h' | h'
        · left; simp [h']
        · right; exact h'

theorem shrink_row_ne (id : Nat) (new_qty : Int) (q : List QueueEntry) (h : q ≠ []) :
    shrink_row id new_qty q ≠ [] := by
  intro h0
  have := congrArg (List.map (fun e => e.id)) h0
  rw [shrink_row_ids] at this
  simp at this
  exact h this

/-- The branches of `replace` for a handle, with the local order resolved. -/
theorem replace_side_eq (b : OrderBook) (h : Handle) (id : Nat) (new_px new_qty ts : Int) :
    replace_side b h id new_px new_qty ts =
      match map_find h.px (b.ladder h.side) with
      | none => (false, b)
      | some lvl =>
        match find_row id lvl.q with
        | none => (false, b)
        | some row =>
          if new_px ≠ h.px then
            if new_px ≤ 0 ∨ Int.tmod new_px b.tick_ ≠ 0 then (false, b)
            else if 0 < (match_incoming (removed b h id lvl)
                (reentry h id new_px new_qty ts)).2.1.qty then
              (true, rest_order
                (match_incoming (removed b h id lvl) (reentry h id new_px new_qty ts)).2.2
                h.side new_px id
                (match_incoming (removed b h id lvl) (reentry h id new_px new_qty ts)).2.1.qty ts)
            else
              (true, (match_incoming (removed b h id lvl) (reentry h id new_px new_qty ts)).2.2)
          else if new_qty = row.qty then (true, b)
          else if new_qty < row.qty then
            (true, b.setLadder h.side
              (map_modify h.px (fun l => { l with q := shrink_row id new_qty l.q })
                (b.ladder h.side)))
          else
            (true, b.setLadder h.side
              (map_modify h.px
                (fun l => { l with q := erase_first id l.q ++ [⟨row.id, new_qty, ts⟩] })
                (b.ladder h.side))) := by
  have hrem : ∀ lvl, ({ b.setLadder h.side (erase_entry id h.px lvl (b.ladder h.side)) with
      id_index_ := b.id_index_.erase id } : OrderBook) = removed b h id lvl := by
    intro lvl; unfold removed; cases h.side <;> rfl
  unfold replace_side
  cases hf : map_find h.px (b.ladder h.side) with
  | none => rfl
  | some lvl =>
    simp only []
    cases hr : find_row id lvl.q with
    | none => rfl
    | some row =>
      simp only [hrem]
      rfl

theorem removed_inv (b : OrderBook) (hb : Inv b) (id : Nat) (h : Handle) (lvl : Level)
    (row : QueueEntry) (hfind : map_find h.px (b.ladder h.side) = some lvl)
    (hrow : find_row id lvl.q = some row) : Inv (removed b h id lvl) :=
  inv_erase b hb id h lvl row hfind hrow

theorem inv_replace_side (b : OrderBook) (hb : Inv b) (h : Handle) (id : Nat)
    (new_px new_qty ts : Int) (hq : 0 < new_qty) :
    Inv (replace_side b h id new_px new_qty ts).2 := by
  rw [replace_side_eq]
  cases hf : map_find h.px (b.ladder h.side) with
  | none => exact hb
  | some lvl =>
    simp only []
    cases hr : find_row id lvl.q with
    | none => exact hb
    | some row =>
      simp only []
      have hmem : (h.px, lvl) ∈ b.ladder h.side := map_find_mem hf
      have hb1 := removed_inv b hb id h lvl row hf hr
      have hidn : (removed b h id lvl).id_index_ (reentry h id new_px new_qty ts).id = none := by
        simp [removed, reentry, IdIndex.erase]
      split_ifs with h1 h2 h3 h4 h5
      · exact hb
      · exact inv_match_rest _ hb1 (reentry h id new_px new_qty ts) hidn h3
      · exact inv_match _ hb1 (reentry h id new_px new_qty ts)
      · exact hb
      · refine inv_modify b hb h.side h.px lvl (fun q => shrink_row id new_qty q) hf ?_ ?_ ?_
        · rw [shrink_row_ids]
        · exact shrink_row_ne id new_qty lvl.q (hb.nonempty h.side _ hmem)
        · intro e he
          rcases shrink_row_mem id new_qty lvl.q e he with h' | h'
          · exact hb.qty_pos h.side (h.px, e) (mem_entries.2 ⟨lvl, hmem, h'⟩)
          · rw [h']; exact hq
      · refine inv_modify b hb h.side h.px lvl
          (fun q => erase_first id q ++ [(⟨row.id, new_qty, ts⟩ : QueueEntry)]) hf ?_ ?_ ?_
        · have := (erase_first_perm hr).map (fun e => e.id)
          simp only [List.map_cons] at this
          simp only [List.map_append, List.map_cons, List.map_nil]
          exact (List.perm_append_comm.trans (by simpa using this.symm))
        · simp
        · intro e he
          simp only [List.mem_append, List.mem_singleton] at he
          rcases he with h' | h'
          · exact hb.qty_pos h.side (h.px, e)
              (mem_entries.2 ⟨lvl, hmem, (erase_first_sublist id lvl.q).subset h'⟩)
          · rw [h']; exact hq

theorem inv_replace (b : OrderBook) (hb : Inv b) (id : Nat) (new_px new_qty ts : Int) :
    Inv (replace b id new_px new_qty ts).2 := by
  unfold replace
  split_ifs with h1
  · exact hb
  · cases hi : b.id_index_ id with
    | none => exact hb
    | some h => exact inv_replace_side b hb h id new_px new_qty ts (by omega)

theorem inv_init (symbol : String) (tick : Int) (h : 0 < tick) :
    Inv (OrderBook.init symbol tick) := by
  refine ⟨?_, ?_, ?_, ?_, ?_, ?_, ?_, h⟩
  · intro s; cases s <;> simp [Sorted, keys, OrderBook.init, OrderBook.ladder]
  · intro kb hkb; simp [keys, OrderBook.init] at hkb
  · intro s p hp; cases s <;> simp [OrderBook.init, OrderBook.ladder] at hp
  · intro s p hp; cases s <;> simp [OrderBook.init, OrderBook.ladder] at hp
  · intro s p hp; cases s <;> simp [OrderBook.init, OrderBook.ladder, entries] at hp
  · simp [ids, entries, OrderBook.init]
  · intro id hd
    cases hs : hd.side <;> simp [OrderBook.init, OrderBook.ladder, keyed, entries, hs]

theorem inv_pop_trade (b : OrderBook) (hb : Inv b) : Inv (pop_trade b).2 :=
  ⟨hb.sorted, hb.uncrossed, hb.nonempty, hb.key_px, hb.qty_pos, hb.ids_nodup, hb.index,
    hb.tick_pos⟩

/-- Every reachable book satisfies the representation invariant. -/
theorem reachable_inv {b : OrderBook} (h : Reachable b) : Inv b := by
  induction h with
  | init symbol tick h => exact inv_init symbol tick h
  | add b o _ ih => exact inv_add b ih o
  | cancel b id ts _ ih => exact inv_cancel b ih id ts
  | replace b id new_px new_qty ts _ ih => exact inv_replace b ih id new_px new_qty ts
  | pop_trade b _ ih => exact inv_pop_trade b ih


/-! ### The trades emitted by the matcher -/

theorem fill_queue_fills (px : Int) (buy : Bool) (taker : Order) (dq : List QueueEntry) :
    ∀ inn idx tr any, inn.id = taker.id → inn.ts_ns = taker.ts_ns →
      ∃ new, (fill_queue px buy dq inn idx tr any).trades = tr ++ new ∧
        ∀ F' new',
          ((fill_queue px buy dq inn idx tr any).dq = [] →
            Fills taker buy F' (fill_queue px buy dq inn idx tr any).inn.qty new') →
          ((fill_queue px buy dq inn idx tr any).dq ≠ [] → new' = []) →
          Fills taker buy (dq.map (fun e => (px, e)) ++ F') inn.qty (new ++ new') := by
  apply fill_queue_induct px buy (fun dq inn _ tr _ r =>
    inn.id = taker.id → inn.ts_ns = taker.ts_ns →
      ∃ new, r.trades = tr ++ new ∧
        ∀ F' new', (r.dq = [] → Fills taker buy F' r.inn.qty new') → (r.dq ≠ [] → new' = []) →
          Fills taker buy (dq.map (fun e => (px, e)) ++ F') inn.qty (new ++ new'))
  · intro dq inn idx tr any _ _ _
    refine ⟨[], by simp, ?_⟩
    intro F' new' h1 h2
    cases dq with
    | nil => simpa using h1 rfl
    | cons m rest =>
      have := h2 (by simp)
      subst this
      simp [Fills]
  · intro m rest inn idx tr any res hq hm ih hid hts
    obtain ⟨new1, h1, h2⟩ := ih hid hts
    refine ⟨⟨inn.id, m.id, px, m.qty, inn.ts_ns, buy⟩ :: new1, by simp [h1], ?_⟩
    intro F' new' h3 h4
    have := h2 F' new' h3 h4
    simp only [List.map_cons, List.cons_append, Fills]
    have hmin : min inn.qty m.qty = m.qty := min_eq_right hm
    rw [hmin]
    exact ⟨by rw [hid, hts], hq, Or.inr hm, this⟩
  · intro m rest inn idx tr any hq hm hid hts
    refine ⟨[⟨inn.id, m.id, px, inn.qty, inn.ts_ns, buy⟩], rfl, ?_⟩
    intro F' new' _ h4
    have := h4 (by simp)
    subst this
    simp only [List.map_cons, List.cons_append, List.append_nil, Fills]
    have hmin : min inn.qty m.qty = inn.qty := min_eq_left (le_of_lt hm)
    rw [hmin]
    exact ⟨by rw [hid, hts], hq, Or.inl rfl, by simp [Fills]⟩

/-- The trades appended by the outer loop are fills of the taker against the
entries of the opposite ladder, best level first and oldest first. -/
theorem sweep_fills (buy : Bool) (taker : Order) (opp : Ladder) :
    ∀ inn idx tr any, inn.id = taker.id → inn.ts_ns = taker.ts_ns →
      ∃ new, (sweep buy opp inn idx tr any).trades = tr ++ new ∧
        Fills taker buy (entries opp) inn.qty new := by
  apply sweep_induct buy (fun opp inn _ tr _ r =>
    inn.id = taker.id → inn.ts_ns = taker.ts_ns →
      ∃ new, r.trades = tr ++ new ∧ Fills taker buy (entries opp) inn.qty new)
  · intro opp inn idx tr any _ _ _
    exact ⟨[], by simp, by simp [Fills]⟩
  · intro k lvl rest inn idx tr any res _ he ih hid hts
    obtain ⟨new1, h1, h2⟩ := fill_queue_fills k buy taker lvl.q inn idx tr any hid hts
    have hid' : (fill_queue k buy lvl.q inn idx tr any).inn.id = taker.id := by
      rw [fill_queue_inn]; exact hid
    have hts' : (fill_queue k buy lvl.q inn idx tr any).inn.ts_ns = taker.ts_ns := by
      rw [fill_queue_inn]; exact hts
    obtain ⟨new2, h3, h4⟩ := ih hid' hts'
    refine ⟨new1 ++ new2, by rw [h3, h1, List.append_assoc], ?_⟩
    exact h2 (entries rest) new2 (fun _ => h4) (fun hne => absurd he hne)
  · intro k lvl rest inn idx tr any _ he hid hts
    obtain ⟨new1, h1, h2⟩ := fill_queue_fills k buy taker lvl.q inn idx tr any hid hts
    refine ⟨new1, h1, ?_⟩
    have := h2 (entries rest) [] (fun he' => absurd he' he) (fun _ => rfl)
    simpa using this

theorem fill_queue_traded (px : Int) (buy : Bool) (dq : List QueueEntry) :
    ∀ inn idx tr any,
      traded (fill_queue px buy dq inn idx tr any).trades +
        (fill_queue px buy dq inn idx tr any).inn.qty = traded tr + inn.qty := by
  apply fill_queue_induct px buy (fun _ inn _ tr _ r =>
    traded r.trades + r.inn.qty = traded tr + inn.qty)
  · intro dq inn idx tr any _; rfl
  · intro m rest inn idx tr any res _ _ ih
    rw [ih]; simp only [traded, List.map_append, List.map_cons, List.map_nil, List.sum_append,
      List.sum_cons, List.sum_nil]; omega
  · intro m rest inn idx tr any _ _
    simp [traded]

/-- Quantity is conserved: what the taker lost is what was traded. -/
theorem sweep_traded (buy : Bool) (opp : Ladder) :
    ∀ inn idx tr any,
      traded (sweep buy opp inn idx tr any).trades +
        (sweep buy opp inn idx tr any).inn.qty = traded tr + inn.qty := by
  apply sweep_induct buy (fun _ inn _ tr _ r =>
    traded r.trades + r.inn.qty = traded tr + inn.qty)
  · intro opp inn idx tr any _; rfl
  · intro k lvl rest inn idx tr any res _ _ ih
    rw [ih]; exact fill_queue_traded k buy lvl.q inn idx tr any
  · intro k lvl rest inn idx tr any _ _
    exact fill_queue_traded k buy lvl.q inn idx tr any

theorem fill_queue_px (px : Int) (buy : Bool) (dq : List QueueEntry) :
    ∀ inn idx tr any, ∃ new, (fill_queue px buy dq inn idx tr any).trades = tr ++ new ∧
      ∀ t ∈ new, t.px = px := by
  apply fill_queue_induct px buy (fun _ _ _ tr _ r =>
    ∃ new, r.trades = tr ++ new ∧ ∀ t ∈ new, t.px = px)
  · intro dq inn idx tr any _; exact ⟨[], by simp, by simp⟩
  · intro m rest inn idx tr any res _ _ ih
    obtain ⟨new, h1, h2⟩ := ih
    refine ⟨⟨inn.id, m.id, px, m.qty, inn.ts_ns, buy⟩ :: new, by rw [h1]; simp, ?_⟩
    intro t ht
    simp only [List.mem_cons] at ht
    rcases ht with h | h
    · rw [h]
    · exact h2 t h
  · intro m rest inn idx tr any _ _
    refine ⟨[⟨inn.id, m.id, px, inn.qty, inn.ts_ns, buy⟩], rfl, ?_⟩
    intro t ht
    simp only [List.mem_singleton] at ht
    rw [ht]

/-- Every trade appended by the outer loop prints at a price that the price check
let through. -/
theorem sweep_px (buy : Bool) (opp : Ladder) :
    ∀ inn idx tr any, ∃ new, (sweep buy opp inn idx tr any).trades = tr ++ new ∧
      ∀ t ∈ new, ¬ (inn.type ≠ OrdType.Market ∧ past_limit buy inn.px t.px = true) := by
  apply sweep_induct buy (fun _ inn _ tr _ r =>
    ∃ new, r.trades = tr ++ new ∧
      ∀ t ∈ new, ¬ (inn.type ≠ OrdType.Market ∧ past_limit buy inn.px t.px = true))
  · intro opp inn idx tr any _; exact ⟨[], by simp, by simp⟩
  · intro k lvl rest inn idx tr any res hent _ ih
    obtain ⟨new1, h1, h2⟩ := fill_queue_px k buy lvl.q inn idx tr any
    obtain ⟨new2, h3, h4⟩ := ih
    refine ⟨new1 ++ new2, by rw [h3, h1, List.append_assoc], ?_⟩
    intro t ht
    rcases List.mem_append.1 ht with h | h
    · rw [h2 t h]; exact hent.2
    · have := h4 t h
      rw [fill_queue_inn] at this
      exact this
  · intro k lvl rest inn idx tr any hent _
    obtain ⟨new1, h1, h2⟩ := fill_queue_px k buy lvl.q inn idx tr any
    refine ⟨new1, h1, ?_⟩
    intro t ht
    rw [h2 t ht]; exact hent.2

theorem emitted_append (b b' : OrderBook) (new : List Trade)
    (h : b'.trades_ = b.trades_ ++ new) : emitted b b' = new := by
  simp [emitted, h]

theorem emitted_same (b b' : OrderBook) (h : b'.trades_ = b.trades_) : emitted b b' = [] := by
  simp [emitted, h]

theorem rest_order_trades (b : OrderBook) (s : Side) (px : Int) (id : Nat) (qty ts : Int) :
    (rest_order b s px id qty ts).trades_ = b.trades_ := by
  cases s <;> rfl

theorem match_incoming_trades (b : OrderBook) (inn : Order) :
    (match_incoming b inn).2.2.trades_ =
      (sweep inn.side.is_buy (b.ladder inn.side.flip) inn b.id_index_ b.trades_ false).trades := by
  rw [match_incoming_eq]

/-- The journal after `add` is the old journal, or the journal left by the matcher. -/
theorem add_trades (b : OrderBook) (o : Order) :
    (add b o).2.trades_ = b.trades_ ∨ (add b o).2.trades_ = (match_incoming b o).2.2.trades_ := by
  rw [add_eq]
  split_ifs <;> first | exact Or.inl rfl | exact Or.inr rfl | skip
  · exact Or.inl (rest_order_trades _ _ _ _ _ _)
  · exact Or.inr (rest_order_trades _ _ _ _ _ _)


/-! ### The matcher does not read the time in force -/

theorem fill_queue_tif (px : Int) (buy : Bool) (t : TIF) (dq : List QueueEntry) :
    ∀ inn idx tr any,
      fill_queue px buy dq { inn with tif := t } idx tr any =
        { fill_queue px buy dq inn idx tr any with
          inn := { (fill_queue px buy dq inn idx tr any).inn with tif := t } } := by
  induction dq with
  | nil => intro inn idx tr any; rfl
  | cons m rest ih =>
    intro inn idx tr any
    by_cases hq : 0 < inn.qty
    · by_cases hm : m.qty ≤ inn.qty
      · rw [fill_queue_whole px buy m rest inn idx tr any hq hm,
          fill_queue_whole px buy m rest { inn with tif := t } idx tr any hq hm]
        exact ih { inn with qty := inn.qty - m.qty } _ _ _
      · have hlt : inn.qty < m.qty := by omega
        rw [fill_queue_part px buy m rest inn idx tr any hq hlt,
          fill_queue_part px buy m rest { inn with tif := t } idx tr any hq hlt]
    · rw [fill_queue_stop px buy _ inn idx tr any hq,
        fill_queue_stop px buy _ { inn with tif := t } idx tr any hq]

theorem sweep_tif (buy : Bool) (t : TIF) (opp : Ladder) :
    ∀ inn idx tr any,
      sweep buy opp { inn with tif := t } idx tr any =
        { sweep buy opp inn idx tr any with
          inn := { (sweep buy opp inn idx tr any).inn with tif := t } } := by
  induction opp with
  | nil => intro inn idx tr any; rfl
  | cons p rest ih =>
    obtain ⟨k, lvl⟩ := p
    intro inn idx tr any
    by_cases h : Enters buy inn k
    · have h' : Enters buy { inn with tif := t } k := h
      by_cases he : (fill_queue k buy lvl.q inn idx tr any).dq = []
      · have he' : (fill_queue k buy lvl.q { inn with tif := t } idx tr any).dq = [] := by
          rw [fill_queue_tif]; exact he
        rw [sweep_next buy k lvl rest inn idx tr any h he,
          sweep_next buy k lvl rest { inn with tif := t } idx tr any h' he']
        rw [fill_queue_tif]
        exact ih _ _ _ _
      · have he' : (fill_queue k buy lvl.q { inn with tif := t } idx tr any).dq ≠ [] := by
          rw [fill_queue_tif]; exact he
        rw [sweep_part buy k lvl rest inn idx tr any h he,
          sweep_part buy k lvl rest { inn with tif := t } idx tr any h' he']
        rw [fill_queue_tif]
    · have h' : ¬ Enters buy { inn with tif := t } k := h
      rw [sweep_stop buy k lvl rest inn idx tr any h,
        sweep_stop buy k lvl rest { inn with tif := t } idx tr any h']

/-- The book left by the matcher and the quantity left to the taker do not
depend on the taker's time in force. -/
theorem match_incoming_tif (b : OrderBook) (inn : Order) (t : TIF) :
    (match_incoming b { inn with tif := t }).2.2 = (match_incoming b inn).2.2 ∧
    (match_incoming b { inn with tif := t }).2.1.qty = (match_incoming b inn).2.1.qty := by
  rw [match_incoming_eq, match_incoming_eq]
  simp only []
  rw [sweep_tif]
  exact ⟨rfl, rfl⟩


/-! ### Example books are reachable -/

theorem book_two_sided_reachable : Reachable book_two_sided :=
  Reachable.add _ _ (Reachable.add _ _ (Reachable.init "TEST" 1 (by decide)))

theorem book_one_ask_reachable : Reachable book_one_ask :=
  Reachable.add _ _ (Reachable.init "TEST" 1 (by decide))

theorem book_three_asks_reachable : Reachable book_three_asks :=
  Reachable.add _ _ (Reachable.add _ _ (Reachable.add _ _ (Reachable.init "TEST" 1 (by decide))))

/-! ## C1: the book is uncrossed at rest -/

theorem Sorted.best_first {s : Side} {m : Ladder} {p : Int} (hs : Sorted s m)
    (hb : best m = some p) : ∀ k ∈ keys m, k = p ∨ side_lt s p k = true := by
  cases m with
  | nil => simp [best, keys] at hb
  | cons q rest =>
    obtain ⟨k0, lvl⟩ := q
    have : k0 = p := by simpa [best, keys] using hb
    subst this
    exact hs.head_best

theorem best_mem {m : Ladder} {p : Int} (hb : best m = some p) : p ∈ keys m := by
  cases m with
  | nil => simp [best, keys] at hb
  | cons q rest =>
    have : q.1 = p := by simpa [best, keys] using hb
    simp [keys, this]

/-- C1. On every book reached from an empty book with a positive tick by
`add`, `cancel`, `replace` and `pop_trade` calls, whenever both ladders are
non-empty the first bid price is the highest bid, the first ask price is the
lowest ask, and the highest bid is strictly below the lowest ask. -/
theorem C1_uncrossed_at_rest (b : OrderBook) (hr : Reachable b) (pb pa : Int)
    (hbid : best b.bid_levels_ = some pb) (hask : best b.ask_levels_ = some pa) :
    (∀ k ∈ keys b.bid_levels_, k ≤ pb) ∧ (∀ k ∈ keys b.ask_levels_, pa ≤ k) ∧ pb < pa := by
  have hb := reachable_inv hr
  refine ⟨?_, ?_, hb.uncrossed pb (best_mem hbid) pa (best_mem hask)⟩
  · intro k hk
    rcases (hb.sorted Side.Buy).best_first hbid k hk with h | h
    · omega
    · simp [side_lt, bid_lt] at h; omega
  · intro k hk
    rcases (hb.sorted Side.Sell).best_first hask k hk with h | h
    · omega
    · simp [side_lt, ask_lt] at h; omega

/-- Instance of C1 on the two-sided example book: best bid 10000, best ask 10100. -/
theorem C1_uncrossed_at_rest_witness :
    (∀ k ∈ keys book_two_sided.bid_levels_, k ≤ 10000) ∧
    (∀ k ∈ keys book_two_sided.ask_levels_, 10100 ≤ k) ∧ (10000 : Int) < 10100 :=
  C1_uncrossed_at_rest book_two_sided book_two_sided_reachable 10000 10100 (by rfl) (by rfl)


/-! ## C2: a rejected call changes nothing -/

theorem sweep_done (buy : Bool) (opp : Ladder) (inn : Order) (idx : IdIndex) (tr : List Trade)
    (any : Bool) (h : ¬ 0 < inn.qty) : sweep buy opp inn idx tr any = ⟨opp, inn, idx, tr, any⟩ := by
  cases opp with
  | nil => rfl
  | cons p rest =>
    obtain ⟨k, lvl⟩ := p
    exact sweep_stop buy k lvl rest inn idx tr any (fun he => h he.1)

/-- The inner loop of the feasibility walk agrees with the inner loop of the
matcher: when the walk returns `true` the matcher leaves the taker at zero,
and when the walk goes on the matcher has emptied the queue and the taker is
left with the walk's `need`. -/
theorem walk_queue_fill (px : Int) (buy : Bool) (dq : List QueueEntry) :
    ∀ inn idx tr any, 0 < inn.qty →
      match walk_queue dq inn.qty with
      | none => (fill_queue px buy dq inn idx tr any).inn.qty = 0
      | some need => (fill_queue px buy dq inn idx tr any).inn.qty = need ∧
          (fill_queue px buy dq inn idx tr any).dq = [] ∧ 0 < need := by
  induction dq with
  | nil =>
    intro inn idx tr any hq
    simp [walk_queue, fill_queue, hq]
  | cons m rest ih =>
    intro inn idx tr any hq
    by_cases hm : m.qty ≤ inn.qty
    · rw [fill_queue_whole px buy m rest inn idx tr any hq hm]
      by_cases hz : inn.qty - m.qty ≤ 0
      · simp only [walk_queue, hz, if_true]
        rw [fill_queue_stop _ _ _ _ _ _ _ (by simp; omega)]
        simp; omega
      · simp only [walk_queue, hz, if_false]
        exact ih { inn with qty := inn.qty - m.qty } _ _ _ (by simp; omega)
    · rw [fill_queue_part px buy m rest inn idx tr any hq (by omega)]
      have hz : inn.qty - m.qty ≤ 0 := by omega
      simp [walk_queue, hz]

theorem walk_levels_sweep (buy : Bool) (x : Order) (opp : Ladder) :
    ∀ inn idx tr any, inn.type = x.type → inn.px = x.px → 0 < inn.qty →
      walk_levels buy x opp inn.qty = true → (sweep buy opp inn idx tr any).inn.qty = 0 := by
  induction opp with
  | nil =>
    intro inn idx tr any _ _ hq hw
    simp [walk_levels] at hw; omega
  | cons p rest ih =>
    obtain ⟨k, lvl⟩ := p
    intro inn idx tr any ht hp hq hw
    simp only [walk_levels, hq, if_true] at hw
    by_cases hg : x.type = OrdType.Limit ∧ past_limit buy x.px k = true
    · rw [if_pos hg] at hw
      simp at hw; omega
    · rw [if_neg hg] at hw
      have hent : Enters buy inn k := by
        refine ⟨hq, ?_⟩
        rintro ⟨h1, h2⟩
        apply hg
        rw [ht] at h1; rw [hp] at h2
        refine ⟨?_, h2⟩
        cases hx : x.type with
        | Limit => rfl
        | Market => exact absurd hx h1
      have hwf := walk_queue_fill k buy lvl.q inn idx tr any hq
      cases hwq : walk_queue lvl.q inn.qty with
      | none =>
        rw [hwq] at hwf
        simp only [] at hwf
        by_cases he : (fill_queue k buy lvl.q inn idx tr any).dq = []
        · rw [sweep_next buy k lvl rest inn idx tr any hent he]
          rw [sweep_done _ _ _ _ _ _ (by omega)]
          exact hwf
        · rw [sweep_part buy k lvl rest inn idx tr any hent he]
          exact hwf
      | some need =>
        rw [hwq] at hwf hw
        simp only [] at hwf hw
        obtain ⟨h1, h2, h3⟩ := hwf
        rw [sweep_next buy k lvl rest inn idx tr any hent h2]
        apply ih
        · rw [fill_queue_inn]; exact ht
        · rw [fill_queue_inn]; exact hp
        · omega
        · rw [h1]; exact hw

/-- An order that passes the feasibility walk is filled completely by the matcher. -/
theorem fok_fills (b : OrderBook) (o : Order) (hq : 0 < o.qty)
    (hf : can_fully_fill b o = true) : (match_incoming b o).2.1.qty = 0 := by
  rw [match_incoming_eq]
  simp only []
  unfold can_fully_fill at hf
  have hq' : ¬ o.qty ≤ 0 := by omega
  simp only [hq', if_false] at hf
  cases hs : o.side
  · rw [hs] at hf
    exact walk_levels_sweep true o _ o _ _ _ rfl rfl hq hf
  · rw [hs] at hf
    exact walk_levels_sweep false o _ o _ _ _ rfl rfl hq hf

theorem add_reject (b : OrderBook) (o : Order) (h : (add b o).1 = false) : (add b o).2 = b := by
  rw [add_eq] at h ⊢
  split_ifs at h ⊢ with h1 h2 h3 h4 h5 h6 h7 h8 h9 h10
  · rfl
  · rfl
  · rfl
  · rfl
  · rfl
  · exfalso
    have hf : can_fully_fill b o = true := by
      cases hc : can_fully_fill b o with
      | true => rfl
      | false => exact absurd hc h7
    have := fok_fills b o (by omega) hf
    simp [this] at h

theorem cancel_reject (b : OrderBook) (id : Nat) (ts : Int) (h : (cancel b id ts).1 = false) :
    (cancel b id ts).2 = b := by
  rw [cancel_eq] at h ⊢
  cases hi : b.id_index_ id with
  | none => rfl
  | some hd =>
    rw [hi] at h
    simp only [] at h ⊢
    cases hf : map_find hd.px (b.ladder hd.side) with
    | none => rfl
    | some lvl =>
      rw [hf] at h
      simp only [] at h ⊢
      cases hrow : find_row id lvl.q with
      | none => rfl
      | some row => rw [hrow] at h; simp at h

theorem replace_reject (b : OrderBook) (id : Nat) (new_px new_qty ts : Int)
    (h : (replace b id new_px new_qty ts).1 = false) : (replace b id new_px new_qty ts).2 = b := by
  unfold replace at h ⊢
  split_ifs at h ⊢ with h1
  · rfl
  · cases hi : b.id_index_ id with
    | none => rfl
    | some hd =>
      rw [hi] at h
      simp only [] at h ⊢
      rw [replace_side_eq] at h ⊢
      cases hf : map_find hd.px (b.ladder hd.side) with
      | none => rfl
      | some lvl =>
        rw [hf] at h
        simp only [] at h ⊢
        cases hrow : find_row id lvl.q with
        | none => rfl
        | some row =>
          rw [hrow] at h
          simp only [] at h ⊢
          split_ifs at h ⊢ with h2 h3 h4 h5 h6
          · rfl

/-- C2. On every reachable book, a call of `add`, `cancel` or `replace` that
returns `false` leaves the book as it was: both ladders, the id index and the
trade journal are unchanged.  This covers the FOK path of `add`, whose flag is
computed after the matcher ran. -/
theorem C2_atomic_rejection (b : OrderBook) (_hr : Reachable b) (op : Op)
    (h : (apply_op b op).1 = false) : (apply_op b op).2 = b := by
  cases op with
  | add o => exact add_reject b o h
  | cancel id ts => exact cancel_reject b id ts h
  | replace id new_px new_qty ts => exact replace_reject b id new_px new_qty ts h

/-- Instance of C2: a FOK buy of 15 at 10100 against a single ask of 10 is
rejected and the book is unchanged. -/
theorem C2_atomic_rejection_witness :
    (apply_op book_one_ask (Op.add order_fok_short)).2 = book_one_ask :=
  C2_atomic_rejection book_one_ask book_one_ask_reachable
    (Op.add order_fok_short) (by rfl)


/-! ## C3: price-time priority -/

theorem fills_prefix (taker : Order) (buy : Bool) (new : List Trade) :
    ∀ (F : List (Int × QueueEntry)) (q : Int), Fills taker buy F q new →
      new.length ≤ F.length ∧
      new.map (fun t => t.maker_id) = (F.take new.length).map (fun p => p.2.id) ∧
      new.dropLast.map (fun t => t.qty) = (F.take (new.length - 1)).map (fun p => p.2.qty) := by
  induction new with
  | nil => intro F q _; simp
  | cons t ts ih =>
    intro F q h
    cases F with
    | nil => simp [Fills] at h
    | cons p F' =>
      obtain ⟨k, e⟩ := p
      simp only [Fills] at h
      obtain ⟨ht, _, hw, hrest⟩ := h
      obtain ⟨h1, h2, h3⟩ := ih F' _ hrest
      refine ⟨by simp; omega, ?_, ?_⟩
      · simp [List.take, h2, ht]
      · cases ts with
        | nil => simp
        | cons t' ts' =>
          have he : e.qty ≤ q := by
            rcases hw with hw | hw
            · simp at hw
            · exact hw
          simp only [List.length_cons, Nat.add_sub_cancel] at h3 ⊢
          simp only [List.dropLast_cons₂, List.map_cons, List.take_succ_cons, h3, ht,
            min_eq_right he]

theorem add_fills (b : OrderBook) (o : Order) :
    ∃ new, (add b o).2.trades_ = b.trades_ ++ new ∧
      Fills o o.side.is_buy (entries (b.ladder o.side.flip)) o.qty new := by
  rcases add_trades b o with h | h
  · exact ⟨[], by simp [h], by simp [Fills]⟩
  · rw [h, match_incoming_trades]
    exact sweep_fills o.side.is_buy o (b.ladder o.side.flip) o b.id_index_ b.trades_ false rfl rfl

/-- C3. For every reachable book and every `add` call, let `F` be the entries
of the opposite ladder before the call, best price first and oldest first
within a price.  The journal after the call is the old journal followed by
new trades whose maker ids are, in order, the ids of the first entries of `F`
(as many as there are new trades), and every new trade but the last is for the
whole resting quantity of its maker. -/
theorem C3_price_time_priority (b : OrderBook) (_hr : Reachable b) (o : Order) :
    (add b o).2.trades_ = b.trades_ ++ emitted b (add b o).2 ∧
    (emitted b (add b o).2).length ≤ (entries (b.ladder o.side.flip)).length ∧
    (emitted b (add b o).2).map (fun t => t.maker_id) =
      ((entries (b.ladder o.side.flip)).take (emitted b (add b o).2).length).map
        (fun p => p.2.id) ∧
    (emitted b (add b o).2).dropLast.map (fun t => t.qty) =
      ((entries (b.ladder o.side.flip)).take ((emitted b (add b o).2).length - 1)).map
        (fun p => p.2.qty) := by
  obtain ⟨new, h1, h2⟩ := add_fills b o
  rw [emitted_append b _ new h1]
  exact ⟨h1, fills_prefix o o.side.is_buy new _ _ h2⟩

/-- Instance of C3: a buy of 35 at 10150 against asks `1` (30) and `2` (10) at
10100 and `3` (20) at 10150 trades with `1` then `2`, and `1` is filled whole. -/
theorem C3_price_time_priority_witness :
    (add book_three_asks order_buy_35).2.trades_ =
      book_three_asks.trades_ ++
        emitted book_three_asks (add book_three_asks order_buy_35).2 ∧
    (emitted book_three_asks
      (add book_three_asks order_buy_35).2).length ≤
      (entries (book_three_asks.ladder order_buy_35.side.flip)).length ∧
    (emitted book_three_asks
      (add book_three_asks order_buy_35).2).map
        (fun t => t.maker_id) =
      ((entries (book_three_asks.ladder order_buy_35.side.flip)).take
        (emitted book_three_asks
          (add book_three_asks order_buy_35).2).length).map
        (fun p => p.2.id) ∧
    (emitted book_three_asks
      (add book_three_asks order_buy_35).2).dropLast.map
        (fun t => t.qty) =
      ((entries (book_three_asks.ladder order_buy_35.side.flip)).take
        ((emitted book_three_asks
          (add book_three_asks order_buy_35).2).length - 1)).map
        (fun p => p.2.qty) :=
  C3_price_time_priority book_three_asks book_three_asks_reachable
    order_buy_35



/-! ## C4: the contents of a trade record -/

theorem fills_nth (taker : Order) (buy : Bool) (new : List Trade) :
    ∀ (F : List (Int × QueueEntry)) (q : Int) (i : Nat) (t : Trade),
      Fills taker buy F q new → new[i]? = some t →
      ∃ k e, F[i]? = some (k, e) ∧
        t = ⟨taker.id, e.id, k, min (q - traded (new.take i)) e.qty, taker.ts_ns, buy⟩ := by
  induction new with
  | nil => intro F q i t _ h; simp at h
  | cons t0 ts ih =>
    intro F q i t h hi
    cases F with
    | nil => simp [Fills] at h
    | cons p F' =>
      obtain ⟨k, e⟩ := p
      simp only [Fills] at h
      obtain ⟨ht, _, _, hrest⟩ := h
      cases i with
      | zero =>
        simp only [List.getElem?_cons_zero, Option.some.injEq] at hi
        subst hi
        exact ⟨k, e, by simp, by simp [traded, ht]⟩
      | succ j =>
        simp only [List.getElem?_cons_succ] at hi
        obtain ⟨k', e', h1, h2⟩ := ih F' _ j t hrest hi
        refine ⟨k', e', by simpa using h1, ?_⟩
        rw [h2]
        have : q - min q e.qty - traded (ts.take j) = q - traded ((t0 :: ts).take (j + 1)) := by
          simp only [traded, List.take_succ_cons, List.map_cons, List.sum_cons, ht]
          omega
        rw [this]

theorem setLadder_trades (b : OrderBook) (s : Side) (m : Ladder) :
    (b.setLadder s m).trades_ = b.trades_ := by
  cases s <;> rfl

theorem removed_ladder_flip (b : OrderBook) (h : Handle) (id : Nat) (lvl : Level) :
    (removed b h id lvl).ladder h.side.flip = b.ladder h.side.flip := by
  unfold removed; cases h.side <;> rfl

theorem replace_fills (b : OrderBook) (id : Nat) (new_px new_qty ts : Int) (h : Handle)
    (hi : b.id_index_ id = some h) :
    ∃ new, (replace b id new_px new_qty ts).2.trades_ = b.trades_ ++ new ∧
      Fills (reentry h id new_px new_qty ts) h.side.is_buy (entries (b.ladder h.side.flip))
        new_qty new := by
  have hnone : ∀ b' : OrderBook, b'.trades_ = b.trades_ →
      ∃ new, b'.trades_ = b.trades_ ++ new ∧
        Fills (reentry h id new_px new_qty ts) h.side.is_buy (entries (b.ladder h.side.flip))
          new_qty new := by
    intro b' hb'
    exact ⟨[], by simp [hb'], by simp [Fills]⟩
  have hmatch : ∀ lvl, ∃ new,
      (match_incoming (removed b h id lvl) (reentry h id new_px new_qty ts)).2.2.trades_ =
        b.trades_ ++ new ∧
      Fills (reentry h id new_px new_qty ts) h.side.is_buy (entries (b.ladder h.side.flip))
        new_qty new := by
    intro lvl
    rw [match_incoming_trades]
    have := sweep_fills (reentry h id new_px new_qty ts).side.is_buy
      (reentry h id new_px new_qty ts)
      ((removed b h id lvl).ladder (reentry h id new_px new_qty ts).side.flip)
      (reentry h id new_px new_qty ts) (removed b h id lvl).id_index_
      (removed b h id lvl).trades_ false rfl rfl
    have hl : (removed b h id lvl).ladder (reentry h id new_px new_qty ts).side.flip =
        b.ladder h.side.flip := removed_ladder_flip b h id lvl
    rw [hl] at this
    rw [hl]
    exact this
  unfold replace
  split_ifs with h1
  · exact hnone b rfl
  · rw [hi]
    simp only []
    rw [replace_side_eq]
    cases hf : map_find h.px (b.ladder h.side) with
    | none => exact hnone b rfl
    | some lvl =>
      simp only []
      cases hr : find_row id lvl.q with
      | none => exact hnone b rfl
      | some row =>
        simp only []
        split_ifs with h2 h3 h4 h5 h6
        · exact hnone b rfl
        · simp only [rest_order_trades]
          exact hmatch lvl
        · exact hmatch lvl
        · exact hnone b rfl
        · exact hnone _ (setLadder_trades _ _ _)
        · exact hnone _ (setLadder_trades _ _ _)

theorem cancel_trades (b : OrderBook) (id : Nat) (ts : Int) :
    (cancel b id ts).2.trades_ = b.trades_ := by
  rw [cancel_eq]
  cases hi : b.id_index_ id with
  | none => rfl
  | some h =>
    simp only []
    cases hf : map_find h.px (b.ladder h.side) with
    | none => rfl
    | some lvl =>
      simp only []
      cases hr : find_row id lvl.q with
      | none => rfl
      | some row => rfl

theorem op_fills (b : OrderBook) (op : Op) (taker : Order) (ht : taker_of b op = some taker) :
    ∃ new, (apply_op b op).2.trades_ = b.trades_ ++ new ∧
      Fills taker taker.side.is_buy (entries (b.ladder taker.side.flip)) taker.qty new := by
  cases op with
  | add o =>
    simp only [taker_of, Option.some.injEq] at ht
    subst ht
    exact add_fills b o
  | cancel id ts => simp [taker_of] at ht
  | replace id new_px new_qty ts =>
    simp only [taker_of, Option.map_eq_some'] at ht
    obtain ⟨h, hi, hk⟩ := ht
    subst hk
    exact replace_fills b id new_px new_qty ts h hi

theorem map_find_of_mem {s : Side} {m : Ladder} {k : Int} {lvl : Level} (hs : Sorted s m)
    (h : (k, lvl) ∈ m) : map_find k m = some lvl := by
  induction m with
  | nil => simp at h
  | cons p rest ih =>
    obtain ⟨k', v⟩ := p
    have hs' : (∀ a ∈ keys rest, side_lt s k' a = true) ∧ Sorted s rest := by
      simpa [Sorted, keys] using hs
    simp only [List.mem_cons, Prod.mk.injEq] at h
    by_cases hk : k = k'
    · subst hk
      rcases h with h | h
      · simp [map_find, h.2]
      · exfalso
        have hk : k ∈ keys rest := by
          simp only [keys, List.mem_map]; exact ⟨(k, lvl), h, rfl⟩
        have := hs'.1 k hk
        rw [side_lt_irrefl] at this
        exact Bool.noConfusion this
    · rcases h with h | h
      · exact absurd h.1 hk
      · simp only [map_find, hk, if_false]
        exact ih hs'.2 h

/-- C4. On a reachable book, take a call that hands an order `taker` to the
matcher (`add` of that order, or a `replace` that re-enters a fresh order).
The `i`-th trade the call appends to the journal is against the `i`-th
resting entry of the opposite ladder before the call (best price first, oldest
first): its maker id is that entry's id, its price is the price of the level
the entry rested in, its quantity is the smaller of what the taker had left
(its quantity less the earlier trades of the call) and the entry's resting
quantity, and its taker id, timestamp and buy flag are those of the taker. -/
theorem C4_trade_record (b : OrderBook) (hr : Reachable b) (op : Op) (taker : Order)
    (htk : taker_of b op = some taker) (i : Nat) (t : Trade)
    (hi : (emitted b (apply_op b op).2)[i]? = some t) :
    ∃ lvl e, map_find t.px (b.ladder taker.side.flip) = some lvl ∧ lvl.px = t.px ∧ e ∈ lvl.q ∧
      (entries (b.ladder taker.side.flip))[i]? = some (t.px, e) ∧
      t.maker_id = e.id ∧
      t.qty = min (taker.qty - traded ((emitted b (apply_op b op).2).take i)) e.qty ∧
      t.taker_id = taker.id ∧ t.ts_ns = taker.ts_ns ∧
      (t.taker_is_buy = true ↔ taker.side = Side.Buy) := by
  have hb := reachable_inv hr
  obtain ⟨new, h1, h2⟩ := op_fills b op taker htk
  rw [emitted_append b _ new h1] at hi ⊢
  obtain ⟨k, e, h3, h4⟩ := fills_nth taker taker.side.is_buy new _ _ i t h2 hi
  have hmem : (k, e) ∈ entries (b.ladder taker.side.flip) := List.getElem?_mem h3
  obtain ⟨lvl, hl1, hl2⟩ := mem_entries.1 hmem
  have hpx : t.px = k := by rw [h4]
  rw [hpx]
  refine ⟨lvl, e, map_find_of_mem (hb.sorted _) hl1, hb.key_px _ _ hl1, hl2, h3, ?_, ?_, ?_, ?_, ?_⟩
  · rw [h4]
  · rw [h4]
  · rw [h4]
  · rw [h4]
  · rw [h4]; cases taker.side <;> simp [Side.is_buy]

/-- Instance of C4: the second trade of a buy of 35 at 10150 on the
three-ask book is 5 units against ask `2`, at its level's price 10100. -/
theorem C4_trade_record_witness :
    ∃ lvl e, map_find trade_9_2.px (book_three_asks.ladder order_buy_35.side.flip) = some lvl ∧
      lvl.px = trade_9_2.px ∧ e ∈ lvl.q ∧
      (entries (book_three_asks.ladder order_buy_35.side.flip))[1]? = some (trade_9_2.px, e) ∧
      trade_9_2.maker_id = e.id ∧
      trade_9_2.qty = min (order_buy_35.qty -
        traded ((emitted book_three_asks
          (apply_op book_three_asks (Op.add order_buy_35)).2).take 1)) e.qty ∧
      trade_9_2.taker_id = order_buy_35.id ∧ trade_9_2.ts_ns = order_buy_35.ts_ns ∧
      (trade_9_2.taker_is_buy = true ↔ order_buy_35.side = Side.Buy) :=
  C4_trade_record book_three_asks book_three_asks_reachable (Op.add order_buy_35) order_buy_35
    rfl 1 trade_9_2 (by rfl)


/-! ## C5: limit price protection -/

theorem add_px (b : OrderBook) (o : Order) :
    ∀ t ∈ emitted b (add b o).2, ¬ (o.type ≠ OrdType.Market ∧ past_limit o.side.is_buy o.px t.px = true) := by
  rcases add_trades b o with h | h
  · rw [emitted_same b _ h]; simp
  · obtain ⟨new, h1, h2⟩ := sweep_px o.side.is_buy (b.ladder o.side.flip) o b.id_index_
      b.trades_ false
    rw [← match_incoming_trades, ← h] at h1
    rw [emitted_append b _ new h1]
    exact h2

theorem market_trades_anywhere (s : Side) (px k : Int) :
    ∃ t ∈ emitted (book_single s.flip k)
        (add (book_single s.flip k) ⟨1, s, OrdType.Market, TIF.IOC, px, 1, 0, false⟩).2,
      t.px = k := by
  refine ⟨⟨1, 0, k, 1, 0, s.is_buy⟩, ?_, rfl⟩
  cases s <;>
    simp [emitted, add, book_single, OrderBook.init, OrderBook.setLadder, Side.flip,
      match_incoming, match_loop, fill_queue, IdIndex.erase, Side.is_buy]

/-- C5. On every book, each trade appended by `add` of a Limit order prints at
a price no higher than the order's price for a Buy and no lower for a Sell.  A
Market order has no such bound: whatever its `px` field and whatever the
resting price `k`, there is a book on which a Market order with that `px`
trades at `k`. -/
theorem C5_limit_price_protection (b : OrderBook) (o : Order) (hl : o.type = OrdType.Limit) :
    (∀ t ∈ emitted b (add b o).2,
      (o.side = Side.Buy → t.px ≤ o.px) ∧ (o.side = Side.Sell → o.px ≤ t.px)) ∧
    (∀ px k : Int, ∃ bm m, m.type = OrdType.Market ∧ m.side = o.side ∧ m.px = px ∧
      ∃ t ∈ emitted bm (add bm m).2, t.px = k) := by
  constructor
  · intro t ht
    have h := add_px b o t ht
    have hg : ¬ past_limit o.side.is_buy o.px t.px = true := by
      intro hg; exact h ⟨by rw [hl]; decide, hg⟩
    constructor
    · intro hs
      rw [hs] at hg
      simp [past_limit, Side.is_buy] at hg
      exact hg
    · intro hs
      rw [hs] at hg
      simp [past_limit, Side.is_buy] at hg
      exact hg
  · intro px k
    exact ⟨book_single o.side.flip k, ⟨1, o.side, OrdType.Market, TIF.IOC, px, 1, 0, false⟩,
      rfl, rfl, rfl, market_trades_anywhere o.side px k⟩

/-- Instance of C5: the buy of 35 at 10150 on the three-ask book. -/
theorem C5_limit_price_protection_witness :
    (∀ t ∈ emitted book_three_asks (add book_three_asks order_buy_35).2,
      (order_buy_35.side = Side.Buy → t.px ≤ order_buy_35.px) ∧
      (order_buy_35.side = Side.Sell → order_buy_35.px ≤ t.px)) ∧
    (∀ px k : Int, ∃ bm m, m.type = OrdType.Market ∧ m.side = order_buy_35.side ∧ m.px = px ∧
      ∃ t ∈ emitted bm (add bm m).2, t.px = k) :=
  C5_limit_price_protection book_three_asks order_buy_35 rfl


/-! ## C6: the id index and the resting entries agree -/

theorem keyed_mem_entry {m : Ladder} {px : Int} {id : Nat} (h : (px, id) ∈ keyed m) :
    ∃ e, (px, e) ∈ entries m ∧ e.id = id := by
  simp only [keyed, List.mem_map, Prod.mk.injEq] at h
  obtain ⟨p, hp, h1, h2⟩ := h
  exact ⟨p.2, by rw [← h1]; exact hp, h2⟩

/-- C6. On every reachable book, an id is a key of the id index exactly when
one and only one queue entry of the whole book (both ladders, all levels)
carries it, and then an entry with that id lies in the level found under the
handle's price on the handle's side, a level whose own price is that price. -/
theorem C6_index_consistency (b : OrderBook) (hr : Reachable b) (id : Nat) :
    ((b.id_index_ id).isSome = true ↔
      (ids b.bid_levels_ ++ ids b.ask_levels_).count id = 1) ∧
    (∀ h, b.id_index_ id = some h →
      ∃ lvl e, map_find h.px (b.ladder h.side) = some lvl ∧ lvl.px = h.px ∧
        e ∈ lvl.q ∧ e.id = id) := by
  have hb := reachable_inv hr
  constructor
  · constructor
    · intro h
      cases hi : b.id_index_ id with
      | none => simp [hi] at h
      | some hd =>
        have h1 := mem_ids_of_keyed ((hb.index id hd).1 hi)
        apply List.count_eq_one_of_mem hb.ids_nodup
        cases hs : hd.side
        · rw [hs] at h1; simp [OrderBook.ladder] at h1; simp [h1]
        · rw [hs] at h1; simp [OrderBook.ladder] at h1; simp [h1]
    · intro h
      have hm : id ∈ ids b.bid_levels_ ++ ids b.ask_levels_ := by
        apply List.count_pos_iff.1
        omega
      rcases List.mem_append.1 hm with h1 | h1
      · obtain ⟨px, hpx⟩ := keyed_of_mem_ids h1
        have := (hb.index id ⟨Side.Buy, px⟩).2 hpx
        simp [this]
      · obtain ⟨px, hpx⟩ := keyed_of_mem_ids h1
        have := (hb.index id ⟨Side.Sell, px⟩).2 hpx
        simp [this]
  · intro h hi
    obtain ⟨e, he, hid⟩ := keyed_mem_entry ((hb.index id h).1 hi)
    obtain ⟨lvl, hl1, hl2⟩ := mem_entries.1 he
    exact ⟨lvl, e, map_find_of_mem (hb.sorted h.side) hl1, hb.key_px h.side _ hl1, hl2, hid⟩

/-- Instance of C6 on the two-sided example book, for the resting bid `1`. -/
theorem C6_index_consistency_witness :
    ((book_two_sided.id_index_ 1).isSome = true ↔
      (ids book_two_sided.bid_levels_ ++ ids book_two_sided.ask_levels_).count 1 = 1) ∧
    (∀ h, book_two_sided.id_index_ 1 = some h →
      ∃ lvl e, map_find h.px (book_two_sided.ladder h.side) = some lvl ∧ lvl.px = h.px ∧
        e ∈ lvl.q ∧ e.id = 1) :=
  C6_index_consistency book_two_sided book_two_sided_reachable 1


/-! ## C7: when `add` rejects -/

theorem would_cross_iff (b : OrderBook) (o : Order) (hl : o.type ≠ OrdType.Market) :
    would_cross_limit b o = true ↔ crosses b o := by
  unfold would_cross_limit crosses
  simp only [hl, if_false]
  cases hs : o.side
  · cases ha : b.ask_levels_ with
    | nil => simp [best, keys]
    | cons p rest => obtain ⟨k, lvl⟩ := p; simp [best, keys]
  · cases ha : b.bid_levels_ with
    | nil => simp [best, keys]
    | cons p rest => obtain ⟨k, lvl⟩ := p; simp [best, keys]

theorem type_cases (t : OrdType) : t ≠ OrdType.Market ↔ t = OrdType.Limit := by
  cases t <;> simp

theorem bad_px_iff (px tick : Int) (ht : 0 < tick) :
    (px ≤ 0 ∨ Int.tmod px tick ≠ 0) ↔ (px ≤ 0 ∨ px % tick ≠ 0) := by
  by_cases hp : px ≤ 0
  · simp [hp]
  · rw [Int.tmod_eq_emod (by omega) (by omega)]

/-- C7. On every reachable book, `add` returns `false` exactly when the
quantity is not positive, or the id is already in the id index, or the order
is a Limit order whose price is not positive or not a multiple of the tick, or
the order is PostOnly and is a Market order or would cross, or the order is
FOK and the feasibility walk fails.  In every other case it returns `true`. -/
theorem C7_add_rejects_iff (b : OrderBook) (hr : Reachable b) (o : Order) :
    (add b o).1 = false ↔
      (o.qty ≤ 0 ∨ (b.id_index_ o.id).isSome = true ∨
       (o.type = OrdType.Limit ∧ (o.px ≤ 0 ∨ o.px % b.tick_ ≠ 0)) ∨
       (o.tif = TIF.PostOnly ∧ (o.type = OrdType.Market ∨ crosses b o)) ∨
       (o.tif = TIF.FOK ∧ can_fully_fill b o = false)) := by
  have hb := reachable_inv hr
  have hpx := bad_px_iff o.px b.tick_ hb.tick_pos
  rw [add_eq]
  by_cases h1 : o.qty ≤ 0
  · simp [h1]
  by_cases h2 : (b.id_index_ o.id).isSome = true
  · simp [h1, h2]
  by_cases h3 : o.type ≠ OrdType.Market ∧ (o.px ≤ 0 ∨ Int.tmod o.px b.tick_ ≠ 0)
  · have : o.type = OrdType.Limit ∧ (o.px ≤ 0 ∨ o.px % b.tick_ ≠ 0) :=
      ⟨(type_cases _).1 h3.1, hpx.1 h3.2⟩
    simp only [h1, h2, if_false, if_pos h3]
    exact ⟨fun _ => Or.inr (Or.inr (Or.inl this)), fun _ => rfl⟩
  have h3' : ¬ (o.type = OrdType.Limit ∧ (o.px ≤ 0 ∨ o.px % b.tick_ ≠ 0)) := by
    rintro ⟨ha, hc⟩; exact h3 ⟨(type_cases _).2 ha, hpx.2 hc⟩
  simp only [h1, h2, if_false, if_neg h3, h3', false_or]
  by_cases h4 : o.tif = TIF.PostOnly
  · simp only [h4, if_true, true_and]
    by_cases hm : o.type = OrdType.Market
    · simp [hm]
    · have := would_cross_iff b o hm
      by_cases hc : would_cross_limit b o = true
      · simp [hm, hc, this.1 hc]
      · have hnc : ¬ crosses b o := fun h => hc (this.2 h)
        simp [hm, hc, hnc]
  simp only [h4, if_false, false_and, false_or]
  by_cases h5 : o.tif = TIF.FOK
  · simp only [h5, if_true, true_and]
    by_cases hf : can_fully_fill b o = false
    · simp [hf]
    · have hf' : can_fully_fill b o = true := by
        cases hc : can_fully_fill b o with
        | true => rfl
        | false => exact absurd hc hf
      have := fok_fills b o (by omega) hf'
      simp [hf', this]
  simp only [h5, if_false, false_and, or_false]
  by_cases h6 : o.type = OrdType.Market
  · simp [h6]
  by_cases h7 : o.tif = TIF.IOC
  · simp [h6, h7]
  by_cases h8 : 0 < (match_incoming b o).2.1.qty
  · simp [h6, h7, h8]
  · simp [h6, h7, h8]

/-- Instance of C7: the crossing PostOnly buy at 10100 against the ask at
10100 is rejected. -/
theorem C7_add_rejects_iff_witness :
    (add book_one_ask order_post_cross).1 = false ↔
      (order_post_cross.qty ≤ 0 ∨
       (book_one_ask.id_index_ order_post_cross.id).isSome = true ∨
       (order_post_cross.type = OrdType.Limit ∧
         (order_post_cross.px ≤ 0 ∨
          order_post_cross.px % book_one_ask.tick_ ≠ 0)) ∨
       (order_post_cross.tif = TIF.PostOnly ∧
         (order_post_cross.type = OrdType.Market ∨
          crosses book_one_ask order_post_cross)) ∨
       (order_post_cross.tif = TIF.FOK ∧
         can_fully_fill book_one_ask order_post_cross = false)) :=
  C7_add_rejects_iff book_one_ask book_one_ask_reachable
    order_post_cross


/-! ## C8: a FOK order that is accepted is filled completely -/

theorem traded_append (l1 l2 : List Trade) : traded (l1 ++ l2) = traded l1 + traded l2 := by
  simp [traded]

/-- What the matcher appended sums to what the taker lost. -/
theorem match_incoming_traded (b : OrderBook) (inn : Order) :
    traded (emitted b (match_incoming b inn).2.2) = inn.qty - (match_incoming b inn).2.1.qty := by
  obtain ⟨new, h1, _⟩ := sweep_fills inn.side.is_buy inn (b.ladder inn.side.flip) inn
    b.id_index_ b.trades_ false rfl rfl
  have h2 := sweep_traded inn.side.is_buy (b.ladder inn.side.flip) inn b.id_index_ b.trades_ false
  have h3 : (match_incoming b inn).2.2.trades_ = b.trades_ ++ new := by
    rw [match_incoming_trades]; exact h1
  rw [emitted_append b _ new h3]
  have h4 : (match_incoming b inn).2.1.qty =
      (sweep inn.side.is_buy (b.ladder inn.side.flip) inn b.id_index_ b.trades_ false).inn.qty := by
    rw [match_incoming_eq]
  rw [h4]
  rw [h1, traded_append] at h2
  omega

theorem add_fok (b : OrderBook) (o : Order) (hf : o.tif = TIF.FOK) (ha : (add b o).1 = true) :
    (add b o).2 = (match_incoming b o).2.2 ∧ (match_incoming b o).2.1.qty = 0 ∧
      b.id_index_ o.id = none := by
  rw [add_eq] at ha ⊢
  have hp : ¬ o.tif = TIF.PostOnly := by rw [hf]; decide
  split_ifs at ha ⊢ with h1 h2 h3 h4
  exact ⟨rfl, by simpa using ha, add_index_none h2⟩

/-- C8. On every reachable book, when `add` of a FOK order returns `true`, the
quantities of the trades appended by the call sum to the order's quantity and
no entry with the order's id rests in either ladder afterwards. -/
theorem C8_fok_fills_completely (b : OrderBook) (hr : Reachable b) (o : Order)
    (hf : o.tif = TIF.FOK) (ha : (add b o).1 = true) :
    traded (emitted b (add b o).2) = o.qty ∧
    o.id ∉ ids (add b o).2.bid_levels_ ∧ o.id ∉ ids (add b o).2.ask_levels_ := by
  obtain ⟨h1, h2, h3⟩ := add_fok b o hf ha
  have hinv := reachable_inv (Reachable.add b o hr)
  have hidx : (add b o).2.id_index_ o.id = none := by
    rw [h1]; exact match_incoming_idx_none b o o.id h3
  refine ⟨?_, hinv.not_resting o.id hidx Side.Buy, hinv.not_resting o.id hidx Side.Sell⟩
  rw [h1, match_incoming_traded, h2]
  omega

/-- Instance of C8: a FOK buy of 5 at 10100 against the ask of 10 at 10100. -/
theorem C8_fok_fills_completely_witness :
    traded (emitted book_one_ask (add book_one_ask order_fok_fit).2) = order_fok_fit.qty ∧
    order_fok_fit.id ∉ ids (add book_one_ask order_fok_fit).2.bid_levels_ ∧
    order_fok_fit.id ∉ ids (add book_one_ask order_fok_fit).2.ask_levels_ :=
  C8_fok_fills_completely book_one_ask book_one_ask_reachable order_fok_fit rfl (by rfl)



/-! ## C9: an accepted PostOnly order rests without trading -/

theorem map_find_none {k : Int} {m : Ladder} (h : k ∉ keys m) : map_find k m = none := by
  induction m with
  | nil => rfl
  | cons p rest ih =>
    obtain ⟨k', v⟩ := p
    simp only [keys, List.map_cons, List.mem_cons, not_or] at h
    simp only [map_find, h.1, if_false]
    exact ih h.2

/-- Lookup in the own-side ladder after the resting block: the level at `px`
is the old level with the entry appended (a new level if there was none) and
every other level is as before. -/
theorem rest_ladder_find (s : Side) (px : Int) (id : Nat) (qty ts : Int) (m : Ladder)
    (hs : Sorted s m) (k : Int) :
    map_find k (rest_ladder (side_lt s) px id qty ts m) =
      if k = px then
        some (match map_find px m with
          | some l => l.enqueue id qty ts
          | none => ⟨px, [⟨id, qty, ts⟩]⟩)
      else map_find k m := by
  induction m with
  | nil =>
    rw [rest_ladder_nil]
    by_cases hk : k = px
    · simp [map_find, hk]
    · simp [map_find, hk]
  | cons p rest ih =>
    obtain ⟨k', v⟩ := p
    have hs' : (∀ a ∈ keys rest, side_lt s k' a = true) ∧ Sorted s rest := by
      simpa [Sorted, keys] using hs
    by_cases h1 : px = k'
    · subst h1
      rw [rest_ladder_hit]
      by_cases hk : k = px
      · simp [map_find, hk]
      · simp [map_find, hk]
    · by_cases h2 : side_lt s px k' = true
      · rw [rest_ladder_before _ px id qty ts k' v rest h1 h2]
        have hnone : map_find px ((k', v) :: rest) = none := by
          apply map_find_none
          simp only [keys, List.map_cons, List.mem_cons, not_or]
          refine ⟨h1, ?_⟩
          intro hm
          exact side_lt_ne s (side_lt_trans s h2 (hs'.1 px hm)) rfl
        by_cases hk : k = px
        · subst hk
          rw [hnone]
          simp [map_find]
        · have : map_find k ((px, (⟨px, [⟨id, qty, ts⟩]⟩ : Level)) :: (k', v) :: rest) =
              map_find k ((k', v) :: rest) := by
            conv_lhs => rw [map_find]
            simp [hk]
          rw [this]
          simp [hk]
      · rw [rest_ladder_after _ px id qty ts k' v rest h1 h2]
        by_cases hk : k = k'
        · subst hk
          have : ¬ k = px := fun h => h1 h.symm
          simp [map_find, this]
        · simp only [map_find, hk, if_false]
          rw [ih hs'.2]
          simp [h1]

theorem rest_order_ladder_own (b : OrderBook) (s : Side) (px : Int) (id : Nat) (qty ts : Int) :
    (rest_order b s px id qty ts).ladder s = rest_ladder (side_lt s) px id qty ts (b.ladder s) := by
  cases s <;> rfl

theorem rest_order_ladder_flip (b : OrderBook) (s : Side) (px : Int) (id : Nat) (qty ts : Int) :
    (rest_order b s px id qty ts).ladder s.flip = b.ladder s.flip := by
  cases s <;> rfl

theorem rest_order_index (b : OrderBook) (s : Side) (px : Int) (id : Nat) (qty ts : Int) :
    (rest_order b s px id qty ts).id_index_ = b.id_index_.assign id ⟨s, px⟩ := by
  cases s <;> rfl

/-- The level stored under a price carries that price. -/
theorem level_queue_px (b : OrderBook) (hb : Inv b) (s : Side) (px : Int) (l : Level)
    (h : map_find px (b.ladder s) = some l) : l.px = px :=
  hb.key_px s (px, l) (map_find_mem h)

/-- C9. On every reachable book, when `add` of a PostOnly order returns
`true`: the trade journal and the opposite ladder are unchanged; on the own
side the level at the order's price is the old queue of that price (empty if
there was no such level) followed by the new entry `{id, qty, ts_ns}`, every
other level is as before and the ladder is still sorted; and the id index is
the old one with the order's id mapped to `{side, px}`. -/
theorem C9_post_only_rests (b : OrderBook) (hr : Reachable b) (o : Order)
    (hp : o.tif = TIF.PostOnly) (ha : (add b o).1 = true) :
    (add b o).2.trades_ = b.trades_ ∧
    (add b o).2.ladder o.side.flip = b.ladder o.side.flip ∧
    (∀ k, map_find k ((add b o).2.ladder o.side) =
      if k = o.px then
        some ⟨o.px, ((map_find o.px (b.ladder o.side)).map Level.q).getD [] ++
          [⟨o.id, o.qty, o.ts_ns⟩]⟩
      else map_find k (b.ladder o.side)) ∧
    Sorted o.side ((add b o).2.ladder o.side) ∧
    (add b o).2.id_index_ o.id = some ⟨o.side, o.px⟩ ∧
    (∀ i, i ≠ o.id → (add b o).2.id_index_ i = b.id_index_ i) := by
  have hb := reachable_inv hr
  have hb' := reachable_inv (Reachable.add b o hr)
  have hsorted := hb'.sorted o.side
  rw [add_eq] at ha hsorted ⊢
  split_ifs at ha hsorted ⊢ with h1 h2 h3 h4
  refine ⟨rest_order_trades _ _ _ _ _ _, rest_order_ladder_flip _ _ _ _ _ _, ?_, hsorted, ?_, ?_⟩
  · intro k
    simp only []
    rw [rest_order_ladder_own, rest_ladder_find o.side o.px o.id o.qty o.ts_ns _ (hb.sorted o.side)]
    by_cases hk : k = o.px
    · simp only [hk, if_true]
      cases hf : map_find o.px (b.ladder o.side) with
      | none => simp
      | some l =>
        have := level_queue_px b hb o.side o.px l hf
        simp [Level.enqueue, this]
    · simp only [hk, if_false]
  · simp only []
    rw [rest_order_index]
    simp [IdIndex.assign]
  · intro i hi
    simp only []
    rw [rest_order_index]
    simp [IdIndex.assign, hi]

/-- Instance of C9: the PostOnly buy of 7 at 10050 rests below the ask at 10100. -/
theorem C9_post_only_rests_witness :
    (add book_one_ask order_post_rest).2.trades_ = book_one_ask.trades_ ∧
    (add book_one_ask order_post_rest).2.ladder order_post_rest.side.flip =
      book_one_ask.ladder order_post_rest.side.flip ∧
    (∀ k, map_find k ((add book_one_ask order_post_rest).2.ladder order_post_rest.side) =
      if k = order_post_rest.px then
        some ⟨order_post_rest.px,
          ((map_find order_post_rest.px (book_one_ask.ladder order_post_rest.side)).map
            Level.q).getD [] ++
          [⟨order_post_rest.id, order_post_rest.qty, order_post_rest.ts_ns⟩]⟩
      else map_find k (book_one_ask.ladder order_post_rest.side)) ∧
    Sorted order_post_rest.side ((add book_one_ask order_post_rest).2.ladder order_post_rest.side) ∧
    (add book_one_ask order_post_rest).2.id_index_ order_post_rest.id =
      some ⟨order_post_rest.side, order_post_rest.px⟩ ∧
    (∀ i, i ≠ order_post_rest.id →
      (add book_one_ask order_post_rest).2.id_index_ i = book_one_ask.id_index_ i) :=
  C9_post_only_rests book_one_ask book_one_ask_reachable order_post_rest rfl (by rfl)


/-! ## C10: an IOC limit order never rests -/

/-- C10. On every book, when `add` of a Limit order with `tif = IOC` returns
`true`, the ladder of the order's own side is unchanged and the order's id is
not in the id index afterwards, whatever quantity was left unmatched. -/
theorem C10_ioc_never_rests (b : OrderBook) (o : Order) (hl : o.type = OrdType.Limit)
    (hi : o.tif = TIF.IOC) (ha : (add b o).1 = true) :
    (add b o).2.ladder o.side = b.ladder o.side ∧ (add b o).2.id_index_ o.id = none := by
  rw [add_eq] at ha ⊢
  have hp : ¬ o.tif = TIF.PostOnly := by rw [hi]; decide
  have hf : ¬ o.tif = TIF.FOK := by rw [hi]; decide
  have hm : ¬ o.type = OrdType.Market := by rw [hl]; decide
  split_ifs at ha ⊢ with h1 h2 h3
  exact ⟨match_incoming_own b o, match_incoming_idx_none b o o.id (add_index_none h2)⟩

/-- Instance of C10: an IOC buy of 25 at 10100 against the ask of 10 leaves 15
unmatched and nothing on the bid side. -/
theorem C10_ioc_never_rests_witness :
    (add book_one_ask order_ioc_25).2.ladder order_ioc_25.side =
      book_one_ask.ladder order_ioc_25.side ∧
    (add book_one_ask order_ioc_25).2.id_index_ order_ioc_25.id = none :=
  C10_ioc_never_rests book_one_ask order_ioc_25 rfl rfl (by rfl)


/-! ## C11: a Market order never rests -/

/-- On a book that satisfies the invariant, an id that rests nowhere is not in
the index. -/
theorem Inv.not_indexed {b : OrderBook} (hb : Inv b) (id : Nat)
    (h1 : id ∉ ids b.bid_levels_) (h2 : id ∉ ids b.ask_levels_) : b.id_index_ id = none := by
  cases hi : b.id_index_ id with
  | none => rfl
  | some h =>
    exfalso
    have hm := mem_ids_of_keyed ((hb.index id h).1 hi)
    cases hs : h.side
    · rw [hs] at hm; exact h1 hm
    · rw [hs] at hm; exact h2 hm

/-- C11. On every book, for every Market order (any TIF, any `px`) whose id is
not in the id index (on a reachable book: whose id rests in neither ladder),
after `add` the ladder of the order's own side is unchanged and the order's id
is not in the id index, whether or not the opposite side was exhausted. -/
theorem C11_market_never_rests (b : OrderBook) (o : Order) (hm : o.type = OrdType.Market)
    (hid : b.id_index_ o.id = none ∨
      (Reachable b ∧ o.id ∉ ids b.bid_levels_ ∧ o.id ∉ ids b.ask_levels_)) :
    (add b o).2.ladder o.side = b.ladder o.side ∧ (add b o).2.id_index_ o.id = none := by
  have hnone : b.id_index_ o.id = none := by
    rcases hid with h | ⟨hr, h1, h2⟩
    · exact h
    · exact (reachable_inv hr).not_indexed o.id h1 h2
  rw [add_eq]
  split_ifs with h1 h2 h3 h4 h5 h6 h7
  · exact ⟨rfl, hnone⟩
  · exact ⟨rfl, hnone⟩
  · exact ⟨rfl, hnone⟩
  · exact ⟨rfl, hnone⟩
  · exact absurd (Or.inl hm) h5
  · exact ⟨rfl, hnone⟩
  · exact ⟨match_incoming_own b o, match_incoming_idx_none b o o.id hnone⟩
  · exact ⟨match_incoming_own b o, match_incoming_idx_none b o o.id hnone⟩

/-- Instance of C11: a Market buy of 25 against the single ask of 10 exhausts
the asks, leaves 15 unfilled and rests nothing. -/
theorem C11_market_never_rests_witness :
    (add book_one_ask order_market_25).2.ladder order_market_25.side =
      book_one_ask.ladder order_market_25.side ∧
    (add book_one_ask order_market_25).2.id_index_ order_market_25.id = none :=
  C11_market_never_rests book_one_ask order_market_25 rfl (Or.inl rfl)



/-! ## C12: the time in force of a Market order -/

theorem fill_queue_qty_nonneg (px : Int) (buy : Bool) (dq : List QueueEntry) :
    ∀ inn idx tr any, 0 ≤ inn.qty → 0 ≤ (fill_queue px buy dq inn idx tr any).inn.qty := by
  apply fill_queue_induct px buy (fun _ inn _ _ _ r => 0 ≤ inn.qty → 0 ≤ r.inn.qty)
  · intro dq inn idx tr any _ h; exact h
  · intro m rest inn idx tr any res _ hm ih _
    exact ih (by simp; omega)
  · intro m rest inn idx tr any _ _ _
    simp

theorem sweep_qty_nonneg (buy : Bool) (opp : Ladder) :
    ∀ inn idx tr any, 0 ≤ inn.qty → 0 ≤ (sweep buy opp inn idx tr any).inn.qty := by
  apply sweep_induct buy (fun _ inn _ _ _ r => 0 ≤ inn.qty → 0 ≤ r.inn.qty)
  · intro opp inn idx tr any _ h; exact h
  · intro k lvl rest inn idx tr any res _ _ ih h
    exact ih (fill_queue_qty_nonneg k buy lvl.q inn idx tr any h)
  · intro k lvl rest inn idx tr any _ _ h
    exact fill_queue_qty_nonneg k buy lvl.q inn idx tr any h

/-- A Market taker is matched until it is filled or the opposite ladder is empty. -/
theorem match_incoming_market (b : OrderBook) (o : Order) (hm : o.type = OrdType.Market)
    (hq : 0 < o.qty) :
    (match_incoming b o).2.2.ladder o.side.flip = [] ∨
      traded (emitted b (match_incoming b o).2.2) = o.qty := by
  have hnn := sweep_qty_nonneg o.side.is_buy (b.ladder o.side.flip) o b.id_index_ b.trades_
    false (le_of_lt hq)
  have hqty : (match_incoming b o).2.1.qty =
      (sweep o.side.is_buy (b.ladder o.side.flip) o b.id_index_ b.trades_ false).inn.qty := by
    rw [match_incoming_eq]
  rcases sweep_exit o.side.is_buy (b.ladder o.side.flip) o b.id_index_ b.trades_ false
    with h | h | ⟨k, lvl, rest, _, h2, _⟩
  · right
    rw [match_incoming_traded, hqty]
    omega
  · left
    rw [match_incoming_opp]; exact h
  · exact absurd hm h2

theorem add_market (b : OrderBook) (o : Order) (hm : o.type = OrdType.Market) (hq : 0 < o.qty)
    (hid : b.id_index_ o.id = none) (hp : o.tif ≠ TIF.PostOnly) (hf : o.tif ≠ TIF.FOK) :
    add b o = (true, (match_incoming b o).2.2) := by
  rw [add_eq]
  rw [if_neg (by omega), if_neg (by simp [hid]), if_neg (by simp [hm]), if_neg hp, if_neg hf,
    if_pos hm]

/-- C12 as stated fails: on the reachable book with one ask of 10, a Market
FOK buy of 15 with a fresh id is rejected and leaves the ask in place, while
the same order with `tif = IOC` is accepted and consumes the ask. -/
theorem C12_market_fok_counterexample :
    Reachable book_one_ask ∧ order_market_fok.type = OrdType.Market ∧ 0 < order_market_fok.qty ∧
    book_one_ask.id_index_ order_market_fok.id = none ∧ order_market_fok.tif ≠ TIF.PostOnly ∧
    (add book_one_ask order_market_fok).1 = false ∧
    (add book_one_ask { order_market_fok with tif := TIF.IOC }).1 = true ∧
    (add book_one_ask order_market_fok).2.ask_levels_ ≠
      (add book_one_ask { order_market_fok with tif := TIF.IOC }).2.ask_levels_ :=
  ⟨book_one_ask_reachable, rfl, by decide, rfl, by decide, by decide, by decide, by decide⟩

/-- C12, amended. On every reachable book, for a Market order with positive
quantity, an id not in the index and a TIF other than PostOnly: if the TIF is
FOK and the feasibility walk fails, `add` returns `false` and leaves the book
unchanged; in every other case (Day, IOC, GTC, or FOK with a successful walk)
`add` returns `true`, leaves the same book as `add` of the same order with
`tif = IOC`, and has matched until the order was filled or the opposite
ladder was empty. -/
theorem C12_market_tif (b : OrderBook) (_hr : Reachable b) (o : Order)
    (hm : o.type = OrdType.Market) (hq : 0 < o.qty) (hid : b.id_index_ o.id = none)
    (hp : o.tif ≠ TIF.PostOnly) :
    if o.tif = TIF.FOK ∧ can_fully_fill b o = false then add b o = (false, b)
    else
      (add b o).1 = true ∧ (add b o).2 = (add b { o with tif := TIF.IOC }).2 ∧
      ((add b o).2.ladder o.side.flip = [] ∨ traded (emitted b (add b o).2) = o.qty) := by
  have hioc : add b { o with tif := TIF.IOC } = (true, (match_incoming b o).2.2) := by
    rw [add_market b { o with tif := TIF.IOC } hm hq hid (by simp) (by simp)]
    rw [(match_incoming_tif b o TIF.IOC).1]
  have hex := match_incoming_market b o hm hq
  by_cases hf : o.tif = TIF.FOK
  · by_cases hc : can_fully_fill b o = false
    · rw [if_pos ⟨hf, hc⟩]
      rw [add_eq]
      rw [if_neg (by omega), if_neg (by simp [hid]), if_neg (by simp [hm]), if_neg hp, if_pos hf,
        if_pos hc]
    · rw [if_neg (fun h => hc h.2)]
      have hc' : can_fully_fill b o = true := by
        cases h : can_fully_fill b o with
        | true => rfl
        | false => exact absurd h hc
      have hfill := fok_fills b o hq hc'
      have hadd : add b o = (true, (match_incoming b o).2.2) := by
        rw [add_eq]
        rw [if_neg (by omega), if_neg (by simp [hid]), if_neg (by simp [hm]), if_neg hp,
          if_pos hf, if_neg hc, hfill]
        rfl
      rw [hadd, hioc]
      exact ⟨rfl, rfl, hex⟩
  · rw [if_neg (fun h => hf h.1)]
    rw [add_market b o hm hq hid hp hf, hioc]
    exact ⟨rfl, rfl, hex⟩

/-- Instance of C12 (amended): a Market Day buy of 15 against the single ask
of 10 behaves as the IOC order does. -/
theorem C12_market_tif_witness :
    if order_market_day.tif = TIF.FOK ∧ can_fully_fill book_one_ask order_market_day = false then
      add book_one_ask order_market_day = (false, book_one_ask)
    else
      (add book_one_ask order_market_day).1 = true ∧
      (add book_one_ask order_market_day).2 =
        (add book_one_ask { order_market_day with tif := TIF.IOC }).2 ∧
      ((add book_one_ask order_market_day).2.ladder order_market_day.side.flip = [] ∨
        traded (emitted book_one_ask (add book_one_ask order_market_day).2) =
          order_market_day.qty) :=
  C12_market_tif book_one_ask book_one_ask_reachable order_market_day rfl (by decide) rfl
    (by decide)


/-! ## C13: the residual of a Day or GTC limit order rests at the tail -/

theorem add_limit_day (b : OrderBook) (hb : Inv b) (o : Order) (hl : o.type = OrdType.Limit)
    (ht : o.tif = TIF.Day ∨ o.tif = TIF.GTC) (hq : 0 < o.qty) (hid : b.id_index_ o.id = none)
    (hpx : 0 < o.px) (htick : o.px % b.tick_ = 0) :
    add b o =
      if 0 < (match_incoming b o).2.1.qty then
        (true, rest_order (match_incoming b o).2.2 o.side o.px o.id
          (match_incoming b o).2.1.qty o.ts_ns)
      else (true, (match_incoming b o).2.2) := by
  have htm : Int.tmod o.px b.tick_ = 0 := by
    rw [Int.tmod_eq_emod (by omega) (le_of_lt hb.tick_pos)]; exact htick
  have h3 : ¬ (o.type ≠ OrdType.Market ∧ (o.px ≤ 0 ∨ Int.tmod o.px b.tick_ ≠ 0)) := by
    rintro ⟨_, hc | hc⟩
    · omega
    · exact hc htm
  have h4 : o.tif ≠ TIF.PostOnly := by rcases ht with h | h <;> rw [h] <;> decide
  have h5 : o.tif ≠ TIF.FOK := by rcases ht with h | h <;> rw [h] <;> decide
  have h6 : o.tif ≠ TIF.IOC := by rcases ht with h | h <;> rw [h] <;> decide
  rw [add_eq]
  rw [if_neg (by omega), if_neg (by simp [hid]), if_neg h3, if_neg h4, if_neg h5,
    if_neg (by rw [hl]; decide), if_neg h6]

theorem emitted_rest_order (b b' : OrderBook) (s : Side) (px : Int) (id : Nat) (qty ts : Int) :
    emitted b (rest_order b' s px id qty ts) = emitted b b' := by
  simp [emitted, rest_order_trades]

/-- C13. On every reachable book, for every valid Limit order (positive
quantity, id not in the index, positive price on the tick) with TIF Day or
GTC: `add` returns `true`, and does for GTC what it does for Day.  Let `r` be
the order's quantity less the quantities of the trades the call appended; `r`
is never negative.  If `r > 0`, on the own side the level at the order's price
is the old queue of that price (empty if there was none) followed by
`{id, r, ts_ns}`, every other level is as before, the ladder is still sorted
and the index maps the id to `{side, px}`.  Otherwise (`r = 0`) the own-side
ladder is unchanged and the id is not indexed. -/
theorem C13_day_residual_rests (b : OrderBook) (hr : Reachable b) (o : Order)
    (hl : o.type = OrdType.Limit) (ht : o.tif = TIF.Day ∨ o.tif = TIF.GTC) (hq : 0 < o.qty)
    (hid : b.id_index_ o.id = none) (hpx : 0 < o.px) (htick : o.px % b.tick_ = 0) :
    (add b o).1 = true ∧
    add b o = add b { o with tif := TIF.Day } ∧
    0 ≤ o.qty - traded (emitted b (add b o).2) ∧
    if 0 < o.qty - traded (emitted b (add b o).2) then
      (∀ k, map_find k ((add b o).2.ladder o.side) =
        if k = o.px then
          some ⟨o.px, ((map_find o.px (b.ladder o.side)).map Level.q).getD [] ++
            [⟨o.id, o.qty - traded (emitted b (add b o).2), o.ts_ns⟩]⟩
        else map_find k (b.ladder o.side)) ∧
      Sorted o.side ((add b o).2.ladder o.side) ∧
      (add b o).2.id_index_ o.id = some ⟨o.side, o.px⟩
    else
      (add b o).2.ladder o.side = b.ladder o.side ∧ (add b o).2.id_index_ o.id = none := by
  have hb := reachable_inv hr
  have hb' := reachable_inv (Reachable.add b o hr)
  have hsorted := hb'.sorted o.side
  have hadd := add_limit_day b hb o hl ht hq hid hpx htick
  have hday := add_limit_day b hb { o with tif := TIF.Day } hl (Or.inl rfl) hq hid hpx htick
  have htif := match_incoming_tif b o TIF.Day
  have htr := match_incoming_traded b o
  have hnn : 0 ≤ (match_incoming b o).2.1.qty := by
    rw [match_incoming_eq]
    exact sweep_qty_nonneg _ _ _ _ _ _ (le_of_lt hq)
  have hem : emitted b (add b o).2 = emitted b (match_incoming b o).2.2 := by
    rw [hadd]; split_ifs
    · exact emitted_rest_order _ _ _ _ _ _ _
    · rfl
  have hr' : o.qty - traded (emitted b (add b o).2) = (match_incoming b o).2.1.qty := by
    rw [hem, htr]; omega
  rw [hr']
  refine ⟨?_, ?_, hnn, ?_⟩
  · rw [hadd]; split_ifs <;> rfl
  · rw [hadd, hday, htif.1, htif.2]
  · rw [hadd] at hsorted ⊢
    by_cases hres : 0 < (match_incoming b o).2.1.qty
    · rw [if_pos hres] at hsorted ⊢
      rw [if_pos hres]
      refine ⟨?_, hsorted, ?_⟩
      · intro k
        rw [rest_order_ladder_own, match_incoming_own,
          rest_ladder_find o.side o.px o.id _ o.ts_ns _ (hb.sorted o.side)]
        by_cases hk : k = o.px
        · simp only [hk, if_true]
          cases hf : map_find o.px (b.ladder o.side) with
          | none => simp
          | some l =>
            have := level_queue_px b hb o.side o.px l hf
            simp [Level.enqueue, this]
        · simp only [hk, if_false]
      · rw [rest_order_index]
        simp [IdIndex.assign]
    · rw [if_neg hres, if_neg hres]
      exact ⟨match_incoming_own b o, match_incoming_idx_none b o o.id hid⟩

/-- Instance of C13: a Day buy of 15 at 10100 takes the 10 offered at 10100
and rests 5 at 10100. -/
theorem C13_day_residual_rests_witness :
    (add book_one_ask order_buy_15).1 = true ∧
    add book_one_ask order_buy_15 = add book_one_ask { order_buy_15 with tif := TIF.Day } ∧
    0 ≤ order_buy_15.qty - traded (emitted book_one_ask (add book_one_ask order_buy_15).2) ∧
    if 0 < order_buy_15.qty - traded (emitted book_one_ask (add book_one_ask order_buy_15).2) then
      (∀ k, map_find k ((add book_one_ask order_buy_15).2.ladder order_buy_15.side) =
        if k = order_buy_15.px then
          some ⟨order_buy_15.px,
            ((map_find order_buy_15.px (book_one_ask.ladder order_buy_15.side)).map
              Level.q).getD [] ++
            [⟨order_buy_15.id,
              order_buy_15.qty - traded (emitted book_one_ask (add book_one_ask order_buy_15).2),
              order_buy_15.ts_ns⟩]⟩
        else map_find k (book_one_ask.ladder order_buy_15.side)) ∧
      Sorted order_buy_15.side ((add book_one_ask order_buy_15).2.ladder order_buy_15.side) ∧
      (add book_one_ask order_buy_15).2.id_index_ order_buy_15.id =
        some ⟨order_buy_15.side, order_buy_15.px⟩
    else
      (add book_one_ask order_buy_15).2.ladder order_buy_15.side =
        book_one_ask.ladder order_buy_15.side ∧
      (add book_one_ask order_buy_15).2.id_index_ order_buy_15.id = none :=
  C13_day_residual_rests book_one_ask book_one_ask_reachable order_buy_15 rfl (Or.inl rfl)
    (by decide) rfl (by decide) (by decide)


/-! ### Lookup after erase and write-through; a queue with distinct ids -/

theorem map_find_modify (px : Int) (f : Level → Level) (m : Ladder) (k : Int) :
    map_find k (map_modify px f m) = if k = px then (map_find px m).map f else map_find k m := by
  induction m with
  | nil => simp [map_modify, map_find]
  | cons p rest ih =>
    obtain ⟨k', v⟩ := p
    by_cases h1 : px = k'
    · subst h1
      by_cases hk : k = px
      · simp [map_modify, map_find, hk]
      · simp [map_modify, map_find, hk]
    · by_cases hk : k = k'
      · subst hk
        have : ¬ k = px := fun h => h1 h.symm
        simp [map_modify, map_find, h1, this]
      · simp only [map_modify, h1, if_false, map_find, hk]
        rw [ih]

theorem map_find_erase {s : Side} (px : Int) (m : Ladder) (hs : Sorted s m) (k : Int) :
    map_find k (map_erase px m) = if k = px then none else map_find k m := by
  induction m with
  | nil => simp [map_erase, map_find]
  | cons p rest ih =>
    obtain ⟨k', v⟩ := p
    have hs' : (∀ a ∈ keys rest, side_lt s k' a = true) ∧ Sorted s rest := by
      simpa [Sorted, keys] using hs
    by_cases h1 : px = k'
    · subst h1
      simp only [map_erase, if_true]
      by_cases hk : k = px
      · subst hk
        simp only [if_true]
        apply map_find_none
        intro hm
        exact side_lt_ne s (hs'.1 k hm) rfl
      · simp [map_find, hk]
    · simp only [map_erase, h1, if_false]
      by_cases hk : k = k'
      · subst hk
        have : ¬ k = px := fun h => h1 h.symm
        simp [map_find, this]
      · simp only [map_find, hk, if_false]
        exact ih hs'.2

theorem erase_first_eq_filter (id : Nat) (q : List QueueEntry)
    (hn : (q.map (fun e => e.id)).Nodup) :
    erase_first id q = q.filter (fun e => decide (e.id ≠ id)) := by
  induction q with
  | nil => rfl
  | cons e rest ih =>
    simp only [List.map_cons, List.nodup_cons] at hn
    by_cases he : e.id = id
    · simp only [erase_first, he, if_true]
      have : ∀ x ∈ rest, decide (x.id ≠ id) = true := by
        intro x hx
        have : x.id ≠ e.id := fun h => hn.1 (by rw [← h]; exact List.mem_map_of_mem _ hx)
        simp only [decide_eq_true_eq]
        rw [← he]; exact this
      rw [List.filter_cons_of_neg (by simp [he]), List.filter_eq_self.2 this]
    · simp only [erase_first, he, if_false]
      rw [List.filter_cons_of_pos (by simp [he]), ih hn.2]

theorem shrink_row_eq_map (id : Nat) (n : Int) (q : List QueueEntry)
    (hn : (q.map (fun e => e.id)).Nodup) :
    shrink_row id n q = q.map (fun e => if e.id = id then { e with qty := n } else e) := by
  induction q with
  | nil => rfl
  | cons e rest ih =>
    simp only [List.map_cons, List.nodup_cons] at hn
    by_cases he : e.id = id
    · simp only [shrink_row, he, if_true, List.map_cons]
      have hrest : rest.map (fun x => if x.id = id then { x with qty := n } else x) = rest := by
        calc rest.map (fun x => if x.id = id then { x with qty := n } else x)
            = rest.map (fun x => x) := by
              apply List.map_congr_left
              intro x hx
              have : x.id ≠ id := by
                intro h
                apply hn.1
                rw [he, ← h]
                exact List.mem_map_of_mem _ hx
              simp [this]
          _ = rest := List.map_id' rest
      rw [hrest]
    · simp only [shrink_row, he, if_false, List.map_cons]
      rw [ih hn.2]

/-- On a book that satisfies the invariant, the handle of an indexed id
locates its level and the scan finds its entry. -/
theorem Inv.locate {b : OrderBook} (hb : Inv b) {id : Nat} {h : Handle}
    (hi : b.id_index_ id = some h) :
    ∃ lvl row, map_find h.px (b.ladder h.side) = some lvl ∧ find_row id lvl.q = some row := by
  obtain ⟨e, he, hid⟩ := keyed_mem_entry ((hb.index id h).1 hi)
  obtain ⟨lvl, hl1, hl2⟩ := mem_entries.1 he
  refine ⟨lvl, ?_⟩
  cases hr : find_row id lvl.q with
  | none => exact absurd hid (find_row_none hr e hl2)
  | some row => exact ⟨row, map_find_of_mem (hb.sorted h.side) hl1, rfl⟩

theorem cancel_indexed (b : OrderBook) (id : Nat) (ts : Int) (h : Handle)
    (lvl : Level) (row : QueueEntry) (hi : b.id_index_ id = some h)
    (hf : map_find h.px (b.ladder h.side) = some lvl) (hr : find_row id lvl.q = some row) :
    cancel b id ts = (true, removed b h id lvl) := by
  rw [cancel_eq, hi]
  simp only [hf, hr]

theorem book_replace_reachable : Reachable book_replace :=
  Reachable.add _ _ (Reachable.add _ _ (Reachable.add _ _ (Reachable.init "TEST" 1 (by decide))))

theorem book_two_asks_reachable : Reachable book_two_asks :=
  Reachable.add _ _ (Reachable.add _ _ (Reachable.init "TEST" 1 (by decide)))



/-! ## C14: cancel removes exactly one order -/

theorem Inv.queue_nodup {b : OrderBook} (hb : Inv b) {s : Side} {px : Int} {lvl : Level}
    (hf : map_find px (b.ladder s) = some lvl) : (lvl.q.map (fun e => e.id)).Nodup := by
  have h1 := ids_perm (entries_split hf)
  have h2 : (ids (b.ladder s)).Nodup := (List.nodup_append.1 (hb.nodup_side s)).1
  have h3 := (List.Perm.nodup_iff h1).1 h2
  simp only [List.map_append, List.map_map] at h3
  have h4 := (List.nodup_append.1 h3).1
  simpa [Function.comp] using h4

theorem find_row_of_mem {id : Nat} {q : List QueueEntry} {e : QueueEntry}
    (hn : (q.map (fun x => x.id)).Nodup) (he : e ∈ q) (hid : e.id = id) :
    find_row id q = some e := by
  induction q with
  | nil => simp at he
  | cons x rest ih =>
    simp only [List.map_cons, List.nodup_cons] at hn
    simp only [List.mem_cons] at he
    by_cases hx : x.id = id
    · rcases he with he | he
      · simp [find_row, hx, he]
      · exfalso
        apply hn.1
        rw [hx, ← hid]
        exact List.mem_map_of_mem _ he
    · rcases he with he | he
      · exact absurd (by rw [← he]; exact hid) hx
      · simp only [find_row, hx, if_false]
        exact ih hn.2 he

theorem setLadder_index (b : OrderBook) (s : Side) (m : Ladder) :
    (b.setLadder s m).id_index_ = b.id_index_ := by
  cases s <;> rfl

theorem removed_ladder_own (b : OrderBook) (h : Handle) (id : Nat) (lvl : Level) :
    (removed b h id lvl).ladder h.side = erase_entry id h.px lvl (b.ladder h.side) := by
  unfold removed; cases h.side <;> rfl

/-- Lookup after the removal step: the level of the removed entry holds the
other entries in their order, or is gone if there were none; every other
level is as before. -/
theorem erase_entry_find {s : Side} (id : Nat) (px : Int) (lvl : Level) (m : Ladder)
    (hs : Sorted s m) (hf : map_find px m = some lvl)
    (hn : (lvl.q.map (fun e => e.id)).Nodup) (k : Int) :
    map_find k (erase_entry id px lvl m) =
      if k = px then
        (if lvl.q.filter (fun e => decide (e.id ≠ id)) = [] then none
         else some ⟨lvl.px, lvl.q.filter (fun e => decide (e.id ≠ id))⟩)
      else map_find k m := by
  unfold erase_entry
  simp only []
  rw [erase_first_eq_filter id lvl.q hn]
  by_cases he : lvl.q.filter (fun e => decide (e.id ≠ id)) = []
  · rw [he]
    simp only [List.isEmpty_nil, if_true]
    exact map_find_erase px m hs k
  · have he' : ¬ (lvl.q.filter (fun e => decide (e.id ≠ id))).isEmpty = true := by
      simpa using he
    rw [if_neg he', if_neg he, map_find_modify, hf]
    rfl

/-- C14. On every reachable book: if the id is not in the id index, `cancel`
returns `false` and changes nothing; if it is, `cancel` returns `true`, the
level the handle points at holds an entry with the id and afterwards holds
its other entries (exactly one fewer) in their old order with their old
quantities and timestamps, or is gone if there were none; every other level
of that side, the opposite ladder and the trade journal are unchanged, and the
index has lost the id and nothing else.  The timestamp argument has no effect. -/
theorem C14_cancel_removes_one (b : OrderBook) (hr : Reachable b) (id : Nat) (ts : Int) :
    (∀ ts', cancel b id ts' = cancel b id ts) ∧
    match b.id_index_ id with
    | none => cancel b id ts = (false, b)
    | some h =>
      (cancel b id ts).1 = true ∧
      ∃ lvl e, map_find h.px (b.ladder h.side) = some lvl ∧ e ∈ lvl.q ∧ e.id = id ∧
        (lvl.q.filter (fun x => decide (x.id ≠ id))).length + 1 = lvl.q.length ∧
        (∀ k, map_find k ((cancel b id ts).2.ladder h.side) =
          if k = h.px then
            (if lvl.q.filter (fun x => decide (x.id ≠ id)) = [] then none
             else some ⟨lvl.px, lvl.q.filter (fun x => decide (x.id ≠ id))⟩)
          else map_find k (b.ladder h.side)) ∧
        (cancel b id ts).2.ladder h.side.flip = b.ladder h.side.flip ∧
        (cancel b id ts).2.trades_ = b.trades_ ∧
        (∀ i, (cancel b id ts).2.id_index_ i = if i = id then none else b.id_index_ i) := by
  have hb := reachable_inv hr
  refine ⟨fun ts' => rfl, ?_⟩
  cases hi : b.id_index_ id with
  | none =>
    simp only []
    rw [cancel_eq, hi]
  | some h =>
    simp only []
    obtain ⟨lvl, row, hf, hrow⟩ := hb.locate hi
    have hc := cancel_indexed b id ts h lvl row hi hf hrow
    have hn := hb.queue_nodup hf
    obtain ⟨hrid, hrmem⟩ := find_row_some hrow
    rw [hc]
    refine ⟨rfl, lvl, row, hf, hrmem, hrid, ?_, ?_, ?_, rfl, ?_⟩
    · have := (erase_first_perm hrow).length_eq
      rw [erase_first_eq_filter id lvl.q hn] at this
      simp only [List.length_cons] at this
      omega
    · intro k
      simp only []
      rw [removed_ladder_own]
      exact erase_entry_find id h.px lvl _ (hb.sorted h.side) hf hn k
    · exact removed_ladder_flip b h id lvl
    · intro i
      simp only [removed, IdIndex.erase]

/-- Instance of C14: cancelling the first of the two asks at 10100. -/
theorem C14_cancel_removes_one_witness :
    (∀ ts', cancel book_two_asks 1 ts' = cancel book_two_asks 1 4) ∧
    match book_two_asks.id_index_ 1 with
    | none => cancel book_two_asks 1 4 = (false, book_two_asks)
    | some h =>
      (cancel book_two_asks 1 4).1 = true ∧
      ∃ lvl e, map_find h.px (book_two_asks.ladder h.side) = some lvl ∧ e ∈ lvl.q ∧ e.id = 1 ∧
        (lvl.q.filter (fun x => decide (x.id ≠ 1))).length + 1 = lvl.q.length ∧
        (∀ k, map_find k ((cancel book_two_asks 1 4).2.ladder h.side) =
          if k = h.px then
            (if lvl.q.filter (fun x => decide (x.id ≠ 1)) = [] then none
             else some ⟨lvl.px, lvl.q.filter (fun x => decide (x.id ≠ 1))⟩)
          else map_find k (book_two_asks.ladder h.side)) ∧
        (cancel book_two_asks 1 4).2.ladder h.side.flip = book_two_asks.ladder h.side.flip ∧
        (cancel book_two_asks 1 4).2.trades_ = book_two_asks.trades_ ∧
        (∀ i, (cancel book_two_asks 1 4).2.id_index_ i =
          if i = 1 then none else book_two_asks.id_index_ i) :=
  C14_cancel_removes_one book_two_asks book_two_asks_reachable 1 4


/-! ## C15 and C16: replace at the same price -/

/-- On a book that satisfies the invariant, an entry found in a level is
indexed under that level's side and price. -/
theorem Inv.indexed {b : OrderBook} (hb : Inv b) {s : Side} {p : Int} {lvl : Level}
    {e : QueueEntry} (hf : map_find p (b.ladder s) = some lvl) (he : e ∈ lvl.q) :
    b.id_index_ e.id = some ⟨s, p⟩ := by
  apply (hb.index e.id ⟨s, p⟩).2
  simp only [keyed, List.mem_map]
  exact ⟨(p, e), mem_entries.2 ⟨lvl, map_find_mem hf, he⟩, rfl⟩

/-- The branch of `replace` taken for a resting entry when the price is kept. -/
theorem replace_same_px (b : OrderBook) (hb : Inv b) (s : Side) (p : Int) (lvl : Level)
    (e : QueueEntry) (q2 ts : Int) (hf : map_find p (b.ladder s) = some lvl) (he : e ∈ lvl.q)
    (hq : 0 < q2) :
    replace b e.id p q2 ts =
      if q2 = e.qty then (true, b)
      else if q2 < e.qty then
        (true, b.setLadder s
          (map_modify p (fun l => { l with q := shrink_row e.id q2 l.q }) (b.ladder s)))
      else
        (true, b.setLadder s
          (map_modify p (fun l => { l with q := erase_first e.id l.q ++ [⟨e.id, q2, ts⟩] })
            (b.ladder s))) := by
  have hi := hb.indexed hf he
  have hrow := find_row_of_mem (hb.queue_nodup hf) he rfl
  unfold replace
  rw [if_neg (by omega), hi]
  simp only []
  rw [replace_side_eq]
  simp only [hf, hrow, ne_eq, not_true_eq_false, if_false]

/-- C15. On every reachable book, for an entry `e` resting in the level at
price `p` on side `s`, `replace(e.id, p, q2, ts)` with `0 < q2 ≤ e.qty`
returns `true`.  With `q2 = e.qty` the book is unchanged.  With `q2 < e.qty`
the queue of the level is the old queue with the quantity of that entry set
to `q2` (same position, same timestamp, all other entries as they were); the
other levels, the order of the levels, the opposite ladder, the id index and
the trade journal are unchanged. -/
theorem C15_replace_shrink (b : OrderBook) (hr : Reachable b) (s : Side) (p : Int) (lvl : Level)
    (e : QueueEntry) (q2 ts : Int) (hf : map_find p (b.ladder s) = some lvl) (he : e ∈ lvl.q)
    (hq : 0 < q2) (hle : q2 ≤ e.qty) :
    (replace b e.id p q2 ts).1 = true ∧
    if q2 = e.qty then (replace b e.id p q2 ts).2 = b
    else
      (∀ k, map_find k ((replace b e.id p q2 ts).2.ladder s) =
        if k = p then
          some ⟨lvl.px, lvl.q.map (fun x => if x.id = e.id then { x with qty := q2 } else x)⟩
        else map_find k (b.ladder s)) ∧
      keys ((replace b e.id p q2 ts).2.ladder s) = keys (b.ladder s) ∧
      (replace b e.id p q2 ts).2.ladder s.flip = b.ladder s.flip ∧
      (replace b e.id p q2 ts).2.id_index_ = b.id_index_ ∧
      (replace b e.id p q2 ts).2.trades_ = b.trades_ := by
  have hb := reachable_inv hr
  rw [replace_same_px b hb s p lvl e q2 ts hf he hq]
  by_cases h1 : q2 = e.qty
  · rw [if_pos h1, if_pos h1]
    exact ⟨rfl, rfl⟩
  · rw [if_neg h1, if_neg h1, if_pos (by omega)]
    refine ⟨rfl, ?_, ?_, ?_, setLadder_index _ _ _, setLadder_trades _ _ _⟩
    · intro k
      simp only [ladder_setLadder_same]
      rw [map_find_modify, hf]
      by_cases hk : k = p
      · simp only [hk, if_true, Option.map_some']
        rw [shrink_row_eq_map e.id q2 lvl.q (hb.queue_nodup hf)]
      · simp only [hk, if_false]
    · simp only [ladder_setLadder_same]
      exact map_modify_keys _ _ _
    · simp only [ladder_setLadder_flip]

/-- Instance of C15: shrinking the first ask at 10100 from 10 to 6. -/
theorem C15_replace_shrink_witness :
    (replace book_two_asks (⟨1, 10, 1⟩ : QueueEntry).id 10100 6 3).1 = true ∧
    if (6 : Int) = (⟨1, 10, 1⟩ : QueueEntry).qty then
      (replace book_two_asks (⟨1, 10, 1⟩ : QueueEntry).id 10100 6 3).2 = book_two_asks
    else
      (∀ k, map_find k
          ((replace book_two_asks (⟨1, 10, 1⟩ : QueueEntry).id 10100 6 3).2.ladder Side.Sell) =
        if k = 10100 then
          some ⟨(⟨10100, [⟨1, 10, 1⟩, ⟨2, 10, 2⟩]⟩ : Level).px,
            (⟨10100, [⟨1, 10, 1⟩, ⟨2, 10, 2⟩]⟩ : Level).q.map
              (fun x => if x.id = (⟨1, 10, 1⟩ : QueueEntry).id then { x with qty := 6 } else x)⟩
        else map_find k (book_two_asks.ladder Side.Sell)) ∧
      keys ((replace book_two_asks (⟨1, 10, 1⟩ : QueueEntry).id 10100 6 3).2.ladder Side.Sell) =
        keys (book_two_asks.ladder Side.Sell) ∧
      (replace book_two_asks (⟨1, 10, 1⟩ : QueueEntry).id 10100 6 3).2.ladder Side.Sell.flip =
        book_two_asks.ladder Side.Sell.flip ∧
      (replace book_two_asks (⟨1, 10, 1⟩ : QueueEntry).id 10100 6 3).2.id_index_ =
        book_two_asks.id_index_ ∧
      (replace book_two_asks (⟨1, 10, 1⟩ : QueueEntry).id 10100 6 3).2.trades_ =
        book_two_asks.trades_ :=
  C15_replace_shrink book_two_asks book_two_asks_reachable Side.Sell 10100
    ⟨10100, [⟨1, 10, 1⟩, ⟨2, 10, 2⟩]⟩ ⟨1, 10, 1⟩ 6 3 (by rfl) (by decide) (by decide) (by decide)

/-- C16. On every reachable book, for an entry `e` resting in the level at
price `p` on side `s`, `replace(e.id, p, q2, ts)` with `q2 > e.qty` returns
`true`; afterwards the queue of the level is the old queue without that entry
(the others in their old order) followed by `{e.id, q2, ts}`; the other
levels, the order of the levels, the opposite ladder, the id index and the
trade journal are unchanged. -/
theorem C16_replace_grow (b : OrderBook) (hr : Reachable b) (s : Side) (p : Int) (lvl : Level)
    (e : QueueEntry) (q2 ts : Int) (hf : map_find p (b.ladder s) = some lvl) (he : e ∈ lvl.q)
    (hgt : e.qty < q2) :
    (replace b e.id p q2 ts).1 = true ∧
    (∀ k, map_find k ((replace b e.id p q2 ts).2.ladder s) =
      if k = p then
        some ⟨lvl.px, lvl.q.filter (fun x => decide (x.id ≠ e.id)) ++ [⟨e.id, q2, ts⟩]⟩
      else map_find k (b.ladder s)) ∧
    (lvl.q.filter (fun x => decide (x.id ≠ e.id))).length + 1 = lvl.q.length ∧
    keys ((replace b e.id p q2 ts).2.ladder s) = keys (b.ladder s) ∧
    (replace b e.id p q2 ts).2.ladder s.flip = b.ladder s.flip ∧
    (replace b e.id p q2 ts).2.id_index_ = b.id_index_ ∧
    (replace b e.id p q2 ts).2.trades_ = b.trades_ := by
  have hb := reachable_inv hr
  have hpos : 0 < e.qty := hb.qty_pos s (p, e) (mem_entries.2 ⟨lvl, map_find_mem hf, he⟩)
  have hn := hb.queue_nodup hf
  have hrow := find_row_of_mem hn he rfl
  rw [replace_same_px b hb s p lvl e q2 ts hf he (by omega)]
  rw [if_neg (by omega), if_neg (by omega)]
  refine ⟨rfl, ?_, ?_, ?_, ?_, setLadder_index _ _ _, setLadder_trades _ _ _⟩
  · intro k
    simp only [ladder_setLadder_same]
    rw [map_find_modify, hf]
    by_cases hk : k = p
    · simp only [hk, if_true, Option.map_some']
      rw [erase_first_eq_filter e.id lvl.q hn]
    · simp only [hk, if_false]
  · have := (erase_first_perm hrow).length_eq
    rw [erase_first_eq_filter e.id lvl.q hn] at this
    simp only [List.length_cons] at this
    omega
  · simp only [ladder_setLadder_same]
    exact map_modify_keys _ _ _
  · simp only [ladder_setLadder_flip]

/-- Instance of C16: growing the first ask at 10100 from 10 to 12 moves it
behind the second. -/
theorem C16_replace_grow_witness :
    (replace book_two_asks (⟨1, 10, 1⟩ : QueueEntry).id 10100 12 3).1 = true ∧
    (∀ k, map_find k
        ((replace book_two_asks (⟨1, 10, 1⟩ : QueueEntry).id 10100 12 3).2.ladder Side.Sell) =
      if k = 10100 then
        some ⟨(⟨10100, [⟨1, 10, 1⟩, ⟨2, 10, 2⟩]⟩ : Level).px,
          (⟨10100, [⟨1, 10, 1⟩, ⟨2, 10, 2⟩]⟩ : Level).q.filter
            (fun x => decide (x.id ≠ (⟨1, 10, 1⟩ : QueueEntry).id)) ++
          [⟨(⟨1, 10, 1⟩ : QueueEntry).id, 12, 3⟩]⟩
      else map_find k (book_two_asks.ladder Side.Sell)) ∧
    ((⟨10100, [⟨1, 10, 1⟩, ⟨2, 10, 2⟩]⟩ : Level).q.filter
      (fun x => decide (x.id ≠ (⟨1, 10, 1⟩ : QueueEntry).id))).length + 1 =
      (⟨10100, [⟨1, 10, 1⟩, ⟨2, 10, 2⟩]⟩ : Level).q.length ∧
    keys ((replace book_two_asks (⟨1, 10, 1⟩ : QueueEntry).id 10100 12 3).2.ladder Side.Sell) =
      keys (book_two_asks.ladder Side.Sell) ∧
    (replace book_two_asks (⟨1, 10, 1⟩ : QueueEntry).id 10100 12 3).2.ladder Side.Sell.flip =
      book_two_asks.ladder Side.Sell.flip ∧
    (replace book_two_asks (⟨1, 10, 1⟩ : QueueEntry).id 10100 12 3).2.id_index_ =
      book_two_asks.id_index_ ∧
    (replace book_two_asks (⟨1, 10, 1⟩ : QueueEntry).id 10100 12 3).2.trades_ =
      book_two_asks.trades_ :=
  C16_replace_grow book_two_asks book_two_asks_reachable Side.Sell 10100
    ⟨10100, [⟨1, 10, 1⟩, ⟨2, 10, 2⟩]⟩ ⟨1, 10, 1⟩ 12 3 (by rfl) (by decide) (by decide)


/-! ## C17: a price-changing replace is a cancel followed by an add -/

/-- C17. On every reachable book, for an id resting on side `h.side` at price
`h.px` and any `new_px ≠ h.px` with `new_px > 0`, `new_px % tick = 0` and
`new_qty > 0`, `replace` returns `true` and leaves exactly the book that
`cancel` followed by `add` of the fresh Day limit order
`{id, side, Limit, Day, new_px, new_qty, ts}` leaves (both of which succeed);
what rests at `new_px` afterwards is the residual left by the matcher. -/
theorem C17_replace_is_cancel_add (b : OrderBook) (hr : Reachable b) (id : Nat) (h : Handle)
    (new_px new_qty ts : Int) (hi : b.id_index_ id = some h) (hne : new_px ≠ h.px)
    (hpx : 0 < new_px) (htick : new_px % b.tick_ = 0) (hq : 0 < new_qty) :
    (replace b id new_px new_qty ts).1 = true ∧
    (cancel b id ts).1 = true ∧
    (add (cancel b id ts).2 ⟨id, h.side, OrdType.Limit, TIF.Day, new_px, new_qty, ts, false⟩).1
      = true ∧
    (replace b id new_px new_qty ts).2 =
      (add (cancel b id ts).2
        ⟨id, h.side, OrdType.Limit, TIF.Day, new_px, new_qty, ts, false⟩).2 := by
  have hb := reachable_inv hr
  obtain ⟨lvl, row, hf, hrow⟩ := hb.locate hi
  have hc := cancel_indexed b id ts h lvl row hi hf hrow
  have htm : Int.tmod new_px b.tick_ = 0 := by
    rw [Int.tmod_eq_emod (by omega) (le_of_lt hb.tick_pos)]; exact htick
  have hrep : replace b id new_px new_qty ts =
      if 0 < (match_incoming (removed b h id lvl) (reentry h id new_px new_qty ts)).2.1.qty then
        (true, rest_order
          (match_incoming (removed b h id lvl) (reentry h id new_px new_qty ts)).2.2
          h.side new_px id
          (match_incoming (removed b h id lvl) (reentry h id new_px new_qty ts)).2.1.qty ts)
      else (true, (match_incoming (removed b h id lvl) (reentry h id new_px new_qty ts)).2.2) := by
    unfold replace
    rw [if_neg (by omega), hi]
    simp only []
    rw [replace_side_eq]
    simp only [hf, hrow]
    rw [if_pos hne, if_neg (by rw [htm]; omega)]
  have hadd : add (removed b h id lvl) (reentry h id new_px new_qty ts) =
      if 0 < (match_incoming (removed b h id lvl) (reentry h id new_px new_qty ts)).2.1.qty then
        (true, rest_order
          (match_incoming (removed b h id lvl) (reentry h id new_px new_qty ts)).2.2
          h.side new_px id
          (match_incoming (removed b h id lvl) (reentry h id new_px new_qty ts)).2.1.qty ts)
      else (true, (match_incoming (removed b h id lvl) (reentry h id new_px new_qty ts)).2.2) := by
    rw [add_eq]
    have h1 : ¬ (reentry h id new_px new_qty ts).qty ≤ 0 := by simp [reentry]; omega
    have h2 : ¬ ((removed b h id lvl).id_index_ (reentry h id new_px new_qty ts).id).isSome
        = true := by
      simp [removed, reentry, IdIndex.erase]
    have h3 : ¬ ((reentry h id new_px new_qty ts).type ≠ OrdType.Market ∧
        ((reentry h id new_px new_qty ts).px ≤ 0 ∨
          Int.tmod (reentry h id new_px new_qty ts).px (removed b h id lvl).tick_ ≠ 0)) := by
      have ht : (removed b h id lvl).tick_ = b.tick_ := by
        unfold removed; cases h.side <;> rfl
      rw [ht]
      simp only [reentry]
      rintro ⟨_, hc1 | hc1⟩
      · omega
      · exact hc1 htm
    rw [if_neg h1, if_neg h2, if_neg h3]
    simp only [reentry]
    rw [if_neg (by decide), if_neg (by decide), if_neg (by decide), if_neg (by decide)]
  have hre : (⟨id, h.side, OrdType.Limit, TIF.Day, new_px, new_qty, ts, false⟩ : Order) =
      reentry h id new_px new_qty ts := rfl
  rw [hre, hc]
  simp only []
  rw [hrep, hadd]
  split_ifs <;> simp

/-- Instance of C17: the bid `1` resting at 10050 is replaced to 10200, where
it trades 10 with the ask `10` and rests 2. -/
theorem C17_replace_is_cancel_add_witness :
    (replace book_replace 1 10200 12 3).1 = true ∧
    (cancel book_replace 1 3).1 = true ∧
    (add (cancel book_replace 1 3).2
      ⟨1, Side.Buy, OrdType.Limit, TIF.Day, 10200, 12, 3, false⟩).1 = true ∧
    (replace book_replace 1 10200 12 3).2 =
      (add (cancel book_replace 1 3).2
        ⟨1, Side.Buy, OrdType.Limit, TIF.Day, 10200, 12, 3, false⟩).2 :=
  C17_replace_is_cancel_add book_replace book_replace_reachable 1 ⟨Side.Buy, 10050⟩ 10200 12 3
    (by rfl) (by decide) (by decide) (by decide) (by decide)


/-! ## C18: maker quantity is conserved -/

theorem qty_of_perm {l1 l2 : List (Int × QueueEntry)} (h : l1.Perm l2) (id : Nat) :
    qty_of l1 id = qty_of l2 id := by
  unfold qty_of
  exact ((h.filter _).map _).sum_eq

theorem qty_of_append (l1 l2 : List (Int × QueueEntry)) (id : Nat) :
    qty_of (l1 ++ l2) id = qty_of l1 id + qty_of l2 id := by
  simp [qty_of]

theorem qty_of_cons (p : Int × QueueEntry) (l : List (Int × QueueEntry)) (id : Nat) :
    qty_of (p :: l) id = (if p.2.id = id then p.2.qty else 0) + qty_of l id := by
  by_cases h : p.2.id = id
  · simp [qty_of, h]
  · simp [qty_of, h]

theorem qty_of_nil (id : Nat) : qty_of [] id = 0 := rfl

theorem traded_with_append (l1 l2 : List Trade) (m : Nat) :
    traded_with (l1 ++ l2) m = traded_with l1 m + traded_with l2 m := by
  simp [traded_with, traded]

theorem traded_with_cons (t : Trade) (l : List Trade) (m : Nat) :
    traded_with (t :: l) m = (if t.maker_id = m then t.qty else 0) + traded_with l m := by
  by_cases h : t.maker_id = m
  · simp [traded_with, traded, h]
  · simp [traded_with, traded, h]

theorem traded_with_nil (m : Nat) : traded_with [] m = 0 := rfl

theorem qty_of_absent {l : List (Int × QueueEntry)} {id : Nat}
    (h : id ∉ l.map (fun p => p.2.id)) : qty_of l id = 0 := by
  induction l with
  | nil => rfl
  | cons p rest ih =>
    simp only [List.map_cons, List.mem_cons, not_or] at h
    rw [qty_of_cons, if_neg (fun hp => h.1 hp.symm), ih h.2]
    simp

/-- The inner loop takes from each maker what it trades with it, and leaves
in the queue every entry it did not trade with. -/
theorem fill_queue_conserves (px : Int) (buy : Bool) (dq : List QueueEntry) :
    ∀ inn idx tr any, ∃ new, (fill_queue px buy dq inn idx tr any).trades = tr ++ new ∧
      (∀ m, qty_of (dq.map (fun e => (px, e))) m =
        qty_of ((fill_queue px buy dq inn idx tr any).dq.map (fun e => (px, e))) m +
          traded_with new m) ∧
      (∀ e ∈ dq, e.id ∈ new.map (fun t => t.maker_id) ∨
        e ∈ (fill_queue px buy dq inn idx tr any).dq) := by
  apply fill_queue_induct px buy (fun dq _ _ tr _ r => ∃ new, r.trades = tr ++ new ∧
      (∀ m, qty_of (dq.map (fun e => (px, e))) m =
        qty_of (r.dq.map (fun e => (px, e))) m + traded_with new m) ∧
      (∀ e ∈ dq, e.id ∈ new.map (fun t => t.maker_id) ∨ e ∈ r.dq))
  · intro dq inn idx tr any _
    exact ⟨[], by simp, by simp [traded_with_nil], fun e he => Or.inr he⟩
  · intro mk rest inn idx tr any res _ _ ih
    obtain ⟨new, h1, h2, h3⟩ := ih
    refine ⟨⟨inn.id, mk.id, px, mk.qty, inn.ts_ns, buy⟩ :: new, by rw [h1]; simp, ?_, ?_⟩
    · intro m
      rw [List.map_cons, qty_of_cons, traded_with_cons, h2 m]
      simp only []
      omega
    · intro e he
      simp only [List.mem_cons] at he
      rcases he with he | he
      · left; simp [he]
      · rcases h3 e he with h | h
        · left; simp only [List.map_cons, List.mem_cons]; exact Or.inr h
        · right; exact h
  · intro mk rest inn idx tr any _ _
    refine ⟨[⟨inn.id, mk.id, px, inn.qty, inn.ts_ns, buy⟩], rfl, ?_, ?_⟩
    · intro m
      rw [List.map_cons, List.map_cons, qty_of_cons, qty_of_cons, traded_with_cons,
        traded_with_nil]
      simp only []
      split_ifs <;> omega
    · intro e he
      simp only [List.mem_cons] at he
      rcases he with he | he
      · left; simp [he]
      · right; simp [he]

/-- The outer loop takes from each maker what it trades with it, and leaves in
the opposite ladder every entry it did not trade with. -/
theorem sweep_conserves (buy : Bool) (opp : Ladder) :
    ∀ inn idx tr any, ∃ new, (sweep buy opp inn idx tr any).trades = tr ++ new ∧
      (∀ m, qty_of (entries opp) m =
        qty_of (entries (sweep buy opp inn idx tr any).opp) m + traded_with new m) ∧
      (∀ p ∈ entries opp, p.2.id ∈ new.map (fun t => t.maker_id) ∨
        p ∈ entries (sweep buy opp inn idx tr any).opp) := by
  apply sweep_induct buy (fun opp _ _ tr _ r => ∃ new, r.trades = tr ++ new ∧
      (∀ m, qty_of (entries opp) m = qty_of (entries r.opp) m + traded_with new m) ∧
      (∀ p ∈ entries opp, p.2.id ∈ new.map (fun t => t.maker_id) ∨ p ∈ entries r.opp))
  · intro opp inn idx tr any _
    exact ⟨[], by simp, by simp [traded_with_nil], fun p hp => Or.inr hp⟩
  · intro k lvl rest inn idx tr any res _ he ih
    obtain ⟨new1, h1, h2, h3⟩ := fill_queue_conserves k buy lvl.q inn idx tr any
    obtain ⟨new2, h4, h5, h6⟩ := ih
    refine ⟨new1 ++ new2, by rw [h4, h1, List.append_assoc], ?_, ?_⟩
    · intro m
      have := h2 m
      rw [he] at this
      simp only [List.map_nil, qty_of_nil, zero_add] at this
      rw [entries, qty_of_append, this, h5 m, traded_with_append]
      omega
    · intro p hp
      simp only [entries, List.mem_append, List.mem_map] at hp
      rcases hp with ⟨e, he1, rfl⟩ | hp
      · rcases h3 e he1 with h | h
        · left; simp only [List.map_append, List.mem_append]; exact Or.inl h
        · rw [he] at h; simp at h
      · rcases h6 p hp with h | h
        · left; simp only [List.map_append, List.mem_append]; exact Or.inr h
        · right; exact h
  · intro k lvl rest inn idx tr any _ _
    obtain ⟨new1, h1, h2, h3⟩ := fill_queue_conserves k buy lvl.q inn idx tr any
    refine ⟨new1, h1, ?_, ?_⟩
    · intro m
      have hent : entries ((k, ({ lvl with q := (fill_queue k buy lvl.q inn idx tr any).dq } : Level))
          :: rest) = (fill_queue k buy lvl.q inn idx tr any).dq.map (fun e => (k, e)) ++
            entries rest := rfl
      rw [hent, entries, qty_of_append, qty_of_append, h2 m]
      omega
    · intro p hp
      have hent : entries ((k, ({ lvl with q := (fill_queue k buy lvl.q inn idx tr any).dq } : Level))
          :: rest) = (fill_queue k buy lvl.q inn idx tr any).dq.map (fun e => (k, e)) ++
            entries rest := rfl
      rw [hent]
      simp only [entries, List.mem_append, List.mem_map] at hp
      rcases hp with ⟨e, he1, rfl⟩ | hp
      · rcases h3 e he1 with h | h
        · left; exact h
        · right; exact List.mem_append.2 (Or.inl (List.mem_map_of_mem _ h))
      · right; exact List.mem_append.2 (Or.inr hp)

theorem resting_sides (b : OrderBook) (s : Side) (m : Nat) :
    b.resting m = qty_of (entries (b.ladder s)) m + qty_of (entries (b.ladder s.flip)) m := by
  cases s
  · rfl
  · simp only [OrderBook.resting, OrderBook.ladder, Side.flip]; omega

theorem OwnOnly.refl (b : OrderBook) (s : Side) (m : Nat) : OwnOnly b b s m := ⟨rfl, rfl, rfl⟩

theorem OwnOnly.conserves {b b' : OrderBook} {s : Side} {m : Nat} (h : OwnOnly b b' s m) :
    Conserves b b' s m := by
  obtain ⟨h1, h2, h3⟩ := h
  constructor
  · rw [emitted_same b b' h3, traded_with_nil, resting_sides b s, resting_sides b' s, h1, h2]
    omega
  · right
    intro p hp _
    rw [h1]; exact hp

theorem Conserves.after {b b1 b' : OrderBook} {s : Side} {m : Nat} (h1 : Conserves b b1 s m)
    (h2 : OwnOnly b1 b' s m) : Conserves b b' s m := by
  obtain ⟨h3, h4⟩ := h1
  obtain ⟨h5, h6, h7⟩ := h2
  have hem : emitted b b' = emitted b b1 := by simp [emitted, h7]
  constructor
  · rw [hem, ← h3, resting_sides b' s, resting_sides b1 s, h5, h6]
  · rw [hem, h5]; exact h4

theorem Conserves.before {b b1 b' : OrderBook} {s : Side} {m : Nat} (h1 : OwnOnly b b1 s m)
    (h2 : Conserves b1 b' s m) : Conserves b b' s m := by
  obtain ⟨h5, h6, h7⟩ := h1
  obtain ⟨h3, h4⟩ := h2
  have hem : emitted b b' = emitted b1 b' := by simp [emitted, h7]
  constructor
  · rw [hem, ← h3, resting_sides b s, resting_sides b1 s, h5, h6]
  · rw [hem, ← h5]; exact h4

/-- The matcher conserves the quantity of every maker. -/
theorem match_incoming_conserves (b : OrderBook) (inn : Order) (m : Nat) :
    Conserves b (match_incoming b inn).2.2 inn.side m := by
  obtain ⟨new, h1, h2, h3⟩ := sweep_conserves inn.side.is_buy (b.ladder inn.side.flip) inn
    b.id_index_ b.trades_ false
  have htr : (match_incoming b inn).2.2.trades_ = b.trades_ ++ new := by
    rw [match_incoming_trades]; exact h1
  have hem := emitted_append b _ new htr
  constructor
  · rw [hem, resting_sides b inn.side, resting_sides _ inn.side, match_incoming_own,
      match_incoming_opp, h2 m]
    omega
  · rw [hem, match_incoming_opp]
    by_cases hmem : m ∈ new.map (fun t => t.maker_id)
    · exact Or.inl hmem
    · right
      intro p hp hid
      rcases h3 p hp with h | h
      · rw [hid] at h; exact absurd h hmem
      · exact h

theorem rest_order_own (b : OrderBook) (s : Side) (px : Int) (id : Nat) (qty ts : Int) (m : Nat)
    (hne : id ≠ m) : OwnOnly b (rest_order b s px id qty ts) s m := by
  refine ⟨rest_order_ladder_flip _ _ _ _ _ _, ?_, rest_order_trades _ _ _ _ _ _⟩
  rw [rest_order_ladder_own, qty_of_perm (rest_ladder_entries _ px id qty ts (b.ladder s)) m,
    qty_of_cons, if_neg hne]
  omega

theorem removed_own (b : OrderBook) (h : Handle) (id : Nat) (lvl : Level) (row : QueueEntry)
    (m : Nat) (hf : map_find h.px (b.ladder h.side) = some lvl)
    (hrow : find_row id lvl.q = some row) (hne : id ≠ m) :
    OwnOnly b (removed b h id lvl) h.side m := by
  refine ⟨removed_ladder_flip _ _ _ _, ?_, ?_⟩
  · rw [removed_ladder_own, qty_of_perm (erase_entry_entries hf hrow) m, qty_of_cons,
      if_neg (by rw [(find_row_some hrow).1]; exact hne)]
    omega
  · unfold removed; cases h.side <;> rfl

/-- Rewriting the queue of one own-side level leaves what rests under `m`
when the rewrite does. -/
theorem modify_own (b : OrderBook) (s : Side) (p : Int) (lvl : Level)
    (g : List QueueEntry → List QueueEntry) (m : Nat)
    (hf : map_find p (b.ladder s) = some lvl)
    (hg : qty_of ((g lvl.q).map (fun e => (p, e))) m = qty_of (lvl.q.map (fun e => (p, e))) m) :
    OwnOnly b (b.setLadder s (map_modify p (fun l => { l with q := g l.q }) (b.ladder s))) s m := by
  refine ⟨by simp only [ladder_setLadder_flip], ?_, setLadder_trades _ _ _⟩
  simp only [ladder_setLadder_same]
  rw [qty_of_perm (entries_modify (fun l => { l with q := g l.q }) hf) m,
    qty_of_perm (entries_split hf) m, qty_of_append, qty_of_append]
  simp only []
  rw [hg]

theorem shrink_row_qty_of (id : Nat) (n : Int) (p : Int) (q : List QueueEntry) (m : Nat)
    (hne : id ≠ m) :
    qty_of ((shrink_row id n q).map (fun e => (p, e))) m = qty_of (q.map (fun e => (p, e))) m := by
  induction q with
  | nil => rfl
  | cons e rest ih =>
    by_cases he : e.id = id
    · simp only [shrink_row, he, if_true, List.map_cons]
      rw [qty_of_cons, qty_of_cons]
      simp only []
      have hem : ¬ e.id = m := by rw [he]; exact hne
      simp only [hem, if_false, he, hne]
    · simp only [shrink_row, he, if_false, List.map_cons]
      rw [qty_of_cons, qty_of_cons, ih]

theorem grow_qty_of (id : Nat) (n ts : Int) (p : Int) (q : List QueueEntry) (row : QueueEntry)
    (m : Nat) (hrow : find_row id q = some row) (hne : id ≠ m) :
    qty_of ((erase_first id q ++ [(⟨row.id, n, ts⟩ : QueueEntry)]).map (fun e => (p, e))) m =
      qty_of (q.map (fun e => (p, e))) m := by
  have hrid := (find_row_some hrow).1
  have hperm := (erase_first_perm hrow).map (fun e => (p, e))
  rw [qty_of_perm hperm m, List.map_append, qty_of_append, List.map_cons, List.map_cons,
    qty_of_cons, qty_of_cons]
  simp only [List.map_nil, qty_of_nil]
  rw [if_neg (by rw [hrid]; exact hne), if_neg (by rw [hrid]; exact hne)]
  omega


theorem add_conserves (b : OrderBook) (hb : Inv b) (o : Order) (m : Nat)
    (hm : m ∈ ids (b.ladder o.side.flip)) : Conserves b (add b o).2 o.side m := by
  have hne : b.id_index_ o.id = none → o.id ≠ m := by
    intro hid heq
    rw [← heq] at hm
    exact hb.not_resting o.id hid o.side.flip hm
  rw [add_eq]
  split_ifs with h1 h2 h3 h4 h5 h6 h7 h8 h9 h10
  · exact (OwnOnly.refl b o.side m).conserves
  · exact (OwnOnly.refl b o.side m).conserves
  · exact (OwnOnly.refl b o.side m).conserves
  · exact (OwnOnly.refl b o.side m).conserves
  · exact (rest_order_own b o.side o.px o.id o.qty o.ts_ns m (hne (add_index_none h2))).conserves
  · exact (OwnOnly.refl b o.side m).conserves
  · exact match_incoming_conserves b o m
  · exact match_incoming_conserves b o m
  · exact match_incoming_conserves b o m
  · exact (match_incoming_conserves b o m).after
      (rest_order_own _ o.side o.px o.id _ o.ts_ns m (hne (add_index_none h2)))
  · exact match_incoming_conserves b o m

theorem replace_conserves (b : OrderBook) (hb : Inv b) (id : Nat) (new_px new_qty ts : Int)
    (h : Handle) (hi : b.id_index_ id = some h) (m : Nat)
    (hm : m ∈ ids (b.ladder h.side.flip)) :
    Conserves b (replace b id new_px new_qty ts).2 h.side m := by
  have hne : id ≠ m := by
    intro heq
    have h1 := mem_ids_of_keyed ((hb.index id h).1 hi)
    rw [heq] at h1
    exact (List.nodup_append.1 (hb.nodup_side h.side)).2.2 h1 hm
  unfold replace
  split_ifs with h0
  · exact (OwnOnly.refl b h.side m).conserves
  · rw [hi]
    simp only []
    rw [replace_side_eq]
    cases hf : map_find h.px (b.ladder h.side) with
    | none => exact (OwnOnly.refl b h.side m).conserves
    | some lvl =>
      simp only []
      cases hrow : find_row id lvl.q with
      | none => exact (OwnOnly.refl b h.side m).conserves
      | some row =>
        simp only []
        have hrem := removed_own b h id lvl row m hf hrow hne
        have hmat : Conserves (removed b h id lvl)
            (match_incoming (removed b h id lvl) (reentry h id new_px new_qty ts)).2.2 h.side m :=
          match_incoming_conserves (removed b h id lvl) (reentry h id new_px new_qty ts) m
        split_ifs with h2 h3 h4 h5 h6
        · exact (OwnOnly.refl b h.side m).conserves
        · exact Conserves.before hrem (hmat.after (rest_order_own _ h.side new_px id _ ts m hne))
        · exact Conserves.before hrem hmat
        · exact (OwnOnly.refl b h.side m).conserves
        · exact (modify_own b h.side h.px lvl (fun q => shrink_row id new_qty q) m hf
            (shrink_row_qty_of id new_qty h.px lvl.q m hne)).conserves
        · exact (modify_own b h.side h.px lvl
            (fun q => erase_first id q ++ [(⟨row.id, new_qty, ts⟩ : QueueEntry)]) m hf
            (grow_qty_of id new_qty ts h.px lvl.q row m hrow hne)).conserves

theorem op_conserves (b : OrderBook) (hb : Inv b) (op : Op) (taker : Order)
    (htk : taker_of b op = some taker) (m : Nat) (hm : m ∈ ids (b.ladder taker.side.flip)) :
    Conserves b (apply_op b op).2 taker.side m := by
  cases op with
  | add o =>
    simp only [taker_of, Option.some.injEq] at htk
    subst htk
    exact add_conserves b hb o m hm
  | cancel id ts => simp [taker_of] at htk
  | replace id new_px new_qty ts =>
    simp only [taker_of, Option.map_eq_some'] at htk
    obtain ⟨h, hi, hk⟩ := htk
    subst hk
    exact replace_conserves b hb id new_px new_qty ts h hi m hm

theorem apply_op_reachable (b : OrderBook) (hr : Reachable b) (op : Op) :
    Reachable (apply_op b op).2 := by
  cases op with
  | add o => exact Reachable.add b o hr
  | cancel id ts => exact Reachable.cancel b id ts hr
  | replace id new_px new_qty ts => exact Reachable.replace b id new_px new_qty ts hr

/-- C18. On every reachable book, take a call that hands an order `taker` to
the matcher (`add`, or a `replace` of a resting id) and an id `m` resting on
the side opposite to the taker before the call.  The resting quantity of `m`
before the call less its resting quantity after it (zero when `m` has no
entry left, which is the case whenever `m` is no longer in the id index) is
the sum of the quantities of the trades the call appended with maker id `m`;
and if the call appended no trade with `m`, the entries of `m` are still in
the opposite ladder as they were. -/
theorem C18_maker_conservation (b : OrderBook) (hr : Reachable b) (op : Op) (taker : Order)
    (htk : taker_of b op = some taker) (m : Nat) (hm : m ∈ ids (b.ladder taker.side.flip)) :
    b.resting m - (apply_op b op).2.resting m = traded_with (emitted b (apply_op b op).2) m ∧
    (((apply_op b op).2.id_index_ m).isSome = true ∨ (apply_op b op).2.resting m = 0) ∧
    (m ∈ (emitted b (apply_op b op).2).map (fun t => t.maker_id) ∨
      ∀ p ∈ entries (b.ladder taker.side.flip), p.2.id = m →
        p ∈ entries ((apply_op b op).2.ladder taker.side.flip)) := by
  have hb := reachable_inv hr
  have hb' := reachable_inv (apply_op_reachable b hr op)
  obtain ⟨h1, h2⟩ := op_conserves b hb op taker htk m hm
  refine ⟨h1, ?_, h2⟩
  cases hi : (apply_op b op).2.id_index_ m with
  | some h => left; rfl
  | none =>
    right
    have hn1 := hb'.not_resting m hi Side.Buy
    have hn2 := hb'.not_resting m hi Side.Sell
    have e1 : qty_of (entries (apply_op b op).2.bid_levels_) m = 0 := qty_of_absent hn1
    have e2 : qty_of (entries (apply_op b op).2.ask_levels_) m = 0 := qty_of_absent hn2
    unfold OrderBook.resting
    rw [e1, e2]
    rfl

/-- Instance of C18: the buy of 35 at 10150 on the three-ask book takes 5 of
the 10 resting under ask `2`. -/
theorem C18_maker_conservation_witness :
    book_three_asks.resting 2 - (apply_op book_three_asks (Op.add order_buy_35)).2.resting 2 =
      traded_with (emitted book_three_asks (apply_op book_three_asks (Op.add order_buy_35)).2) 2 ∧
    (((apply_op book_three_asks (Op.add order_buy_35)).2.id_index_ 2).isSome = true ∨
      (apply_op book_three_asks (Op.add order_buy_35)).2.resting 2 = 0) ∧
    (2 ∈ (emitted book_three_asks (apply_op book_three_asks (Op.add order_buy_35)).2).map
        (fun t => t.maker_id) ∨
      ∀ p ∈ entries (book_three_asks.ladder order_buy_35.side.flip), p.2.id = 2 →
        p ∈ entries ((apply_op book_three_asks (Op.add order_buy_35)).2.ladder
          order_buy_35.side.flip)) :=
  C18_maker_conservation book_three_asks book_three_asks_reachable (Op.add order_buy_35)
    order_buy_35 rfl 2 (by decide)


/-! ## C19: snapshots -/

theorem wrap64_wrap64_add (a b : Int) : wrap64 (wrap64 a + b) = wrap64 (a + b) := by
  unfold wrap64; omega

theorem wrap64_fits (x : Int) : fits64 (wrap64 x) := by
  unfold fits64 wrap64; omega

theorem wrap64_of_fits {x : Int} (h : fits64 x) : wrap64 x = x := by
  unfold fits64 at h; unfold wrap64; omega

theorem foldl_wrap (q : List QueueEntry) :
    ∀ tot, fits64 tot →
      q.foldl (fun tot e => wrap64 (tot + e.qty)) tot = wrap64 (tot + queue_sum q) := by
  induction q with
  | nil => intro tot h; simp [queue_sum, wrap64_of_fits h]
  | cons e rest ih =>
    intro tot _
    simp only [List.foldl_cons]
    rw [ih _ (wrap64_fits _), wrap64_wrap64_add]
    simp only [queue_sum, List.map_cons, List.sum_cons]
    congr 1
    omega

/-- `Level::total_qty` is the sum of the queue reduced to the `int64_t` range. -/
theorem total_qty_eq (l : Level) : l.total_qty = wrap64 (queue_sum l.q) := by
  unfold Level.total_qty
  rw [foldl_wrap l.q 0 (by unfold fits64; omega)]
  simp

theorem total_qty_of_fits (l : Level) (h : NoOverflow l.q) : l.total_qty = queue_sum l.q := by
  rw [total_qty_eq]
  apply wrap64_of_fits
  have := h l.q.length (le_refl _)
  simpa using this

theorem snapshot_loop_eq (depth : Int) (m : Ladder) :
    ∀ (n : Int) (out : List LevelView), 0 ≤ n →
      snapshot_loop depth m n out =
        out ++ (m.take (depth - n).toNat).map
          (fun p => (⟨p.2.px, p.2.total_qty, p.2.count⟩ : LevelView)) := by
  induction m with
  | nil => intro n out _; simp [snapshot_loop]
  | cons p rest ih =>
    obtain ⟨k, lvl⟩ := p
    intro n out hn
    by_cases h : n < depth
    · simp only [snapshot_loop, h, if_true]
      rw [ih (n + 1) _ (by omega)]
      have h1 : (depth - n).toNat = (depth - (n + 1)).toNat + 1 := by omega
      rw [h1, List.take_succ_cons, List.map_cons, List.append_assoc]
      rfl
    · simp only [snapshot_loop, h, if_false]
      have h1 : (depth - n).toNat = 0 := by omega
      rw [h1]
      simp

theorem reserve_ok (alloc : Nat → Bool) (depth : Int) (hd : 0 ≤ depth)
    (ha : depth = 0 ∨ alloc depth.toNat = true) : reserve alloc depth = Except.ok () := by
  unfold reserve
  rw [if_neg (by omega)]
  by_cases h0 : depth = 0
  · rw [if_pos h0]
  · rw [if_neg h0]
    rcases ha with ha | ha
    · exact absurd ha h0
    · rw [if_pos ha]

theorem reserve_bad_alloc (alloc : Nat → Bool) (depth : Int) (hd : 0 ≤ depth)
    (ha : ¬ (depth = 0 ∨ alloc depth.toNat = true)) :
    reserve alloc depth = Except.error SnapshotError.bad_alloc := by
  unfold reserve
  rw [if_neg (by omega), if_neg (fun h => ha (Or.inl h)), if_neg (fun h => ha (Or.inr h))]

theorem snapshot_eq (alloc : Nat → Bool) (b : OrderBook) (s : Side) (depth : Int)
    (hd : 0 ≤ depth) (ha : depth = 0 ∨ alloc depth.toNat = true) :
    snapshot alloc b s depth =
      Except.ok (((b.ladder s).take depth.toNat).map
        (fun p => (⟨p.2.px, p.2.total_qty, p.2.count⟩ : LevelView))) := by
  have h := reserve_ok alloc depth hd ha
  cases s
  · simp only [snapshot, bids, h, OrderBook.ladder]
    rw [snapshot_loop_eq depth _ 0 [] (le_refl _)]
    simp
  · simp only [snapshot, asks, h, OrderBook.ladder]
    rw [snapshot_loop_eq depth _ 0 [] (le_refl _)]
    simp

theorem snapshot_bad_alloc (alloc : Nat → Bool) (b : OrderBook) (s : Side) (depth : Int)
    (hd : 0 ≤ depth) (ha : ¬ (depth = 0 ∨ alloc depth.toNat = true)) :
    snapshot alloc b s depth = Except.error SnapshotError.bad_alloc := by
  have h := reserve_bad_alloc alloc depth hd ha
  cases s
  · simp only [snapshot, bids, h]
  · simp only [snapshot, asks, h]

/-- C19 as stated fails: on the reachable book with two bids of `2^62` at
100, `bids(1)` reports the quantity `-2^63` for the level, while the sum of
the level's entry quantities is `2^63`. -/
theorem C19_snapshot_counterexample :
    Reachable book_big ∧
    book_big.bid_levels_ =
      [(100, ⟨100, [⟨1, 4611686018427387904, 1⟩, ⟨2, 4611686018427387904, 2⟩]⟩)] ∧
    bids (alloc_upto 1) book_big 1 = Except.ok [⟨100, -9223372036854775808, 2⟩] ∧
    queue_sum [⟨1, 4611686018427387904, 1⟩, ⟨2, 4611686018427387904, 2⟩] =
      9223372036854775808 :=
  ⟨Reachable.add _ _ (Reachable.add _ _ (Reachable.init "TEST" 1 (by decide))),
    by rfl, by rfl, by rfl⟩

/-- C19, amended. For every book whose ladder of side `s` is in its map
order, and every `depth ≥ 0`: when `depth` is 0 or the allocator provides the
storage of `depth` elements that `out.reserve(depth)` asks for, the snapshot
of that side (`bids` for Buy, `asks` for Sell) returns a list of
`min(depth, number of levels)` elements.  Its `i`-th element describes the
`i`-th level of the ladder, which is better priced than every later level:
`px` is the level's price, `orders` the number of its entries, and `qty` the
sum of its entry quantities reduced to the `int64_t` range, which is the sum
itself whenever the running sums of the queue fit an `int64_t`.  Otherwise the
call throws `std::bad_alloc` and returns nothing.  The snapshot is a function
of the book and returns no new book. -/
theorem C19_snapshot (alloc : Nat → Bool) (b : OrderBook) (s : Side) (depth : Int)
    (hd : 0 ≤ depth) (hs : Sorted s (b.ladder s)) :
    if depth = 0 ∨ alloc depth.toNat = true then
      ∃ l, snapshot alloc b s depth = Except.ok l ∧
        l.length = min depth.toNat (b.ladder s).length ∧
        ∀ i p, i < depth.toNat → (b.ladder s)[i]? = some p →
          (∃ v, l[i]? = some v ∧ v.px = p.2.px ∧ v.orders = p.2.q.length ∧
            v.qty = wrap64 (queue_sum p.2.q) ∧ (NoOverflow p.2.q → v.qty = queue_sum p.2.q)) ∧
          (∀ j p', i < j → (b.ladder s)[j]? = some p' → side_lt s p.1 p'.1 = true)
    else snapshot alloc b s depth = Except.error SnapshotError.bad_alloc := by
  split_ifs with ha
  · refine ⟨_, snapshot_eq alloc b s depth hd ha, by simp, ?_⟩
    intro i p hi hp
    constructor
    · refine ⟨⟨p.2.px, p.2.total_qty, p.2.count⟩, ?_, rfl, rfl, total_qty_eq p.2,
        fun h => total_qty_of_fits p.2 h⟩
      rw [List.getElem?_map, List.getElem?_take_of_lt hi, hp]
      rfl
    · intro j p' hij hp'
      have hk : (keys (b.ladder s))[i]? = some p.1 := by simp [keys, hp]
      have hk' : (keys (b.ladder s))[j]? = some p'.1 := by simp [keys, hp']
      obtain ⟨hi', hki⟩ := List.getElem?_eq_some.1 hk
      obtain ⟨hj', hkj⟩ := List.getElem?_eq_some.1 hk'
      have := (List.pairwise_iff_getElem.1 hs) i j hi' hj' hij
      rw [hki, hkj] at this
      exact this
  · exact snapshot_bad_alloc alloc b s depth hd ha

/-- Instance of C19 (amended): `asks(5)` on the three-ask book, with an
allocator that provides the storage of up to 1000 elements. -/
theorem C19_snapshot_witness :
    snapshot (alloc_upto 1000) book_three_asks Side.Sell 5 =
      Except.ok [⟨10100, 40, 2⟩, ⟨10150, 20, 1⟩] ∧
    (if (5 : Int) = 0 ∨ alloc_upto 1000 (5 : Int).toNat = true then
      ∃ l, snapshot (alloc_upto 1000) book_three_asks Side.Sell 5 = Except.ok l ∧
        l.length = min (5 : Int).toNat (book_three_asks.ladder Side.Sell).length ∧
        ∀ i p, i < (5 : Int).toNat → (book_three_asks.ladder Side.Sell)[i]? = some p →
          (∃ v, l[i]? = some v ∧ v.px = p.2.px ∧ v.orders = p.2.q.length ∧
            v.qty = wrap64 (queue_sum p.2.q) ∧ (NoOverflow p.2.q → v.qty = queue_sum p.2.q)) ∧
          (∀ j p', i < j → (book_three_asks.ladder Side.Sell)[j]? = some p' →
            side_lt Side.Sell p.1 p'.1 = true)
    else snapshot (alloc_upto 1000) book_three_asks Side.Sell 5 =
      Except.error SnapshotError.bad_alloc) :=
  ⟨by rfl, C19_snapshot (alloc_upto 1000) book_three_asks Side.Sell 5 (by decide)
    ((reachable_inv book_three_asks_reachable).sorted Side.Sell)⟩


/-! ## C20: the trade journal is append-only and drained whole -/

theorem apply_op_trades (b : OrderBook) (op : Op) :
    ∃ new, (apply_op b op).2.trades_ = b.trades_ ++ new := by
  cases op with
  | add o =>
    obtain ⟨new, h, _⟩ := add_fills b o
    exact ⟨new, h⟩
  | cancel id ts => exact ⟨[], by simp [apply_op, cancel_trades]⟩
  | replace id new_px new_qty ts =>
    cases hi : b.id_index_ id with
    | none =>
      refine ⟨[], ?_⟩
      simp only [apply_op, replace]
      split_ifs <;> simp [hi]
    | some h =>
      obtain ⟨new, h1, _⟩ := replace_fills b id new_px new_qty ts h hi
      exact ⟨new, h1⟩

/-- C20. `add`, `cancel` and `replace` only append to the journal: the journal
before a call is a prefix of the journal after it.  `pop_trade` returns the
whole journal in its order and leaves it empty, so a second `pop_trade` right
after returns the empty list; `pop_trade` leaves both ladders and the id index
as they were. -/
theorem C20_journal_append_only (b : OrderBook) (op : Op) :
    b.trades_ <+: (apply_op b op).2.trades_ ∧
    (pop_trade b).1 = b.trades_ ∧ (pop_trade b).2.trades_ = [] ∧
    (pop_trade (pop_trade b).2).1 = [] ∧
    (pop_trade b).2.bid_levels_ = b.bid_levels_ ∧ (pop_trade b).2.ask_levels_ = b.ask_levels_ ∧
    (pop_trade b).2.id_index_ = b.id_index_ := by
  obtain ⟨new, h⟩ := apply_op_trades b op
  exact ⟨⟨new, h.symm⟩, rfl, rfl, rfl, rfl, rfl, rfl⟩


/-! ## C21: no level is empty and every level carries its key as price -/

theorem Reachable.reached {b : OrderBook} (h : Reachable b) : Reached b := by
  induction h with
  | init symbol tick _ => exact Reached.init symbol tick
  | add b o _ ih => exact Reached.add b o ih
  | cancel b id ts _ ih => exact Reached.cancel b id ts ih
  | replace b id new_px new_qty ts _ ih => exact Reached.replace b id new_px new_qty ts ih
  | pop_trade b _ ih => exact Reached.pop_trade b ih

theorem levels_update (b : OrderBook) (hb : ∀ s, LevelsOk (b.ladder s)) (s : Side) (m : Ladder)
    (idx : IdIndex) (tr : List Trade) (hm : LevelsOk m) :
    ∀ s', LevelsOk (({ b.setLadder s m with id_index_ := idx, trades_ := tr } : OrderBook).ladder s') := by
  intro s'
  have h1 := hb Side.Buy
  have h2 := hb Side.Sell
  cases s <;> cases s' <;> simpa [OrderBook.ladder, OrderBook.setLadder] using (by assumption)

theorem levels_set (b : OrderBook) (hb : ∀ s, LevelsOk (b.ladder s)) (s : Side) (m : Ladder)
    (hm : LevelsOk m) : ∀ s', LevelsOk ((b.setLadder s m).ladder s') := by
  rw [setLadder_eta]
  exact levels_update b hb s m _ _ hm

theorem levels_sweep (buy : Bool) (opp : Ladder) (h : LevelsOk opp) (inn : Order) (idx : IdIndex)
    (tr : List Trade) (any : Bool) : LevelsOk (sweep buy opp inn idx tr any).opp := by
  intro p hp
  obtain ⟨h1, lvl, h2, h3⟩ := sweep_levels buy opp inn idx tr any p hp
  refine ⟨?_, ?_⟩
  · rcases h1 with h1 | h1
    · exact (h p h1).1
    · exact h1
  · rw [h3]; exact (h (p.1, lvl) h2).2

theorem levels_match (b : OrderBook) (hb : ∀ s, LevelsOk (b.ladder s)) (inn : Order) :
    ∀ s, LevelsOk ((match_incoming b inn).2.2.ladder s) := by
  rw [match_incoming_eq]
  exact levels_update b hb _ _ _ _ (levels_sweep _ _ (hb _) _ _ _ _)

theorem levels_rest (b : OrderBook) (hb : ∀ s, LevelsOk (b.ladder s)) (s : Side) (px : Int)
    (id : Nat) (qty ts : Int) : ∀ s', LevelsOk ((rest_order b s px id qty ts).ladder s') := by
  rw [rest_order_eq]
  apply levels_update b hb
  intro p hp
  rcases rest_ladder_levels _ px id qty ts _ p hp with h | ⟨h1, h2, h3⟩
  · exact hb s p h
  · refine ⟨h2, ?_⟩
    rcases h3 with h3 | ⟨v, hv, h3⟩
    · rw [h3, h1]
    · rw [h3, h1]; exact (hb s (px, v) hv).2

theorem levels_removed (b : OrderBook) (hb : ∀ s, LevelsOk (b.ladder s)) (h : Handle) (id : Nat)
    (lvl : Level) (hf : map_find h.px (b.ladder h.side) = some lvl) :
    ∀ s, LevelsOk ((removed b h id lvl).ladder s) := by
  unfold removed
  apply levels_update b hb
  intro p hp
  rcases erase_entry_levels id hf p hp with h1 | ⟨h1, h2, h3⟩
  · exact hb _ p h1
  · refine ⟨h2, ?_⟩
    rw [h3, h1]
    exact (hb _ (h.px, lvl) (map_find_mem hf)).2

theorem levels_modify (b : OrderBook) (hb : ∀ s, LevelsOk (b.ladder s)) (s : Side) (k : Int)
    (f : List QueueEntry → List QueueEntry) (hf : ∀ l, map_find k (b.ladder s) = some l → f l.q ≠ []) :
    ∀ s', LevelsOk ((b.setLadder s (map_modify k (fun l => { l with q := f l.q })
      (b.ladder s))).ladder s') := by
  apply levels_set b hb
  intro p hp
  rcases map_modify_mem _ _ _ p hp with h1 | ⟨l, hl, h1⟩
  · exact hb s p h1
  · subst h1
    exact ⟨hf l hl, (hb s (k, l) (map_find_mem hl)).2⟩

theorem levels_add (b : OrderBook) (hb : ∀ s, LevelsOk (b.ladder s)) (o : Order) :
    ∀ s, LevelsOk ((add b o).2.ladder s) := by
  rw [add_eq]
  split_ifs
  · exact hb
  · exact hb
  · exact hb
  · exact hb
  · exact levels_rest b hb _ _ _ _ _
  · exact hb
  · exact levels_match b hb o
  · exact levels_match b hb o
  · exact levels_match b hb o
  · exact levels_rest _ (levels_match b hb o) _ _ _ _ _
  · exact levels_match b hb o

theorem levels_cancel (b : OrderBook) (hb : ∀ s, LevelsOk (b.ladder s)) (id : Nat) (ts : Int) :
    ∀ s, LevelsOk ((cancel b id ts).2.ladder s) := by
  rw [cancel_eq]
  cases hi : b.id_index_ id with
  | none => exact hb
  | some h =>
    simp only []
    cases hf : map_find h.px (b.ladder h.side) with
    | none => exact hb
    | some lvl =>
      simp only []
      cases hrow : find_row id lvl.q with
      | none => exact hb
      | some row => exact levels_removed b hb h id lvl hf

theorem shrink_row_ne_nil (id : Nat) (new_qty : Int) (q : List QueueEntry) (h : q ≠ []) :
    shrink_row id new_qty q ≠ [] := by
  cases q with
  | nil => exact absurd rfl h
  | cons e rest =>
    unfold shrink_row
    split_ifs <;> simp

theorem levels_replace (b : OrderBook) (hb : ∀ s, LevelsOk (b.ladder s)) (id : Nat)
    (new_px new_qty ts : Int) : ∀ s, LevelsOk ((replace b id new_px new_qty ts).2.ladder s) := by
  unfold replace
  split_ifs with h0
  · exact hb
  · cases hi : b.id_index_ id with
    | none => exact hb
    | some h =>
      simp only []
      rw [replace_side_eq]
      cases hf : map_find h.px (b.ladder h.side) with
      | none => exact hb
      | some lvl =>
        simp only []
        cases hrow : find_row id lvl.q with
        | none => exact hb
        | some row =>
          simp only []
          have hrem := levels_removed b hb h id lvl hf
          split_ifs
          · exact hb
          · exact levels_rest _ (levels_match _ hrem _) _ _ _ _ _
          · exact levels_match _ hrem _
          · exact hb
          · exact levels_modify b hb h.side h.px (fun q => shrink_row id new_qty q)
              (fun l hl => shrink_row_ne_nil id new_qty l.q (hb _ _ (map_find_mem hl)).1)
          · exact levels_modify b hb h.side h.px
              (fun q => erase_first id q ++ [(⟨row.id, new_qty, ts⟩ : QueueEntry)])
              (fun l _ => by simp)

theorem reached_levels {b : OrderBook} (h : Reached b) : ∀ s, LevelsOk (b.ladder s) := by
  induction h with
  | init symbol tick => intro s p hp; cases s <;> simp [OrderBook.init, OrderBook.ladder] at hp
  | add b o _ ih => exact levels_add b ih o
  | cancel b id ts _ ih => exact levels_cancel b ih id ts
  | replace b id new_px new_qty ts _ ih => exact levels_replace b ih id new_px new_qty ts
  | pop_trade b _ ih => exact ih

/-- C21. For every book reached from an empty book by calls of `add`, `cancel`
and `replace` (and `pop_trade`), every level present in the bid ladder or in
the ask ladder has a non-empty queue, and its `px` field equals the key under
which it is stored.  The tick of the empty book is not restricted: no step of
the argument depends on the outcome of a tick check. -/
theorem C21_no_empty_levels (b : OrderBook) (hr : Reached b) :
    ∀ s, ∀ p ∈ b.ladder s, p.2.q ≠ [] ∧ p.2.px = p.1 :=
  reached_levels hr

/-- Instance of C21: the book with tick `-5` on which a bid of 3 at 10 was
added holds one bid level, keyed 10 with `px` 10 and a queue of one entry. -/
theorem C21_no_empty_levels_witness :
    book_neg_tick.bid_levels_ = [(10, ⟨10, [⟨1, 3, 1⟩]⟩)] ∧
    ∀ s, ∀ p ∈ book_neg_tick.ladder s, p.2.q ≠ [] ∧ p.2.px = p.1 :=
  ⟨by decide, C21_no_empty_levels book_neg_tick
    (Reached.add _ _ (Reached.init "TEST" (-5)))⟩


/-! ## C22: resting quantities and traded quantities are positive -/

theorem fill_queue_trades_pos (px : Int) (buy : Bool) (dq : List QueueEntry) :
    ∀ inn idx tr any, (∀ e ∈ dq, 0 < e.qty) → (∀ t ∈ tr, 0 < t.qty) →
      ∀ t ∈ (fill_queue px buy dq inn idx tr any).trades, 0 < t.qty := by
  apply fill_queue_induct px buy (fun dq _ _ tr _ r => (∀ e ∈ dq, 0 < e.qty) →
      (∀ t ∈ tr, 0 < t.qty) → ∀ t ∈ r.trades, 0 < t.qty)
  · intro dq inn idx tr any _ _ h; exact h
  · intro m rest inn idx tr any res _ _ ih hd ht
    apply ih (fun e he => hd e (by simp [he]))
    intro t h
    simp only [List.mem_append, List.mem_singleton] at h
    rcases h with h | h
    · exact ht t h
    · subst h; exact hd m (by simp)
  · intro m rest inn idx tr any hq _ _ ht t h
    simp only [List.mem_append, List.mem_singleton] at h
    rcases h with h | h
    · exact ht t h
    · subst h; exact hq

theorem sweep_trades_pos (buy : Bool) (opp : Ladder) :
    ∀ inn idx tr any, (∀ p ∈ entries opp, 0 < p.2.qty) → (∀ t ∈ tr, 0 < t.qty) →
      ∀ t ∈ (sweep buy opp inn idx tr any).trades, 0 < t.qty := by
  apply sweep_induct buy (fun opp _ _ tr _ r => (∀ p ∈ entries opp, 0 < p.2.qty) →
      (∀ t ∈ tr, 0 < t.qty) → ∀ t ∈ r.trades, 0 < t.qty)
  · intro opp inn idx tr any _ _ h; exact h
  · intro k lvl rest inn idx tr any res _ _ ih hd ht
    apply ih (fun p hp => hd p (by simp [entries, hp]))
    exact fill_queue_trades_pos k buy lvl.q inn idx tr any
      (fun e he => hd (k, e) (by simp [entries, he])) ht
  · intro k lvl rest inn idx tr any _ _ hd ht
    exact fill_queue_trades_pos k buy lvl.q inn idx tr any
      (fun e he => hd (k, e) (by simp [entries, he])) ht

theorem match_trades_pos (b : OrderBook) (hb : Inv b) (hj : ∀ t ∈ b.trades_, 0 < t.qty)
    (inn : Order) : ∀ t ∈ (match_incoming b inn).2.2.trades_, 0 < t.qty := by
  rw [match_incoming_trades]
  exact sweep_trades_pos _ _ _ _ _ _ (hb.qty_pos _) hj

theorem add_trades_pos (b : OrderBook) (hb : Inv b) (hj : ∀ t ∈ b.trades_, 0 < t.qty)
    (o : Order) : ∀ t ∈ (add b o).2.trades_, 0 < t.qty := by
  rcases add_trades b o with h | h
  · rw [h]; exact hj
  · rw [h]; exact match_trades_pos b hb hj o

theorem replace_trades_pos (b : OrderBook) (hb : Inv b) (hj : ∀ t ∈ b.trades_, 0 < t.qty)
    (id : Nat) (new_px new_qty ts : Int) :
    ∀ t ∈ (replace b id new_px new_qty ts).2.trades_, 0 < t.qty := by
  unfold replace
  split_ifs with h0
  · exact hj
  · cases hi : b.id_index_ id with
    | none => exact hj
    | some h =>
      simp only []
      rw [replace_side_eq]
      cases hf : map_find h.px (b.ladder h.side) with
      | none => exact hj
      | some lvl =>
        simp only []
        cases hrow : find_row id lvl.q with
        | none => exact hj
        | some row =>
          simp only []
          have hm := match_trades_pos (removed b h id lvl) (removed_inv b hb id h lvl row hf hrow)
            hj (reentry h id new_px new_qty ts)
          split_ifs
          · exact hj
          · rw [rest_order_trades]; exact hm
          · exact hm
          · exact hj
          · rw [setLadder_eta]; exact hj
          · rw [setLadder_eta]; exact hj

theorem reachable_trades_pos {b : OrderBook} (h : Reachable b) : ∀ t ∈ b.trades_, 0 < t.qty := by
  induction h with
  | init symbol tick _ => intro t ht; simp [OrderBook.init] at ht
  | add b o hr ih => exact add_trades_pos b (reachable_inv hr) ih o
  | cancel b id ts _ ih => rw [cancel_trades]; exact ih
  | replace b id new_px new_qty ts hr ih =>
    exact replace_trades_pos b (reachable_inv hr) ih id new_px new_qty ts
  | pop_trade b _ _ => intro t ht; simp [pop_trade] at ht

theorem qty_of_nonneg {l : List (Int × QueueEntry)} (h : ∀ p ∈ l, 0 < p.2.qty) (id : Nat) :
    0 ≤ qty_of l id := by
  induction l with
  | nil => simp [qty_of_nil]
  | cons p rest ih =>
    rw [qty_of_cons]
    have h1 := h p (by simp)
    have h2 := ih (fun q hq => h q (by simp [hq]))
    split_ifs <;> omega

theorem qty_of_pos {l : List (Int × QueueEntry)} (h : ∀ p ∈ l, 0 < p.2.qty) {id : Nat}
    (hm : id ∈ l.map (fun p => p.2.id)) : 0 < qty_of l id := by
  induction l with
  | nil => simp at hm
  | cons p rest ih =>
    rw [qty_of_cons]
    have h1 := h p (by simp)
    have h2 := qty_of_nonneg (fun q hq => h q (List.mem_cons_of_mem _ hq)) id
    simp only [List.map_cons, List.mem_cons] at hm
    by_cases hp : p.2.id = id
    · rw [if_pos hp]; omega
    · rw [if_neg hp]
      rcases hm with hm | hm
      · exact absurd hm.symm hp
      · have := ih (fun q hq => h q (List.mem_cons_of_mem _ hq)) hm
        omega

/-- On a book that satisfies the invariant, an id with no resting quantity
has no entry in either ladder and no handle in the index. -/
theorem Inv.absent_of_zero {b : OrderBook} (hb : Inv b) {m : Nat} (h : b.resting m = 0) :
    m ∉ ids b.bid_levels_ ∧ m ∉ ids b.ask_levels_ ∧ b.id_index_ m = none := by
  have p1 := hb.qty_pos Side.Buy
  have p2 := hb.qty_pos Side.Sell
  have n1 := qty_of_nonneg p1 m
  have n2 := qty_of_nonneg p2 m
  have a1 : m ∉ ids b.bid_levels_ := by
    intro hm
    have := qty_of_pos p1 hm
    simp only [OrderBook.resting, OrderBook.ladder] at *
    omega
  have a2 : m ∉ ids b.ask_levels_ := by
    intro hm
    have := qty_of_pos p2 hm
    simp only [OrderBook.resting, OrderBook.ladder] at *
    omega
  refine ⟨a1, a2, ?_⟩
  cases hi : b.id_index_ m with
  | none => rfl
  | some hd =>
    exfalso
    have hk := mem_ids_of_keyed ((hb.index m hd).1 hi)
    cases hs : hd.side
    · rw [hs] at hk; exact a1 hk
    · rw [hs] at hk; exact a2 hk

/-- C22. On every book reached from an empty book with a positive tick, every
queue entry of either ladder has `qty > 0` and every trade in the journal has
`qty > 0`; so has every trade that a further call of `add`, `cancel` or
`replace` appends.  A maker on the side opposite to the taker of that call
whose whole resting quantity was traded in it is, after the call, in neither
ladder and not in the id index.  This happens within the fill itself: when
the maker at the head of the queue has no more than the taker has left, the
inner loop of the matcher goes on, after the one trade for the maker's whole
quantity, with the queue without that maker and the index without its id. -/
theorem C22_positive_quantities (b : OrderBook) (hr : Reachable b) (op : Op) :
    (∀ s, ∀ p ∈ entries (b.ladder s), 0 < p.2.qty) ∧
    (∀ t ∈ b.trades_, 0 < t.qty) ∧
    (∀ t ∈ emitted b (apply_op b op).2, 0 < t.qty) ∧
    (∀ taker, taker_of b op = some taker → ∀ m ∈ ids (b.ladder taker.side.flip),
      traded_with (emitted b (apply_op b op).2) m = b.resting m →
        m ∉ ids (apply_op b op).2.bid_levels_ ∧ m ∉ ids (apply_op b op).2.ask_levels_ ∧
        (apply_op b op).2.id_index_ m = none) ∧
    (∀ (px : Int) (buy : Bool) (mk : QueueEntry) (rest : List QueueEntry) (inn : Order)
        (idx : IdIndex) (tr : List Trade) (any : Bool), 0 < inn.qty → mk.qty ≤ inn.qty →
      fill_queue px buy (mk :: rest) inn idx tr any =
        fill_queue px buy rest { inn with qty := inn.qty - mk.qty } (idx.erase mk.id)
          (tr ++ [⟨inn.id, mk.id, px, mk.qty, inn.ts_ns, buy⟩]) true ∧
      (idx.erase mk.id) mk.id = none) := by
  have hb := reachable_inv hr
  have hr' := apply_op_reachable b hr op
  have hb' := reachable_inv hr'
  refine ⟨hb.qty_pos, reachable_trades_pos hr, ?_, ?_, ?_⟩
  · intro t ht
    exact reachable_trades_pos hr' t (List.mem_of_mem_drop ht)
  · intro taker htk m hm ht
    obtain ⟨h1, _⟩ := op_conserves b hb op taker htk m hm
    exact hb'.absent_of_zero (by omega)
  · intro px buy mk rest inn idx tr any hq hm
    exact ⟨fill_queue_whole px buy mk rest inn idx tr any hq hm, by simp [IdIndex.erase]⟩

/-- Instance of C22: the buy of 35 at 10150 on the three-ask book trades 30
with ask `1` and 5 with ask `2`; ask `1`, filled whole, is gone from the
ladders and the index. -/
theorem C22_positive_quantities_witness :
    (emitted book_three_asks (apply_op book_three_asks (Op.add order_buy_35)).2).map
      (fun t => (t.maker_id, t.qty)) = [(1, 30), (2, 5)] ∧
    ids (apply_op book_three_asks (Op.add order_buy_35)).2.ask_levels_ = [2, 3] ∧
    (apply_op book_three_asks (Op.add order_buy_35)).2.id_index_ 1 = none ∧
    ((∀ s, ∀ p ∈ entries (book_three_asks.ladder s), 0 < p.2.qty) ∧
    (∀ t ∈ book_three_asks.trades_, 0 < t.qty) ∧
    (∀ t ∈ emitted book_three_asks (apply_op book_three_asks (Op.add order_buy_35)).2,
      0 < t.qty) ∧
    (∀ taker, taker_of book_three_asks (Op.add order_buy_35) = some taker →
      ∀ m ∈ ids (book_three_asks.ladder taker.side.flip),
      traded_with (emitted book_three_asks (apply_op book_three_asks (Op.add order_buy_35)).2) m =
          book_three_asks.resting m →
        m ∉ ids (apply_op book_three_asks (Op.add order_buy_35)).2.bid_levels_ ∧
        m ∉ ids (apply_op book_three_asks (Op.add order_buy_35)).2.ask_levels_ ∧
        (apply_op book_three_asks (Op.add order_buy_35)).2.id_index_ m = none) ∧
    (∀ (px : Int) (buy : Bool) (mk : QueueEntry) (rest : List QueueEntry) (inn : Order)
        (idx : IdIndex) (tr : List Trade) (any : Bool), 0 < inn.qty → mk.qty ≤ inn.qty →
      fill_queue px buy (mk :: rest) inn idx tr any =
        fill_queue px buy rest { inn with qty := inn.qty - mk.qty } (idx.erase mk.id)
          (tr ++ [⟨inn.id, mk.id, px, mk.qty, inn.ts_ns, buy⟩]) true ∧
      (idx.erase mk.id) mk.id = none)) :=
  ⟨by decide, by decide, by decide,
    C22_positive_quantities book_three_asks book_three_asks_reachable (Op.add order_buy_35)⟩


/-! ## C23: the matcher runs until the taker is exhausted or no acceptable price is left -/

/-- What the inner loop leaves in the queue: entries it did not touch, and at
most one changed entry, the head, which is a maker left with a smaller
positive quantity; in that case the taker has nothing left. -/
theorem fill_queue_left (px : Int) (buy : Bool) (dq : List QueueEntry) :
    ∀ inn idx tr any, ∀ e ∈ (fill_queue px buy dq inn idx tr any).dq,
      e ∈ dq ∨ ((fill_queue px buy dq inn idx tr any).inn.qty = 0 ∧
        (fill_queue px buy dq inn idx tr any).dq.head? = some e ∧
        ∃ e0 ∈ dq, e0.id = e.id ∧ e0.ts_ns = e.ts_ns ∧ 0 < e.qty ∧ e.qty < e0.qty) := by
  apply fill_queue_induct px buy (fun dq _ _ _ _ r => ∀ e ∈ r.dq,
      e ∈ dq ∨ (r.inn.qty = 0 ∧ r.dq.head? = some e ∧
        ∃ e0 ∈ dq, e0.id = e.id ∧ e0.ts_ns = e.ts_ns ∧ 0 < e.qty ∧ e.qty < e0.qty))
  · intro dq inn idx tr any _ e he; exact Or.inl he
  · intro m rest inn idx tr any res _ _ ih e he
    rcases ih e he with h | ⟨h1, h2, e0, h3, h4⟩
    · left; simp [h]
    · right; exact ⟨h1, h2, e0, by simp [h3], h4⟩
  · intro m rest inn idx tr any hq hlt e he
    simp only [List.mem_cons] at he
    rcases he with he | he
    · right; subst he
      refine ⟨rfl, rfl, m, by simp, rfl, rfl, ?_, ?_⟩
      · show 0 < m.qty - inn.qty; omega
      · show m.qty - inn.qty < m.qty; omega
    · left; simp [he]

theorem sweep_left (buy : Bool) (opp : Ladder) :
    ∀ inn idx tr any, ∀ p ∈ entries (sweep buy opp inn idx tr any).opp,
      p ∈ entries opp ∨ ((sweep buy opp inn idx tr any).inn.qty = 0 ∧
        (entries (sweep buy opp inn idx tr any).opp).head? = some p ∧
        ∃ p0 ∈ entries opp, p0.1 = p.1 ∧ p0.2.id = p.2.id ∧ p0.2.ts_ns = p.2.ts_ns ∧
          0 < p.2.qty ∧ p.2.qty < p0.2.qty) := by
  apply sweep_induct buy (fun opp _ _ _ _ r => ∀ p ∈ entries r.opp,
      p ∈ entries opp ∨ (r.inn.qty = 0 ∧ (entries r.opp).head? = some p ∧
        ∃ p0 ∈ entries opp, p0.1 = p.1 ∧ p0.2.id = p.2.id ∧ p0.2.ts_ns = p.2.ts_ns ∧
          0 < p.2.qty ∧ p.2.qty < p0.2.qty))
  · intro opp inn idx tr any _ p hp; exact Or.inl hp
  · intro k lvl rest inn idx tr any res _ _ ih p hp
    rcases ih p hp with h | ⟨h1, h2, p0, h3, h4⟩
    · left; simp [entries, h]
    · right; exact ⟨h1, h2, p0, by simp [entries, h3], h4⟩
  · intro k lvl rest inn idx tr any _ hne p hp
    have hent : entries ((k, { lvl with q := (fill_queue k buy lvl.q inn idx tr any).dq }) :: rest) =
        (fill_queue k buy lvl.q inn idx tr any).dq.map (fun e => (k, e)) ++ entries rest := rfl
    simp only [] at hp ⊢
    rw [hent] at hp ⊢
    simp only [List.mem_append, List.mem_map] at hp
    rcases hp with ⟨e, he, rfl⟩ | hp
    · rcases fill_queue_left k buy lvl.q inn idx tr any e he with h | ⟨h1, h2, e0, h3, h4⟩
      · left; simp only [entries, List.mem_append, List.mem_map]
        exact Or.inl ⟨e, h, rfl⟩
      · right
        refine ⟨h1, ?_, (k, e0), ?_, rfl, h4⟩
        · cases hd : (fill_queue k buy lvl.q inn idx tr any).dq with
          | nil => exact absurd hd hne
          | cons x xs => rw [hd] at h2; simp at h2; simp [h2]
        · simp only [entries, List.mem_append, List.mem_map]
          exact Or.inl ⟨e0, h3, rfl⟩
    · left; simp only [entries, List.mem_append]; exact Or.inr hp

theorem entries_id_inj {m : Ladder} (h : (ids m).Nodup) {p q : Int × QueueEntry}
    (hp : p ∈ entries m) (hq : q ∈ entries m) (he : p.2.id = q.2.id) : p = q :=
  List.inj_on_of_nodup_map h hp hq he

/-- C23. For every reachable book and every taker with a positive quantity
(`match_incoming` is private; `add` and `replace` call it after they checked
`qty > 0`), the state that `match_incoming` returns is the state of its outer
loop for every number of iterations above the number of opposite levels, and in
that state the taker's remaining quantity is 0, or the opposite ladder is empty,
or the taker is a Limit order and the best remaining opposite price is strictly
worse than its limit (above `px` for a buy, below `px` for a sell).  A maker
that rests on the opposite side before and after the call with a different
quantity was left partially filled: it then has a smaller positive quantity at
the same price, it is the head of the best remaining level, and the taker's
remaining quantity is 0. -/
theorem C23_matcher_exhaustion (b : OrderBook) (hr : Reachable b) (inn : Order)
    (hq : 0 < inn.qty) :
    (∀ n, (b.ladder inn.side.flip).length < n →
      match_loop inn.side.is_buy n ⟨b.ladder inn.side.flip, inn, b.id_index_, b.trades_, false⟩ =
        ⟨(match_incoming b inn).2.2.ladder inn.side.flip, (match_incoming b inn).2.1,
          (match_incoming b inn).2.2.id_index_, (match_incoming b inn).2.2.trades_,
          (match_incoming b inn).1⟩) ∧
    ((match_incoming b inn).2.1.qty = 0 ∨
      (match_incoming b inn).2.2.ladder inn.side.flip = [] ∨
      (inn.type = OrdType.Limit ∧
        ∃ k, best ((match_incoming b inn).2.2.ladder inn.side.flip) = some k ∧
          ((inn.side = Side.Buy ∧ inn.px < k) ∨ (inn.side = Side.Sell ∧ k < inn.px)))) ∧
    (∀ p0 ∈ entries (b.ladder inn.side.flip),
      ∀ p ∈ entries ((match_incoming b inn).2.2.ladder inn.side.flip),
        p.2.id = p0.2.id → p.2.qty ≠ p0.2.qty →
          (match_incoming b inn).2.1.qty = 0 ∧
          (entries ((match_incoming b inn).2.2.ladder inn.side.flip)).head? = some p ∧
          p.1 = p0.1 ∧ 0 < p.2.qty ∧ p.2.qty < p0.2.qty) := by
  have hb := reachable_inv hr
  have hnd : (ids (b.ladder inn.side.flip)).Nodup :=
    (List.nodup_append.1 (hb.nodup_side inn.side.flip)).1
  refine ⟨?_, ?_, ?_⟩
  · intro n hn
    rw [match_loop_eq_sweep _ _ _ hn, match_incoming_opp]
    rw [match_incoming_eq]
  · rw [match_incoming_opp]
    have hqty : (match_incoming b inn).2.1.qty =
        (sweep inn.side.is_buy (b.ladder inn.side.flip) inn b.id_index_ b.trades_ false).inn.qty := by
      rw [match_incoming_eq]
    rw [hqty]
    have hnn := sweep_qty_nonneg inn.side.is_buy (b.ladder inn.side.flip) inn b.id_index_
      b.trades_ false (le_of_lt hq)
    rcases sweep_exit inn.side.is_buy (b.ladder inn.side.flip) inn b.id_index_ b.trades_ false
      with h | h | ⟨k, lvl, rest, h1, h2, h3⟩
    · left; omega
    · right; left; exact h
    · right; right
      refine ⟨?_, k, by rw [h1]; rfl, ?_⟩
      · cases ht : inn.type with
        | Limit => rfl
        | Market => exact absurd ht h2
      · cases hs : inn.side with
        | Buy => rw [hs] at h3; left; exact ⟨rfl, by simpa [past_limit, Side.is_buy] using h3⟩
        | Sell => rw [hs] at h3; right; exact ⟨rfl, by simpa [past_limit, Side.is_buy] using h3⟩
  · intro p0 hp0 p hp hid hne
    have hqty : (match_incoming b inn).2.1.qty =
        (sweep inn.side.is_buy (b.ladder inn.side.flip) inn b.id_index_ b.trades_ false).inn.qty := by
      rw [match_incoming_eq]
    rw [match_incoming_opp] at hp ⊢
    rw [hqty]
    rcases sweep_left inn.side.is_buy (b.ladder inn.side.flip) inn b.id_index_ b.trades_ false p hp
      with h | ⟨h1, h2, q0, h3, h4, h5, _, h6, h7⟩
    · exact absurd (congrArg (fun x => x.2.qty) (entries_id_inj hnd h hp0 hid)) hne
    · have := entries_id_inj hnd h3 hp0 (h5.trans hid)
      subst this
      exact ⟨h1, h2, h4.symm, h6, h7⟩

/-- Instance of C23: the buy of 35 at 10150 on the three-ask book is exhausted;
it leaves ask `2` at the head of the ask ladder with 5 of its 10. -/
theorem C23_matcher_exhaustion_witness :
    (match_incoming book_three_asks order_buy_35).2.1.qty = 0 ∧
    (match_incoming book_three_asks order_buy_35).2.2.ask_levels_ =
      [(10100, ⟨10100, [⟨2, 5, 2⟩]⟩), (10150, ⟨10150, [⟨3, 20, 3⟩]⟩)] ∧
    ((∀ n, (book_three_asks.ladder order_buy_35.side.flip).length < n →
      match_loop order_buy_35.side.is_buy n
          ⟨book_three_asks.ladder order_buy_35.side.flip, order_buy_35,
            book_three_asks.id_index_, book_three_asks.trades_, false⟩ =
        ⟨(match_incoming book_three_asks order_buy_35).2.2.ladder order_buy_35.side.flip,
          (match_incoming book_three_asks order_buy_35).2.1,
          (match_incoming book_three_asks order_buy_35).2.2.id_index_,
          (match_incoming book_three_asks order_buy_35).2.2.trades_,
          (match_incoming book_three_asks order_buy_35).1⟩) ∧
    ((match_incoming book_three_asks order_buy_35).2.1.qty = 0 ∨
      (match_incoming book_three_asks order_buy_35).2.2.ladder order_buy_35.side.flip = [] ∨
      (order_buy_35.type = OrdType.Limit ∧
        ∃ k, best ((match_incoming book_three_asks order_buy_35).2.2.ladder
            order_buy_35.side.flip) = some k ∧
          ((order_buy_35.side = Side.Buy ∧ order_buy_35.px < k) ∨
            (order_buy_35.side = Side.Sell ∧ k < order_buy_35.px)))) ∧
    (∀ p0 ∈ entries (book_three_asks.ladder order_buy_35.side.flip),
      ∀ p ∈ entries ((match_incoming book_three_asks order_buy_35).2.2.ladder
          order_buy_35.side.flip),
        p.2.id = p0.2.id → p.2.qty ≠ p0.2.qty →
          (match_incoming book_three_asks order_buy_35).2.1.qty = 0 ∧
          (entries ((match_incoming book_three_asks order_buy_35).2.2.ladder
            order_buy_35.side.flip)).head? = some p ∧
          p.1 = p0.1 ∧ 0 < p.2.qty ∧ p.2.qty < p0.2.qty)) :=
  ⟨by decide, by decide,
    C23_matcher_exhaustion book_three_asks book_three_asks_reachable order_buy_35 (by decide)⟩


/-! ## C24: the feasibility walk of FOK against the reference sum -/

theorem queue_sum_cons (e : QueueEntry) (q : List QueueEntry) :
    queue_sum (e :: q) = e.qty + queue_sum q := by
  simp [queue_sum]

theorem queue_sum_nonneg (q : List QueueEntry) (h : ∀ e ∈ q, 0 < e.qty) : 0 ≤ queue_sum q := by
  induction q with
  | nil => simp [queue_sum]
  | cons e rest ih =>
    rw [queue_sum_cons]
    have h1 := h e (by simp)
    have h2 := ih (fun a ha => h a (by simp [ha]))
    omega

/-- The inner loop of the walk on a queue of positive quantities: it returns
`true` exactly when the queue holds at least `need`, and otherwise leaves
`need` less the whole queue. -/
theorem walk_queue_sum (q : List QueueEntry) :
    ∀ need, (∀ e ∈ q, 0 < e.qty) → 0 < need →
      match walk_queue q need with
      | none => need ≤ queue_sum q
      | some n => n = need - queue_sum q ∧ 0 < n := by
  induction q with
  | nil => intro need _ hn; simp [walk_queue, queue_sum, hn]
  | cons e rest ih =>
    intro need h hn
    have h1 := h e (by simp)
    have h2 := queue_sum_nonneg rest (fun a ha => h a (by simp [ha]))
    rw [queue_sum_cons]
    unfold walk_queue
    by_cases hz : need - e.qty ≤ 0
    · rw [if_pos hz]; simp only []; omega
    · rw [if_neg hz]
      have := ih (need - e.qty) (fun a ha => h a (by simp [ha])) (by omega)
      cases hw : walk_queue rest (need - e.qty) with
      | none => rw [hw] at this; simp only [] at this ⊢; omega
      | some n => rw [hw] at this; simp only [] at this ⊢; omega

theorem acceptable_sum_cons (x : Order) (k : Int) (lvl : Level) (rest : Ladder) :
    acceptable_sum x ((k, lvl) :: rest) =
      (if acceptable x lvl.px = true then queue_sum lvl.q else 0) + acceptable_sum x rest := by
  unfold acceptable_sum
  by_cases h : acceptable x lvl.px = true
  · simp [List.filter_cons, h]
  · simp [List.filter_cons, h]

theorem acceptable_sum_nonneg (x : Order) (m : Ladder) (h : ∀ p ∈ entries m, 0 < p.2.qty) :
    0 ≤ acceptable_sum x m := by
  induction m with
  | nil => simp [acceptable_sum]
  | cons p rest ih =>
    obtain ⟨k, lvl⟩ := p
    rw [acceptable_sum_cons]
    have h1 := queue_sum_nonneg lvl.q (fun e he => h (k, e) (by simp [entries, he]))
    have h2 := ih (fun q hq => h q (by simp [entries, hq]))
    split_ifs <;> omega

theorem acceptable_sum_zero (x : Order) (m : Ladder)
    (h : ∀ p ∈ m, acceptable x p.2.px = false) : acceptable_sum x m = 0 := by
  induction m with
  | nil => simp [acceptable_sum]
  | cons p rest ih =>
    obtain ⟨k, lvl⟩ := p
    rw [acceptable_sum_cons, ih (fun q hq => h q (by simp [hq]))]
    have := h (k, lvl) (by simp)
    simp only [] at this
    simp [this]

theorem acceptable_iff (x : Order) (k : Int) :
    acceptable x k = true ↔ ¬ (x.type = OrdType.Limit ∧ past_limit x.side.is_buy x.px k = true) := by
  cases ht : x.type <;> cases hs : x.side <;>
    simp [acceptable, ht, hs, past_limit, Side.is_buy]

/-- Past the first level that is beyond the limit, a sorted ladder holds no
acceptable level. -/
theorem unacceptable_tail (x : Order) (k : Int) (lvl : Level) (rest : Ladder)
    (hs : Sorted x.side.flip ((k, lvl) :: rest)) (hk : LevelsOk ((k, lvl) :: rest))
    (hg : x.type = OrdType.Limit ∧ past_limit x.side.is_buy x.px k = true) :
    ∀ p ∈ (k, lvl) :: rest, acceptable x p.2.px = false := by
  intro p hp
  have hin : inside x.side x.px p.1 := by
    have h0 := (past_limit_iff_inside x.side x.px k).1 hg.2
    rcases hs.head_best p.1 (List.mem_map_of_mem Prod.fst hp) with h | h
    · rw [h]; exact h0
    · exact inside_of_head x.side h0 h
  have hn : ¬ acceptable x p.2.px = true := by
    rw [acceptable_iff, (hk p hp).2]
    intro hc
    exact hc ⟨hg.1, (past_limit_iff_inside x.side x.px p.1).2 hin⟩
  cases h : acceptable x p.2.px with
  | false => rfl
  | true => exact absurd h hn

/-- The walk against the reference sum, on a sorted ladder of positive
quantities whose levels carry their keys. -/
theorem walk_levels_sum (x : Order) (m : Ladder) :
    ∀ need, 0 < need → Sorted x.side.flip m → LevelsOk m → (∀ p ∈ entries m, 0 < p.2.qty) →
      (walk_levels x.side.is_buy x m need = true ↔ need ≤ acceptable_sum x m) := by
  induction m with
  | nil =>
    intro need hn _ _ _
    simp [walk_levels, acceptable_sum, hn]
  | cons p rest ih =>
    obtain ⟨k, lvl⟩ := p
    intro need hn hs hk hpos
    have hs' : Sorted x.side.flip rest := (List.pairwise_cons.1 hs).2
    have hk' : LevelsOk rest := fun q hq => hk q (by simp [hq])
    have hpos' : ∀ q ∈ entries rest, 0 < q.2.qty := fun q hq => hpos q (by simp [entries, hq])
    have hpx : lvl.px = k := (hk (k, lvl) (by simp)).2
    simp only [walk_levels, hn, if_true]
    by_cases hg : x.type = OrdType.Limit ∧ past_limit x.side.is_buy x.px k = true
    · rw [if_pos hg, acceptable_sum_zero x _ (unacceptable_tail x k lvl rest hs hk hg)]
      simp
    · rw [if_neg hg, acceptable_sum_cons]
      have hacc : acceptable x lvl.px = true := by rw [hpx]; exact (acceptable_iff x k).2 hg
      rw [if_pos hacc]
      have hq := walk_queue_sum lvl.q need (fun e he => hpos (k, e) (by simp [entries, he])) hn
      have hnn := acceptable_sum_nonneg x rest hpos'
      cases hw : walk_queue lvl.q need with
      | none =>
        rw [hw] at hq
        simp only [] at hq ⊢
        constructor
        · intro _; omega
        · intro _; trivial
      | some n =>
        rw [hw] at hq
        simp only [] at hq ⊢
        rw [ih n hq.2 hs' hk' hpos']
        omega

theorem scan_queue_eq (q : List QueueEntry) : ∀ need, scan_queue q need = walk_queue q need := by
  induction q with
  | nil => intro need; rfl
  | cons e rest ih =>
    intro need
    unfold scan_queue walk_queue
    rw [ih]

theorem scan_asks_eq (x : Order) (m : Ladder) :
    ∀ need, scan_asks x m need = walk_levels true x m need := by
  induction m with
  | nil => intro need; rfl
  | cons p rest ih =>
    obtain ⟨k, lvl⟩ := p
    intro need
    unfold scan_asks walk_levels
    simp only [past_limit, if_true, decide_eq_true_eq, scan_queue_eq, ih]

theorem scan_bids_eq (x : Order) (m : Ladder) :
    ∀ need, scan_bids x m need = walk_levels false x m need := by
  induction m with
  | nil => intro need; rfl
  | cons p rest ih =>
    obtain ⟨k, lvl⟩ := p
    intro need
    unfold scan_bids walk_levels
    simp only [past_limit, Bool.false_eq_true, if_false, decide_eq_true_eq, scan_queue_eq, ih]

/-- The member and the lambda return the same value on every book and order. -/
theorem member_eq_lambda (b : OrderBook) (x : Order) :
    OrderBook.can_fully_fill b x = can_fully_fill b x := by
  unfold OrderBook.can_fully_fill can_fully_fill
  split_ifs
  · rfl
  · cases x.side
    · exact scan_asks_eq x _ _
    · exact scan_bids_eq x _ _

theorem can_fully_fill_walk (b : OrderBook) (x : Order) (hq : 0 < x.qty) :
    can_fully_fill b x = walk_levels x.side.is_buy x (b.ladder x.side.flip) x.qty := by
  unfold can_fully_fill
  rw [if_neg (by omega)]
  cases x.side <;> rfl

theorem add_fok_walk (b : OrderBook) (x : Order) (hq : 0 < x.qty) (ht : x.tif = TIF.FOK)
    (hid : b.id_index_ x.id = none)
    (hv : ¬ (x.type ≠ OrdType.Market ∧ (x.px ≤ 0 ∨ Int.tmod x.px b.tick_ ≠ 0))) :
    add b x = if can_fully_fill b x = true then (true, (match_incoming b x).2.2)
      else (false, b) := by
  rw [add_eq, if_neg (by omega), if_neg (by simp [hid]), if_neg hv,
    if_neg (by rw [ht]; decide), if_pos ht]
  cases hc : can_fully_fill b x with
  | false => simp
  | true => simp [fok_fills b x hq hc]

/-- C24. On every reachable book and for every order `x` with `x.qty > 0`, the
feasibility walk of `add` (the lambda `can_fully_fill`) returns `true` if and
only if the quantities of all entries on the opposite side in levels at
acceptable prices (`px <= x.px` for a Limit buy, `px >= x.px` for a Limit
sell, every level for a Market order) sum to at least `x.qty`.  The member
`OrderBook::can_fully_fill` returns what the lambda returns, for every order.
The walk is a read-only computation, a function of the book and the order to a
flag: a FOK order that reaches the walk is rejected with the book as it was
when the walk fails, and otherwise gets the book that the matcher makes of
the book as it was, with the flag `true`. -/
theorem C24_fok_reference_sum (b : OrderBook) (hr : Reachable b) (x : Order)
    (hq : 0 < x.qty) :
    (can_fully_fill b x = true ↔ x.qty ≤ available b x) ∧
    (∀ y : Order, OrderBook.can_fully_fill b y = can_fully_fill b y) ∧
    (x.tif = TIF.FOK → b.id_index_ x.id = none →
      ¬ (x.type ≠ OrdType.Market ∧ (x.px ≤ 0 ∨ Int.tmod x.px b.tick_ ≠ 0)) →
      add b x = if can_fully_fill b x = true then (true, (match_incoming b x).2.2)
        else (false, b)) := by
  have hb := reachable_inv hr
  refine ⟨?_, member_eq_lambda b, add_fok_walk b x hq⟩
  rw [can_fully_fill_walk b x hq]
  exact walk_levels_sum x (b.ladder x.side.flip) x.qty hq (hb.sorted _)
    (fun p hp => ⟨hb.nonempty _ p hp, hb.key_px _ p hp⟩) (hb.qty_pos _)

/-- Instance of C24: for a FOK buy of 45 at 10100 the three-ask book offers 40
at acceptable prices (and 20 more above the limit), and the walk fails. -/
theorem C24_fok_reference_sum_witness :
    available book_three_asks order_fok_45 = 40 ∧
    can_fully_fill book_three_asks order_fok_45 = false ∧
    ((can_fully_fill book_three_asks order_fok_45 = true ↔
      order_fok_45.qty ≤ available book_three_asks order_fok_45) ∧
    (∀ y : Order, OrderBook.can_fully_fill book_three_asks y = can_fully_fill book_three_asks y) ∧
    (order_fok_45.tif = TIF.FOK → book_three_asks.id_index_ order_fok_45.id = none →
      ¬ (order_fok_45.type ≠ OrdType.Market ∧
        (order_fok_45.px ≤ 0 ∨ Int.tmod order_fok_45.px book_three_asks.tick_ ≠ 0)) →
      add book_three_asks order_fok_45 =
        if can_fully_fill book_three_asks order_fok_45 = true then
          (true, (match_incoming book_three_asks order_fok_45).2.2)
        else (false, book_three_asks))) :=
  ⟨by decide, by decide,
    C24_fok_reference_sum book_three_asks book_three_asks_reachable order_fok_45 (by decide)⟩

end OB
